import Mathlib

/-!
Shallow embedding of `src/trace_processor/importers/proto/heap_graph_walker.cc`
(perfetto heap-graph retained-size walker).

Modelling conventions:
* `uint64_t` values are `Nat`; every arithmetic operation that can wrap in C++
  (additions, multiplications, and the one subtraction on `incoming_edges`)
  is followed by an explicit `% U64`.  Counters that are only ever incremented
  by one per element of an in-memory data structure (`next_node_index_`,
  `edges_from_current_component`, `incoming_edges++`) cannot reach `2^64`
  in any realizable execution and are kept as plain `Nat`.
* `int64_t` values are `Int`; the `uint64_t -> int64_t` casts in the source go
  through `toInt64`.
* `std::set<Node*>` over nodes of the contiguous `nodes_` vector iterates in
  address order, i.e. in row-index order; child/parent sets are sorted,
  duplicate-free `List Nat`.  `std::map` (ordered by key) becomes a sorted
  association list.
* `PERFETTO_CHECK` failures abort the process; functions that can hit a check
  return `Option` and yield `none` on a failed check.  The recursive
  `FindSCC` additionally takes fuel (the callers pass `nodes.length + 1`,
  which dominates the C++ recursion depth); running out of fuel also gives
  `none`.
* The `Delegate` callbacks (`MarkReachable`, `SetRetained`) are modelled as an
  event log inside the state.
-/

def U64 : Nat := 2 ^ 64

/-- `Gcd` from the anonymous namespace: fast paths for arguments equal to 1,
then the Euclidean loop.  The loop is written with structural fuel so that it
reduces definitionally; `other` strictly decreases each iteration, so fuel
`other + 1` always suffices (`gcdLoop_eq_gcd`). -/
def gcdLoop : Nat → Nat → Nat → Nat
  | 0, one, _ => one
  | Nat.succ f, one, other => if other = 0 then one else gcdLoop f other (one % other)

def Gcd (one other : Nat) : Nat :=
  if one = 1 then 1
  else if other = 1 then 1
  else gcdLoop (other + 1) one other

/-- With adequate fuel the Euclidean loop computes the mathematical gcd. -/
theorem gcdLoop_eq_gcd (f one other : Nat) (h : other < f) :
    gcdLoop f one other = Nat.gcd other one := by
  induction f generalizing one other with
  | zero => omega
  | succ f ih =>
    show (if other = 0 then one else gcdLoop f other (one % other)) = _
    rcases Nat.eq_zero_or_pos other with h0 | h0
    · subst h0; simp
    · rw [if_neg (Nat.pos_iff_ne_zero.mp h0)]
      rw [ih other (one % other) (by have := Nat.mod_lt one h0; omega)]
      rw [Nat.gcd_rec other one]

/-- `Lcm` from the anonymous namespace; the multiplication is 64-bit. -/
def Lcm (one other : Nat) : Nat :=
  if one > other then (other * (one / Gcd one other)) % U64
  else (one * (other / Gcd one other)) % U64

/-- The rational type of the walker; fields are `uint64_t`. -/
structure Fraction where
  numerator : Nat
  denominator : Nat
deriving DecidableEq, Repr

/-- `Fraction::Reduce`.  The final `PERFETTO_CHECK(denominator_ > 0)` is
modelled by returning `none`. -/
def Fraction.Reduce (f : Fraction) : Option Fraction :=
  if f.numerator = 0 then some { f with denominator := 1 }
  else if f.numerator = 1 then some f
  else
    let g := Gcd f.numerator f.denominator
    let f' : Fraction := ⟨f.numerator / g, f.denominator / g⟩
    if f'.denominator = 0 then none else some f'

/-- The `Fraction(numerator, denominator)` constructor:
`PERFETTO_CHECK(denominator_ > 0)` then `Reduce()`. -/
def mkFraction (numerator denominator : Nat) : Option Fraction :=
  if denominator % U64 = 0 then none
  else Fraction.Reduce ⟨numerator % U64, denominator % U64⟩

/-- `Fraction::operator+=`. -/
def Fraction.add (a b : Fraction) : Option Fraction :=
  let new_denominator := Lcm a.denominator b.denominator
  let new_numerator :=
    (a.numerator * (new_denominator / a.denominator) +
     b.numerator * (new_denominator / b.denominator)) % U64
  Fraction.Reduce ⟨new_numerator, new_denominator⟩

/-- `Fraction::operator*`: multiply componentwise (wrapping), then run the
constructor. -/
def Fraction.mul (a b : Fraction) : Option Fraction :=
  mkFraction (a.numerator * b.numerator) (a.denominator * b.denominator)

/-- `Fraction::operator==(uint64_t)`: `numerator_ == denominator_ * other`
with a 64-bit multiplication. -/
def Fraction.eqInt (f : Fraction) (other : Nat) : Bool :=
  f.numerator == (f.denominator * other) % U64

/-- Interpret a `uint64_t` bit pattern as `int64_t` (the
`static_cast<int64_t>` of the source). -/
def toInt64 (n : Nat) : Int :=
  if n % U64 < 2 ^ 63 then ((n % U64 : Nat) : Int)
  else ((n % U64 : Nat) : Int) - (U64 : Int)

/-! ## Graph store data model

The `Node`, `Component` and walker state are declared in
`heap_graph_walker.h`, which is not part of `src/`.
Modelled from the spec: field defaults follow section 3 of the spec
("Tarjan bookkeeping (discovery index, low-link value, on-stack flag,
resolved component id or 'unassigned')"); a freshly created node is
unvisited (`node_index = 0`), off the stack, unreachable and unassigned
(`component = -1`); `next_node_index` starts at 1 so that index 0 means
"unvisited". -/

/-- One heap object (`HeapGraphWalker::Node`). `children`/`parents` are the
row-index sets (sorted, duplicate-free). -/
structure Node where
  children : List Nat := []
  parents : List Nat := []
  self_size : Nat := 0
  row : Int := 0
  node_index : Nat := 0
  lowlink : Nat := 0
  component : Int := -1
  reachable : Bool := false
  on_stack : Bool := false
deriving DecidableEq, Repr

/-- One strongly connected component (`HeapGraphWalker::Component`).
`children_components` is the ownership ledger, a `std::map` from child
component id to fraction (sorted association list). -/
structure Component where
  lowlink : Nat := 0
  unique_retained_size : Nat := 0
  incoming_edges : Nat := 0
  orig_incoming_edges : Nat := 0
  children_components : List (Int × Fraction) := []
deriving DecidableEq, Repr

/-- Delegate callbacks, recorded as events. -/
inductive Event where
  | markReachable (row : Int)
  | setRetained (row : Int) (retained : Int) (unique : Int)
deriving DecidableEq, Repr

/-- The whole walker state (`HeapGraphWalker` members plus the delegate's
event log).  `node_stack` stores row indices, head = top (= `back()` of the
C++ vector). -/
structure HeapGraphWalker where
  nodes : List Node := []
  components : List Component := []
  node_stack : List Nat := []
  next_node_index : Nat := 1
  events : List Event := []
deriving DecidableEq, Repr

def initWalker : HeapGraphWalker := {}

/-! ### Sorted-map helpers (for `std::set` / `std::map`) -/

/-- Insert into a sorted duplicate-free list (`std::set` emplace). -/
def insertSorted (x : Nat) : List Nat → List Nat
  | [] => [x]
  | y :: rest =>
    if x < y then x :: y :: rest
    else if x = y then y :: rest
    else y :: insertSorted x rest

/-- Insert/overwrite a key in a sorted association list (`std::map`). -/
def mapInsert {α : Type} (k : Int) (v : α) : List (Int × α) → List (Int × α)
  | [] => [(k, v)]
  | (k', v') :: rest =>
    if k < k' then (k, v) :: (k', v') :: rest
    else if k = k' then (k, v) :: rest
    else (k', v') :: mapInsert k v rest

def mapLookup {α : Type} (k : Int) : List (Int × α) → Option α
  | [] => none
  | (k', v') :: rest => if k = k' then some v' else mapLookup k rest

/-- `std::map::erase`. -/
def mapErase {α : Type} (k : Int) : List (Int × α) → List (Int × α)
  | [] => []
  | (k', v') :: rest => if k = k' then rest else (k', v') :: mapErase k rest

/-! ### Node / component access -/

def defaultNode : Node := {}

def defaultComponent : Component := {}

def HeapGraphWalker.getNode (g : HeapGraphWalker) (i : Nat) : Node :=
  g.nodes.getD i defaultNode

def HeapGraphWalker.modifyNode (g : HeapGraphWalker) (i : Nat)
    (f : Node → Node) : HeapGraphWalker :=
  { g with nodes := g.nodes.set i (f (g.getNode i)) }

def HeapGraphWalker.getComp (g : HeapGraphWalker) (c : Int) : Component :=
  g.components.getD c.toNat defaultComponent

def HeapGraphWalker.modifyComp (g : HeapGraphWalker) (c : Int)
    (f : Component → Component) : HeapGraphWalker :=
  { g with components := g.components.set c.toNat (f (g.getComp c)) }

/-! ## Graph construction (`HeapGraphWalker::AddNode` / `AddEdge`) -/

/-- `AddNode(row, size)`: grow `nodes_` if needed, then set the node's size
and row.  The `uint64_t size` parameter is the bit pattern `size % U64`. -/
def HeapGraphWalker.AddNode (g : HeapGraphWalker) (row : Nat) (size : Nat) :
    HeapGraphWalker :=
  let g :=
    if g.nodes.length ≤ row then
      { g with nodes := g.nodes ++ List.replicate (row + 1 - g.nodes.length) defaultNode }
    else g
  g.modifyNode row (fun n => { n with self_size := size % U64, row := (row : Int) })

/-- `AddEdge(owner_row, owned_row)`.  Both rows must already exist; an
out-of-range row is undefined behaviour in C++ (raw `std::vector` indexing)
and is modelled as a no-op. -/
def HeapGraphWalker.AddEdge (g : HeapGraphWalker) (owner owned : Nat) :
    HeapGraphWalker :=
  if owner < g.nodes.length ∧ owned < g.nodes.length then
    let g := g.modifyNode owner (fun n => { n with children := insertSorted owned n.children })
    g.modifyNode owned (fun n => { n with parents := insertSorted owner n.parents })
  else g

/-- Marking an unreachable node reachable strictly decreases the count of
unreachable nodes; used for the fuel adequacy of `ReachableNode`. -/
theorem countP_set_reachable_lt (l : List Node) (i : Nat) (x : Node)
    (hi : i < l.length) (hfalse : (l.getD i defaultNode).reachable = false)
    (hx : x.reachable = true) :
    (l.set i x).countP (fun n => !n.reachable) < l.countP (fun n => !n.reachable) := by
  induction l generalizing i with
  | nil => simp at hi
  | cons a t ih =>
    cases i with
    | zero =>
      simp only [List.getD_cons_zero] at hfalse
      simp [List.countP_cons, hfalse, hx]
    | succ j =>
      simp only [List.getD_cons_succ] at hfalse
      simp only [List.length_cons, Nat.succ_lt_succ_iff] at hi
      simp only [List.set_cons_succ, List.countP_cons]
      have := ih j hi hfalse
      omega

/-! ## Reachability (`HeapGraphWalker::ReachableNode`)

The recursive DFS is written with an explicit work list: `work = c :: rest`
corresponds to the C++ call `ReachableNode(c)` followed by the continuation
`rest`; this produces the same `MarkReachable` emission order as the
recursion.  The loop carries structural fuel so that it reduces
definitionally; every step of the loop strictly decreases
`work.length + Σ over unreachable nodes of (1 + children.length)`, so the
fuel `reachFuel` the callers pass always suffices, and `none` (fuel
exhaustion) is never actually returned on those calls. -/

def HeapGraphWalker.ReachableNode :
    Nat → HeapGraphWalker → List Nat → Option HeapGraphWalker
  | 0, _, _ => none
  | Nat.succ fuel, g, work =>
    match work with
    | [] => some g
    | i :: rest =>
      if i < g.nodes.length then
        let n := g.getNode i
        if n.reachable then HeapGraphWalker.ReachableNode fuel g rest
        else
          let g' : HeapGraphWalker :=
            { g with nodes := g.nodes.set i { n with reachable := true },
                     events := g.events ++ [Event.markReachable n.row] }
          HeapGraphWalker.ReachableNode fuel g' (n.children ++ rest)
      else HeapGraphWalker.ReachableNode fuel g rest

/-- A fuel bound that dominates the number of loop steps of
`ReachableNode`. -/
def reachFuel (g : HeapGraphWalker) (work : List Nat) : Nat :=
  work.length + (g.nodes.map (fun n => n.children.length + 1)).sum + 1

/-! ## SCC finalization (`HeapGraphWalker::FoundSCC`) -/

/-- The `DirectChild` struct local to `FoundSCC`. -/
structure DirectChild where
  edges_from_current_component : Nat := 0
  last_node_row : Int := 0
deriving DecidableEq, Repr

def defaultDirectChild : DirectChild := {}

/-- `AddChild` from the anonymous namespace: record (or poison with `-1`) the
candidate unique-owner row for `child_component_id`. -/
def AddChild (component_to_node : List (Int × Int)) (count : Nat)
    (child_component_id : Int) (last_node_row : Int) : List (Int × Int) :=
  if count > 1 then mapInsert child_component_id (-1) component_to_node
  else
    match mapLookup child_component_id component_to_node with
    | none => mapInsert child_component_id last_node_row component_to_node
    | some v =>
      if v ≠ last_node_row then mapInsert child_component_id (-1) component_to_node
      else component_to_node

/-- `IsUniqueOwner` from the anonymous namespace. -/
def IsUniqueOwner (component_to_node : List (Int × Int)) (count : Nat)
    (child_component_id : Int) (last_node_row : Int) : Bool :=
  if count > 1 then false
  else
    match mapLookup child_component_id component_to_node with
    | none => true
    | some v => v == last_node_row

/-- The child scan inside the pop loop of `FoundSCC`: for every child of the
popped member that is off the stack, check it is assigned
(`PERFETTO_CHECK(child->component != -1)`) and, if it belongs to a different
component, bump that component's `DirectChild` entry. -/
def HeapGraphWalker.scanChildren (g : HeapGraphWalker) (cid : Int) (erow : Int) :
    List Nat → List (Int × DirectChild) → Option (List (Int × DirectChild))
  | [], dc => some dc
  | c :: rest, dc =>
    let cn := g.getNode c
    if cn.on_stack then g.scanChildren cid erow rest dc
    else if cn.component = -1 then none
    else if cn.component ≠ cid then
      let old := (mapLookup cn.component dc).getD defaultDirectChild
      g.scanChildren cid erow rest
        (mapInsert cn.component
          ⟨old.edges_from_current_component + 1, erow⟩ dc)
    else g.scanChildren cid erow rest dc

/-- The do/while pop loop of `FoundSCC`: pop stack members down to and
including `v`, scanning each member's children (while the member itself is
still flagged on-stack), clearing its flag, checking it is unassigned
(`PERFETTO_CHECK(stack_elem->component == -1)`) and assigning `cid`.
Returns the updated state, the members in pop order, and the
`direct_children_rows` map.  Popping past the bottom of the stack (which
only happens if `v` is not on it) is undefined behaviour in C++ and yields
`none`. -/
def HeapGraphWalker.popLoop (g : HeapGraphWalker) (cid : Int) (v : Nat) :
    List Nat → List Nat → List (Int × DirectChild) →
    Option (HeapGraphWalker × List Nat × List (Int × DirectChild))
  | [], _, _ => none
  | e :: rest, accRev, dc =>
    let g := { g with node_stack := rest }
    match g.scanChildren cid ((g.getNode e).row) (g.getNode e).children dc with
    | none => none
    | some dc' =>
      let g := g.modifyNode e (fun n => { n with on_stack := false })
      if (g.getNode e).component = -1 then
        let g := g.modifyNode e (fun n => { n with component := cid })
        if e = v then some (g, (e :: accRev).reverse, dc')
        else g.popLoop cid v rest (e :: accRev) dc'
      else none

/-- The parent scan of the second member loop: count incoming edges from
outside the component. -/
def HeapGraphWalker.parentLoop (g : HeapGraphWalker) (cid : Int) :
    List Nat → HeapGraphWalker
  | [] => g
  | p :: rest =>
    let g :=
      if (g.getNode p).component ≠ cid then
        g.modifyComp cid (fun c => { c with incoming_edges := c.incoming_edges + 1 })
      else g
    g.parentLoop cid rest

/-- The second member loop of `FoundSCC`: accumulate self sizes, count
external incoming edges, and snapshot `orig_incoming_edges`. -/
def HeapGraphWalker.incomingLoop (g : HeapGraphWalker) (cid : Int) :
    List Nat → HeapGraphWalker
  | [] => g
  | e :: rest =>
    let n := g.getNode e
    let g := g.modifyComp cid (fun c =>
      { c with unique_retained_size := (c.unique_retained_size + n.self_size) % U64 })
    let g := g.parentLoop cid n.parents
    let g := g.modifyComp cid (fun c =>
      { c with orig_incoming_edges := c.incoming_edges })
    g.incomingLoop cid rest

/-- The grand-child loop of `FoundSCC` (lines 245-264): fold the already
resolved child component's ownership ledger into the new component's ledger.
The ledger of the child is passed as a snapshot (the C++ loop iterates it
while only mutating the new component).  `last` is `dc.last_node_row`. -/
def HeapGraphWalker.grandLoop (g : HeapGraphWalker) (cid child_id : Int)
    (count : Nat) (last : Int) :
    List (Int × Fraction) → List (Int × Int) → List (Int × Nat) →
    Option (HeapGraphWalker × List (Int × Int) × List (Int × Nat))
  | [], ctn, urbn => some (g, ctn, urbn)
  | (grand_id, frac) :: rest, ctn, urbn =>
    let ctn := AddChild ctn count child_id last
    match mkFraction count (g.getComp child_id).orig_incoming_edges with
    | none => none
    | some multiplier =>
      match multiplier.mul frac with
      | none => none
      | some prod =>
        let cur := (mapLookup grand_id (g.getComp cid).children_components).getD ⟨0, 1⟩
        match cur.add prod with
        | none => none
        | some s =>
          let g := g.modifyComp cid (fun c =>
            { c with children_components := mapInsert grand_id s c.children_components })
          if ((mapLookup grand_id (g.getComp cid).children_components).getD ⟨0, 1⟩).eqInt 1 then
            let gval := (g.getComp grand_id).unique_retained_size
            let g := g.modifyComp cid (fun c =>
              { c with unique_retained_size := (c.unique_retained_size + gval) % U64 })
            let urbn :=
              if IsUniqueOwner ctn count grand_id last then
                mapInsert last
                  (((mapLookup last urbn).getD 0 +
                    (g.getComp grand_id).unique_retained_size) % U64) urbn
              else urbn
            let g := g.modifyComp cid (fun c =>
              { c with children_components := mapErase grand_id c.children_components })
            g.grandLoop cid child_id count last rest ctn urbn
          else g.grandLoop cid child_id count last rest ctn urbn

/-- The loop over `direct_children_rows` of `FoundSCC` (lines 233-291).
State threaded through: the walker, `component_to_node` (`ctn`) and
`unique_retained_by_node` (`urbn`, values as `uint64` bit patterns of the
C++ `int64_t` map entries). -/
def HeapGraphWalker.childrenLoop (g : HeapGraphWalker) (cid : Int) :
    List (Int × DirectChild) → List (Int × Int) → List (Int × Nat) →
    Option (HeapGraphWalker × List (Int × Int) × List (Int × Nat))
  | [], ctn, urbn => some (g, ctn, urbn)
  | (child_id, dcv) :: rest, ctn, urbn =>
    let count := dcv.edges_from_current_component
    if child_id = cid then none
    else
      let ctn := AddChild ctn count child_id dcv.last_node_row
      let g := g.modifyComp child_id (fun c =>
        { c with incoming_edges := (c.incoming_edges + U64 - count % U64) % U64 })
      match g.grandLoop cid child_id count dcv.last_node_row
          (g.getComp child_id).children_components ctn urbn with
      | none => none
      | some (g, ctn, urbn) =>
        let child := g.getComp child_id
        if child.orig_incoming_edges = count then
          if child.incoming_edges ≠ 0 then none
          else
            let g := g.modifyComp cid (fun c =>
              { c with unique_retained_size :=
                  (c.unique_retained_size + child.unique_retained_size) % U64 })
            let urbn :=
              if count = 1 then
                mapInsert dcv.last_node_row
                  (((mapLookup dcv.last_node_row urbn).getD 0 +
                    child.unique_retained_size) % U64) urbn
              else urbn
            let g :=
              if (g.getComp child_id).incoming_edges = 0 then
                g.modifyComp child_id (fun c => { c with children_components := [] })
              else g
            g.childrenLoop cid rest ctn urbn
        else
          match mkFraction count child.orig_incoming_edges with
          | none => none
          | some f =>
            let cur := (mapLookup child_id (g.getComp cid).children_components).getD ⟨0, 1⟩
            match cur.add f with
            | none => none
            | some s =>
              let g := g.modifyComp cid (fun c =>
                { c with children_components := mapInsert child_id s c.children_components })
              let step :=
                if ((mapLookup child_id (g.getComp cid).children_components).getD ⟨0, 1⟩).eqInt 1 then
                  let g := g.modifyComp cid (fun c =>
                    { c with unique_retained_size :=
                        (c.unique_retained_size + (g.getComp child_id).unique_retained_size) % U64 })
                  let urbn :=
                    if IsUniqueOwner ctn count dcv.last_node_row child_id then
                      mapInsert dcv.last_node_row
                        (((mapLookup dcv.last_node_row urbn).getD 0 +
                          (g.getComp child_id).unique_retained_size) % U64) urbn
                    else urbn
                  let g := g.modifyComp cid (fun c =>
                    { c with children_components := mapErase child_id c.children_components })
                  (g, urbn)
                else (g, urbn)
              let g := step.1
              let urbn := step.2
              let g :=
                if (g.getComp child_id).incoming_edges = 0 then
                  g.modifyComp child_id (fun c => { c with children_components := [] })
                else g
              g.childrenLoop cid rest ctn urbn

/-- `HeapGraphWalker::RetainedSize`: the component's own unique retained size
plus the unique retained sizes of every component still in its ledger, as
`int64_t`. -/
def HeapGraphWalker.RetainedSize (g : HeapGraphWalker) (component : Component) : Int :=
  toInt64 (component.children_components.foldl
    (fun acc p => (acc + (g.getComp p.1).unique_retained_size) % U64)
    component.unique_retained_size)

/-- The final emission loop of `FoundSCC`: `SetRetained(row, retained_size,
self_size + unique attribution)` for every member, in pop order. -/
def HeapGraphWalker.emitLoop (g : HeapGraphWalker) (retained : Int)
    (urbn : List (Int × Nat)) : List Nat → HeapGraphWalker
  | [] => g
  | e :: rest =>
    let n := g.getNode e
    let uniq : Int := toInt64 ((mapLookup n.row urbn).getD 0)
    ({ g with events :=
        g.events ++ [Event.setRetained n.row retained (toInt64 n.self_size + uniq)] }
      : HeapGraphWalker).emitLoop retained urbn rest

/-- `HeapGraphWalker::FoundSCC`. -/
def HeapGraphWalker.FoundSCC (g : HeapGraphWalker) (v : Nat) : Option HeapGraphWalker :=
  let cid : Int := (g.components.length : Int)
  let g := { g with components :=
    g.components ++ [{ defaultComponent with lowlink := (g.getNode v).lowlink }] }
  match g.popLoop cid v g.node_stack [] [] with
  | none => none
  | some (g, component_nodes, dc) =>
    let g := g.incomingLoop cid component_nodes
    match g.childrenLoop cid dc [] [] with
    | none => none
    | some (g, _ctn, urbn) =>
      let retained := g.RetainedSize (g.getComp cid)
      some (g.emitLoop retained urbn component_nodes)

/-! ## Low-link search (`HeapGraphWalker::FindSCC`)

The C++ recursion depth is bounded by the number of unvisited nodes; the
Lean version takes structural fuel (so that it reduces definitionally), and
every caller passes `nodes.length + 1`, which dominates that bound.
Running out of fuel yields `none`. -/

/-- The child loop of `FindSCC` (lines 310-319), parameterized by the
recursive call `findRec` used on unvisited children: recurse on unvisited
children pulling up their low-links, or pull up the discovery index of
on-stack children. -/
def HeapGraphWalker.sccChildren
    (findRec : HeapGraphWalker → Nat → Option HeapGraphWalker)
    (g : HeapGraphWalker) (v : Nat) : List Nat → Option HeapGraphWalker
  | [] => some g
  | c :: rest =>
    let cn := g.getNode c
    if cn.node_index = 0 then
      match findRec g c with
      | none => none
      | some g1 =>
        let cl := (g1.getNode c).lowlink
        let g2 :=
          if cl < (g1.getNode v).lowlink then
            g1.modifyNode v (fun n => { n with lowlink := cl })
          else g1
        HeapGraphWalker.sccChildren findRec g2 v rest
    else
      if cn.on_stack then
        let g2 :=
          if cn.node_index < (g.getNode v).lowlink then
            g.modifyNode v (fun n => { n with lowlink := cn.node_index })
          else g
        HeapGraphWalker.sccChildren findRec g2 v rest
      else HeapGraphWalker.sccChildren findRec g v rest

def HeapGraphWalker.FindSCC :
    Nat → HeapGraphWalker → Nat → Option HeapGraphWalker
  | 0, _, _ => none
  | Nat.succ fuel, g, v =>
    let idx := g.next_node_index
    let g1 := g.modifyNode v (fun n =>
      { n with node_index := idx, lowlink := idx, on_stack := true })
    let g2 := { g1 with next_node_index := idx + 1, node_stack := v :: g1.node_stack }
    match HeapGraphWalker.sccChildren (HeapGraphWalker.FindSCC fuel) g2 v
        ((g2.getNode v).children) with
    | none => none
    | some g3 =>
      let n := g3.getNode v
      if n.lowlink = n.node_index then g3.FoundSCC v else some g3

/-- `HeapGraphWalker::MarkRoot`: propagate reachability, then run the
low-link search if the node is unvisited.  An unregistered row is undefined
behaviour in C++ and modelled as a no-op. -/
def HeapGraphWalker.MarkRoot (g : HeapGraphWalker) (row : Nat) :
    Option HeapGraphWalker :=
  if row < g.nodes.length then
    match HeapGraphWalker.ReachableNode (reachFuel g [row]) g [row] with
    | none => none
    | some g =>
      if (g.getNode row).node_index = 0 then
        HeapGraphWalker.FindSCC (g.nodes.length + 1) g row
      else some g
  else some g

/-- The sweep loop of `CalculateRetained` over all node indices. -/
def HeapGraphWalker.calcLoop (g : HeapGraphWalker) :
    List Nat → Option HeapGraphWalker
  | [] => some g
  | i :: rest =>
    if (g.getNode i).node_index = 0 then
      match HeapGraphWalker.FindSCC (g.nodes.length + 1) g i with
      | none => none
      | some g' => g'.calcLoop rest
    else g.calcLoop rest

/-- `HeapGraphWalker::CalculateRetained`: sweep every node, then fatal-check
that every component's live incoming-edge count is zero. -/
def HeapGraphWalker.CalculateRetained (g : HeapGraphWalker) :
    Option HeapGraphWalker :=
  match g.calcLoop (List.range g.nodes.length) with
  | none => none
  | some g' =>
    if g'.components.all (fun c => c.incoming_edges = 0) then some g' else none

/-! ## Call sequences -/

/-- One external entry-point invocation. -/
inductive Op where
  | addNode (row size : Nat)
  | addEdge (owner owned : Nat)
  | markRoot (row : Nat)
  | calcRetained
deriving DecidableEq, Repr

def HeapGraphWalker.step (g : HeapGraphWalker) : Op → Option HeapGraphWalker
  | Op.addNode r s => some (g.AddNode r s)
  | Op.addEdge a b => some (g.AddEdge a b)
  | Op.markRoot r => g.MarkRoot r
  | Op.calcRetained => g.CalculateRetained

def HeapGraphWalker.runOps (g : HeapGraphWalker) :
    List Op → Option HeapGraphWalker
  | [] => some g
  | op :: rest =>
    match g.step op with
    | none => none
    | some g' => g'.runOps rest

/-- Run a call sequence from the initial state. -/
def run (ops : List Op) : Option HeapGraphWalker :=
  initWalker.runOps ops

/-! ## Observers over the delegate's event log -/

/-- The first `SetRetained(row, ...)` event for `row`, as a
`(retained_size, unique_size)` pair. -/
def retainedOf (g : HeapGraphWalker) (row : Int) : Option (Int × Int) :=
  (g.events.filterMap (fun e =>
    match e with
    | Event.setRetained r a b => if r = row then some (a, b) else none
    | _ => none)).head?

/-- How many times `MarkReachable(row)` was invoked. -/
def markCount (g : HeapGraphWalker) (row : Int) : Nat :=
  g.events.countP (fun e => e == Event.markReachable row)

/-- How many times `SetRetained(row, ...)` was invoked. -/
def setRetainedCount (g : HeapGraphWalker) (row : Int) : Nat :=
  g.events.countP (fun e =>
    match e with
    | Event.setRetained r _ _ => r == row
    | _ => false)

/-! ## Example call sequences from the spec's testable properties -/

/-- P6: diamond sharing.  Rows: R = 0 (size 1), A = 1 (size 10),
B = 2 (size 20), S = 3 (size 100); R→A, R→B, A→S, B→S; R is the root. -/
def diamondOps : List Op :=
  [Op.addNode 0 1, Op.addNode 1 10, Op.addNode 2 20, Op.addNode 3 100,
   Op.addEdge 0 1, Op.addEdge 0 2, Op.addEdge 1 3, Op.addEdge 2 3,
   Op.markRoot 0, Op.calcRetained]

/-- P5: linear chain A = 0 → B = 1 → C = 2 with sizes 10/20/30, A root. -/
def chainOps : List Op :=
  [Op.addNode 0 10, Op.addNode 1 20, Op.addNode 2 30,
   Op.addEdge 0 1, Op.addEdge 1 2, Op.markRoot 0, Op.calcRetained]

/-- P4: three-node cycle A = 0 → B = 1 → C = 2 → A with sizes 10/20/30 and
no external incoming edges. -/
def cycleOps : List Op :=
  [Op.addNode 0 10, Op.addNode 1 20, Op.addNode 2 30,
   Op.addEdge 0 1, Op.addEdge 1 2, Op.addEdge 2 0, Op.calcRetained]

/-- C1: in the diamond graph R(1)→A(10), R→B(20), A→S(100), B→S with R the
root, S's 100 bytes are credited to neither A's nor B's unique_size (their
emitted unique sizes are exactly 10 and 20), R's emitted retained_size is
131, and A's emitted retained_size is 110 (= 10 + 100, the fractional 1/2
claim on S contributing to A's retained size only). -/
theorem c1_diamond_sharing :
    (run diamondOps).map (fun g =>
      (retainedOf g 0, retainedOf g 1, retainedOf g 2, retainedOf g 3)) =
    some (some (131, 131), some (110, 10), some (120, 20), some (100, 100)) := by
  decide

/-- C2 (counterexample): in the chain A(10) → B(20) → C(30) with A the root,
B's emitted unique_size is 50, not B's own self size 20 — the claim that
"the emitted unique_size of every node equals that node's own self size" is
false for this input: the walker credits the sole owner of a fully-owned
child component with that component's bytes (lines 270-273 of the source). -/
theorem c2_chain_unique_counterexample :
    (run chainOps).map (fun g => retainedOf g 1) = some (some (50, 50)) ∧
    ((50 : Int), (50 : Int)).2 ≠ (20 : Int) := by
  constructor
  · decide
  · decide

/-- C2 (amended): in the chain A(10) → B(20) → C(30) with A the root, the
emitted retained_sizes are 60/50/30 as claimed, and the emitted unique_sizes
are 60/50/30 as well — each node's self size plus the bytes of the
descendants it solely owns, not merely its own self size. -/
theorem c2_chain_amended :
    (run chainOps).map (fun g =>
      (retainedOf g 0, retainedOf g 1, retainedOf g 2)) =
    some (some (60, 60), some (50, 50), some (30, 30)) := by
  decide

/-- C7: in the cycle A(10) → B(20) → C(30) → A with no external incoming
edges, all three nodes are emitted with identical retained_size 60, and each
node's emitted unique_size equals its own self size. -/
theorem c7_cycle_collapse :
    (run cycleOps).map (fun g =>
      (retainedOf g 0, retainedOf g 1, retainedOf g 2)) =
    some (some (60, 10), some (60, 20), some (60, 30)) := by
  decide

/-- C9: `Fraction(2,4) + Fraction(1,4)` is stored in reduced form as
numerator 3, denominator 4; `Fraction(1,3) * Fraction(3,1)` reduces to
numerator 1, denominator 1, and comparing that product against the integer 1
with `operator==(uint64_t)` yields true. -/
theorem c9_fraction_arithmetic :
    ((mkFraction 2 4).bind (fun a => (mkFraction 1 4).bind (fun b => a.add b)) =
      some ⟨3, 4⟩) ∧
    ((mkFraction 1 3).bind (fun a => (mkFraction 3 1).bind (fun b => a.mul b)) =
      some ⟨1, 1⟩) ∧
    (((mkFraction 1 3).bind (fun a => (mkFraction 3 1).bind (fun b => a.mul b))).map
      (fun f => f.eqInt 1) = some true) := by
  refine ⟨by decide, by decide, by decide⟩

/-! ## Association-map lemmas -/

theorem mapLookup_mapInsert_self {α : Type} (k : Int) (v : α) (m : List (Int × α)) :
    mapLookup k (mapInsert k v m) = some v := by
  induction m with
  | nil => simp [mapInsert, mapLookup]
  | cons p rest ih =>
    obtain ⟨k', v'⟩ := p
    by_cases h1 : k < k'
    · simp [mapInsert, mapLookup, h1]
    · by_cases h2 : k = k'
      · simp [mapInsert, mapLookup, h1, h2]
      · simp [mapInsert, mapLookup, h1, h2, ih]

theorem mapLookup_mapInsert_ne {α : Type} (k k' : Int) (v : α) (m : List (Int × α))
    (h : k ≠ k') : mapLookup k (mapInsert k' v m) = mapLookup k m := by
  induction m with
  | nil => simp [mapInsert, mapLookup, h]
  | cons p rest ih =>
    obtain ⟨k1, v1⟩ := p
    by_cases h1 : k' < k1
    · simp only [mapInsert, if_pos h1, mapLookup, if_neg h]
    · by_cases h2 : k' = k1
      · subst h2
        simp only [mapInsert, if_neg h1, if_pos rfl, mapLookup, if_neg h]
      · simp only [mapInsert, if_neg h1, if_neg h2, mapLookup]
        by_cases h3 : k = k1
        · simp [h3]
        · simp [h3, ih]

/-- Key sortedness (strictly increasing) of an association list; all maps the
walker builds satisfy it. -/
def mapKeysSorted {α : Type} : List (Int × α) → Bool
  | [] => true
  | [_] => true
  | (k1, v1) :: (k2, v2) :: rest =>
    decide (k1 < k2) && mapKeysSorted ((k2, v2) :: rest)

theorem mapKeysSorted_cons {α : Type} (k : Int) (v : α) (m : List (Int × α))
    (h : mapKeysSorted ((k, v) :: m) = true) : mapKeysSorted m = true := by
  cases m with
  | nil => rfl
  | cons p rest =>
    obtain ⟨k2, v2⟩ := p
    simp only [mapKeysSorted, Bool.and_eq_true] at h
    exact h.2

theorem mapKeysSorted_head_lt {α : Type} (k : Int) (v : α) (k2 : Int) (v2 : α)
    (m : List (Int × α)) (h : mapKeysSorted ((k, v) :: (k2, v2) :: m) = true) :
    k < k2 := by
  simp only [mapKeysSorted, Bool.and_eq_true, decide_eq_true_eq] at h
  exact h.1

/-- In a sorted map every key strictly below the head is absent. -/
theorem mapLookup_lt_head {α : Type} (k k1 : Int) (v1 : α) (m : List (Int × α))
    (hs : mapKeysSorted ((k1, v1) :: m) = true) (hk : k < k1) :
    mapLookup k ((k1, v1) :: m) = none := by
  induction m generalizing k1 v1 with
  | nil => simp [mapLookup, Int.ne_of_lt hk]
  | cons p rest ih =>
    obtain ⟨k2, v2⟩ := p
    have h12 : k1 < k2 := mapKeysSorted_head_lt _ _ _ _ _ hs
    have hs2 : mapKeysSorted ((k2, v2) :: rest) = true := mapKeysSorted_cons _ _ _ hs
    simp only [mapLookup, if_neg (Int.ne_of_lt hk)]
    exact ih k2 v2 hs2 (lt_trans hk h12)

/-- Erasing a key from a sorted map really removes it. -/
theorem mapLookup_mapErase_self {α : Type} (k : Int) (m : List (Int × α))
    (hs : mapKeysSorted m = true) : mapLookup k (mapErase k m) = none := by
  induction m with
  | nil => rfl
  | cons p rest ih =>
    obtain ⟨k1, v1⟩ := p
    by_cases h1 : k = k1
    · subst h1
      simp only [mapErase, if_pos rfl]
      cases rest with
      | nil => rfl
      | cons q rest' =>
        obtain ⟨k2, v2⟩ := q
        exact mapLookup_lt_head _ _ _ _ (mapKeysSorted_cons _ _ _ hs)
          (mapKeysSorted_head_lt _ _ _ _ _ hs)
    · simp only [mapErase, if_neg h1, mapLookup, if_neg h1]
      exact ih (mapKeysSorted_cons _ _ _ hs)

/-- All keys of a map are above the bound `b`. -/
def mapLB {α : Type} (b : Int) : List (Int × α) → Bool
  | [] => true
  | (k, _) :: _ => decide (b < k)

theorem mapKeysSorted_cons_eq {α : Type} (k : Int) (v : α) (m : List (Int × α)) :
    mapKeysSorted ((k, v) :: m) = (mapLB k m && mapKeysSorted m) := by
  cases m with
  | nil => rfl
  | cons q rest => obtain ⟨k2, v2⟩ := q; rfl

theorem mapLB_mapInsert {α : Type} (b k : Int) (v : α) (m : List (Int × α))
    (hk : b < k) (hm : mapLB b m = true) : mapLB b (mapInsert k v m) = true := by
  cases m with
  | nil => simp [mapInsert, mapLB, hk]
  | cons q rest =>
    obtain ⟨k1, v1⟩ := q
    by_cases h1 : k < k1
    · simp [mapInsert, h1, mapLB, hk]
    · by_cases h2 : k = k1
      · simp only [mapInsert, if_neg h1, if_pos h2, mapLB]
        simp only [decide_eq_true_eq]
        omega
      · simpa [mapInsert, h1, h2, mapLB] using hm

/-- `mapInsert` preserves key sortedness. -/
theorem mapKeysSorted_mapInsert {α : Type} (k : Int) (v : α) (m : List (Int × α))
    (hs : mapKeysSorted m = true) : mapKeysSorted (mapInsert k v m) = true := by
  induction m with
  | nil => rfl
  | cons p rest ih =>
    obtain ⟨k1, v1⟩ := p
    rw [mapKeysSorted_cons_eq, Bool.and_eq_true] at hs
    by_cases h1 : k < k1
    · simp only [mapInsert, if_pos h1]
      rw [mapKeysSorted_cons_eq, Bool.and_eq_true]
      constructor
      · simp [mapLB, h1]
      · rw [mapKeysSorted_cons_eq, Bool.and_eq_true]
        exact hs
    · by_cases h2 : k = k1
      · subst h2
        simp only [mapInsert, if_neg h1, if_true]
        rw [mapKeysSorted_cons_eq, Bool.and_eq_true]
        exact hs
      · have hgt : k1 < k := by omega
        simp only [mapInsert, if_neg h1, if_neg h2]
        rw [mapKeysSorted_cons_eq, Bool.and_eq_true]
        exact ⟨mapLB_mapInsert _ _ _ _ hgt hs.1, ih hs.2⟩

/-! ## C6: component-level edge counting -/

/-- A member node (row 0, size 1) with two distinct children in the
two-node cycle {1, 2}; marking 1 as root finalizes the cycle component
(component 0) first. -/
def ex6Pre : List Op :=
  [Op.addNode 0 1, Op.addNode 1 10, Op.addNode 2 20,
   Op.addEdge 0 1, Op.addEdge 0 2, Op.addEdge 1 2, Op.addEdge 2 1,
   Op.markRoot 1]

def ex6Ops : List Op := ex6Pre ++ [Op.calcRetained]

/-- Spec-side definition for the refinement comparison in C6, following the
spec's words: "number of member nodes of component A with at least one child
in component B". -/
def specEdgeCount (g : HeapGraphWalker) (members : List Nat) (b : Int) : Nat :=
  (members.filter (fun m =>
    (g.getNode m).children.any (fun c => (g.getNode c).component == b))).length

/-- C6 (counterexample): after `ex6Pre` the cycle {1, 2} is component 0 and
node 0 is the single member of the next component; the child scan that
computes `edge_count` (`scanChildren`, from `FoundSCC`'s pop loop) records
`edges_from_current_component = 2` for component 0 — one per (member, child)
edge — whereas the number of member nodes with at least one child in
component 0 is 1.  Consequently, over the full run component 0's
`orig_incoming_edges = 2` is decremented to exactly 0 by that edge_count of
2, not by 1 as the claim's per-member count would give. -/
theorem c6_edge_count_counterexample :
    ((run ex6Pre).map (fun g =>
      (g.scanChildren 1 0 (g.getNode 0).children [], specEdgeCount g [0] 0)) =
      some (some [(0, ⟨2, 0⟩)], 1)) ∧
    ((run ex6Ops).map (fun g =>
      ((g.getComp 0).orig_incoming_edges, (g.getComp 0).incoming_edges)) =
      some (2, 0)) ∧
    (2 : Nat) ≠ 1 :=
  ⟨by decide, by decide, by decide⟩

/-- C6 (amended): the `edge_count` recorded for a child component `b` by the
member child scan equals the number of scanned (member, child-node) pairs —
one per distinct child node of each member that is off the stack and
resolved into `b` — rather than one per member node: each member's scan adds
`countP` of its child list.  (`edge_count` is therefore the number of
node-level edges from the new component into `b`.) -/
theorem c6_edge_count_amended (g : HeapGraphWalker) (cid erow b : Int)
    (cs : List Nat) (dc dc' : List (Int × DirectChild))
    (hb : b ≠ cid)
    (h : g.scanChildren cid erow cs dc = some dc') :
    ((mapLookup b dc').getD defaultDirectChild).edges_from_current_component =
      ((mapLookup b dc).getD defaultDirectChild).edges_from_current_component +
      cs.countP (fun c => !(g.getNode c).on_stack && (g.getNode c).component == b) := by
  induction cs generalizing dc with
  | nil =>
    simp only [HeapGraphWalker.scanChildren, Option.some.injEq] at h
    subst h
    simp
  | cons c rest ih =>
    simp only [HeapGraphWalker.scanChildren] at h
    by_cases hos : (g.getNode c).on_stack
    · rw [if_pos hos] at h
      rw [ih dc h, List.countP_cons]
      simp [hos]
    · rw [if_neg hos] at h
      by_cases hun : (g.getNode c).component = -1
      · rw [if_pos hun] at h
        exact absurd h (by simp)
      · rw [if_neg hun] at h
        by_cases hne : (g.getNode c).component ≠ cid
        · rw [if_pos hne] at h
          rw [ih _ h, List.countP_cons]
          by_cases hcb : (g.getNode c).component = b
          · rw [hcb, mapLookup_mapInsert_self]
            simp [hos, hcb]
            omega
          · rw [mapLookup_mapInsert_ne _ _ _ _ (by omega)]
            simp [hos, hcb]
        · rw [if_neg hne] at h
          push_neg at hne
          rw [ih dc h, List.countP_cons]
          have : ¬((g.getNode c).component = b) := by omega
          simp [hos, this]

/-- Concrete instance for the witness of `c6_edge_count_amended`. -/
def c6wG : HeapGraphWalker :=
  { nodes := [{ children := [1] }, { component := 0 }] }

theorem c6_edge_count_amended_witness :
    ((0 : Int) ≠ 1) ∧
    (c6wG.scanChildren 1 0 [1] [] = some [(0, ⟨1, 0⟩)]) ∧
    ((mapLookup 0 [((0 : Int), (⟨1, 0⟩ : DirectChild))]).getD
        defaultDirectChild).edges_from_current_component =
      ((mapLookup (0 : Int) ([] : List (Int × DirectChild))).getD
        defaultDirectChild).edges_from_current_component +
      [1].countP (fun c => !(c6wG.getNode c).on_stack && (c6wG.getNode c).component == 0) :=
  ⟨by decide, by decide,
   c6_edge_count_amended c6wG 1 0 0 [1] [] [(0, ⟨1, 0⟩)] (by decide) (by decide)⟩

/-! ## State-access lemmas -/

theorem getNode_modifyNode_self (g : HeapGraphWalker) (i : Nat) (f : Node → Node)
    (h : i < g.nodes.length) : (g.modifyNode i f).getNode i = f (g.getNode i) := by
  simp [HeapGraphWalker.modifyNode, HeapGraphWalker.getNode, List.getD_eq_getElem?_getD,
    List.getElem?_set_self h]

theorem getNode_modifyNode_ne (g : HeapGraphWalker) (i j : Nat) (f : Node → Node)
    (h : i ≠ j) : (g.modifyNode i f).getNode j = g.getNode j := by
  simp [HeapGraphWalker.modifyNode, HeapGraphWalker.getNode, List.getD_eq_getElem?_getD,
    List.getElem?_set_ne h]

theorem getComp_modifyComp_self (g : HeapGraphWalker) (c : Int) (f : Component → Component)
    (h : c.toNat < g.components.length) :
    (g.modifyComp c f).getComp c = f (g.getComp c) := by
  simp [HeapGraphWalker.modifyComp, HeapGraphWalker.getComp, List.getD_eq_getElem?_getD,
    List.getElem?_set_self h]

theorem getComp_modifyComp_ne (g : HeapGraphWalker) (c c' : Int) (f : Component → Component)
    (h : c.toNat ≠ c'.toNat) : (g.modifyComp c f).getComp c' = g.getComp c' := by
  simp [HeapGraphWalker.modifyComp, HeapGraphWalker.getComp, List.getD_eq_getElem?_getD,
    List.getElem?_set_ne h]

/-! ## C10: `AddNode` on an already registered row -/

/-- C10: calling `AddNode` on a row that was already registered (row within
the node table) overwrites only that node's self size and its `row` field;
the node's child set, parent set, reachability flag and Tarjan bookkeeping
(discovery index, low-link, on-stack flag, component), every other node, and
the rest of the walker state are left unchanged. -/
theorem c10_addnode_frame (g : HeapGraphWalker) (row size : Nat)
    (h : row < g.nodes.length) :
    ((g.AddNode row size).nodes.length = g.nodes.length) ∧
    (∀ j, j ≠ row → (g.AddNode row size).getNode j = g.getNode j) ∧
    ((g.AddNode row size).getNode row).children = (g.getNode row).children ∧
    ((g.AddNode row size).getNode row).parents = (g.getNode row).parents ∧
    ((g.AddNode row size).getNode row).reachable = (g.getNode row).reachable ∧
    ((g.AddNode row size).getNode row).node_index = (g.getNode row).node_index ∧
    ((g.AddNode row size).getNode row).lowlink = (g.getNode row).lowlink ∧
    ((g.AddNode row size).getNode row).component = (g.getNode row).component ∧
    ((g.AddNode row size).getNode row).on_stack = (g.getNode row).on_stack ∧
    ((g.AddNode row size).getNode row).self_size = size % U64 ∧
    ((g.AddNode row size).getNode row).row = (row : Int) ∧
    (g.AddNode row size).components = g.components ∧
    (g.AddNode row size).node_stack = g.node_stack ∧
    (g.AddNode row size).next_node_index = g.next_node_index ∧
    (g.AddNode row size).events = g.events := by
  have hlen : ¬ g.nodes.length ≤ row := by omega
  have hEq : g.AddNode row size =
      g.modifyNode row (fun n => { n with self_size := size % U64, row := (row : Int) }) := by
    simp [HeapGraphWalker.AddNode, hlen]
  rw [hEq]
  have hself := getNode_modifyNode_self g row
    (fun n => { n with self_size := size % U64, row := (row : Int) }) h
  refine ⟨by simp [HeapGraphWalker.modifyNode], ?_, ?_, ?_, ?_, ?_, ?_, ?_, ?_, ?_, ?_,
    ?_, ?_, ?_, ?_⟩
  · intro j hj
    exact getNode_modifyNode_ne g row j _ (fun hrj => hj hrj.symm)
  all_goals first
    | (rw [hself])
    | simp [HeapGraphWalker.modifyNode]

/-- Concrete one-node state for the witness of `c10_addnode_frame`. -/
def c10wG : HeapGraphWalker :=
  { nodes := [{ children := [0], self_size := 9, reachable := true }] }

theorem c10_addnode_frame_witness :
    ((0 : Nat) < c10wG.nodes.length) ∧
    (((c10wG.AddNode 0 3).nodes.length = c10wG.nodes.length) ∧
     (∀ j, j ≠ 0 → (c10wG.AddNode 0 3).getNode j = c10wG.getNode j) ∧
     ((c10wG.AddNode 0 3).getNode 0).children = (c10wG.getNode 0).children ∧
     ((c10wG.AddNode 0 3).getNode 0).parents = (c10wG.getNode 0).parents ∧
     ((c10wG.AddNode 0 3).getNode 0).reachable = (c10wG.getNode 0).reachable ∧
     ((c10wG.AddNode 0 3).getNode 0).node_index = (c10wG.getNode 0).node_index ∧
     ((c10wG.AddNode 0 3).getNode 0).lowlink = (c10wG.getNode 0).lowlink ∧
     ((c10wG.AddNode 0 3).getNode 0).component = (c10wG.getNode 0).component ∧
     ((c10wG.AddNode 0 3).getNode 0).on_stack = (c10wG.getNode 0).on_stack ∧
     ((c10wG.AddNode 0 3).getNode 0).self_size = 3 % U64 ∧
     ((c10wG.AddNode 0 3).getNode 0).row = ((0 : Nat) : Int) ∧
     (c10wG.AddNode 0 3).components = c10wG.components ∧
     (c10wG.AddNode 0 3).node_stack = c10wG.node_stack ∧
     (c10wG.AddNode 0 3).next_node_index = c10wG.next_node_index ∧
     (c10wG.AddNode 0 3).events = c10wG.events) :=
  ⟨by decide, c10_addnode_frame c10wG 0 3 (by decide)⟩

/-! ## C5: total-ownership absorption and unique-owner attribution -/

/-- Two-member cycle {0, 1} where row 0 owns node 2 (component 1 after
`ex5Pre`) and row 1 owns node 3 (component 2); nodes 2 and 3 both own the
shared node 4 (component 0, size 100).  `ex5Pre` finalizes components 0-2,
leaving the 1/2 + 1/2 ownership of component 0 split across the ledgers of
components 1 and 2. -/
def ex5Pre : List Op :=
  [Op.addNode 0 1, Op.addNode 1 2, Op.addNode 2 10, Op.addNode 3 20, Op.addNode 4 100,
   Op.addEdge 0 1, Op.addEdge 1 0, Op.addEdge 0 2, Op.addEdge 1 3,
   Op.addEdge 2 4, Op.addEdge 3 4,
   Op.markRoot 2, Op.markRoot 3]

def ex5Ops : List Op := ex5Pre ++ [Op.markRoot 0, Op.calcRetained]

/-- C5 (counterexample): after `ex5Pre`, components 1 and 2 each hold a 1/2
fractional claim on component 0 (the shared 100-byte node), contributed by
member rows 0 and 1 respectively of the final cycle component {0, 1}.  When
that component is finalized, the accumulated fraction for component 0
reaches exactly 1 and its 100 bytes are credited to row 1's per-node unique
size (row 1 emits unique 122 = 2 + 20 + 100; row 0 emits 11 = 1 + 10) even
though two distinct member nodes — not exactly one sole contributor —
supplied the edges that led to total ownership; the claimed "if and only if
exactly one member node is the sole contributor" is false on this input. -/
theorem c5_unique_owner_counterexample :
    ((run ex5Pre).map (fun g =>
      ((g.getComp 1).children_components, (g.getComp 2).children_components)) =
      some ([(0, ⟨1, 2⟩)], [(0, ⟨1, 2⟩)])) ∧
    ((run ex5Ops).map (fun g => (retainedOf g 0, retainedOf g 1)) =
      some (some (133, 11), some (133, 122))) :=
  ⟨by decide, by decide⟩

/-- C5 (amended): when, during finalization, the accumulated ledger fraction
for a grandchild component reaches exactly 1, the grandchild's unique
retained size is absorbed into the new component's unique retained size and
the ledger entry for the grandchild is removed; the grandchild's size is
credited to the representative node of the child-component edge being
processed if and only if `IsUniqueOwner` holds for that edge — i.e. the edge
count is at most 1 and the `component_to_node` map records no different node
under the grandchild's key.  (That map only records contributors keyed by
direct child components, so contributions routed through other child
components can escape the check; the credited node need not be the sole
contributor.) -/
theorem c5_total_ownership_amended (g : HeapGraphWalker)
    (cid child_id grand_id : Int) (count : Nat) (last : Int)
    (frac multiplier prod s : Fraction)
    (ctn : List (Int × Int)) (urbn : List (Int × Nat))
    (hc0 : 0 ≤ cid) (hg0 : 0 ≤ grand_id) (hne : grand_id ≠ cid)
    (hcid : cid.toNat < g.components.length)
    (hm : mkFraction count (g.getComp child_id).orig_incoming_edges = some multiplier)
    (hp : multiplier.mul frac = some prod)
    (hs : ((mapLookup grand_id (g.getComp cid).children_components).getD ⟨0, 1⟩).add prod
            = some s)
    (h1 : s.eqInt 1 = true)
    (hsorted : mapKeysSorted (g.getComp cid).children_components = true) :
    ∃ g' ctn' urbn',
      g.grandLoop cid child_id count last [(grand_id, frac)] ctn urbn =
        some (g', ctn', urbn') ∧
      (g'.getComp cid).unique_retained_size =
        ((g.getComp cid).unique_retained_size +
          (g.getComp grand_id).unique_retained_size) % U64 ∧
      mapLookup grand_id (g'.getComp cid).children_components = none ∧
      ctn' = AddChild ctn count child_id last ∧
      urbn' = (if IsUniqueOwner (AddChild ctn count child_id last) count grand_id last then
          mapInsert last
            (((mapLookup last urbn).getD 0 +
              (g.getComp grand_id).unique_retained_size) % U64) urbn
        else urbn) := by
  have htne : grand_id.toNat ≠ cid.toNat := by omega
  have hlen1 : ∀ (w : HeapGraphWalker) (c : Int) (f : Component → Component),
      ((w.modifyComp c f).components).length = w.components.length := by
    intro w c f; simp [HeapGraphWalker.modifyComp]
  simp only [HeapGraphWalker.grandLoop, hm, hp, hs]
  rw [getComp_modifyComp_self _ _ _ hcid]
  simp only [mapLookup_mapInsert_self, Option.getD_some, h1, if_true]
  rw [getComp_modifyComp_ne _ _ _ _ htne.symm]
  refine ⟨_, _, _, rfl, ?_, ?_, rfl, ?_⟩
  · rw [getComp_modifyComp_self _ _ _ (by rw [hlen1, hlen1]; exact hcid)]
    rw [getComp_modifyComp_self _ _ _ (by rw [hlen1]; exact hcid)]
    rw [getComp_modifyComp_self _ _ _ hcid]
  · rw [getComp_modifyComp_self _ _ _ (by rw [hlen1, hlen1]; exact hcid)]
    rw [getComp_modifyComp_self _ _ _ (by rw [hlen1]; exact hcid)]
    rw [getComp_modifyComp_self _ _ _ hcid]
    exact mapLookup_mapErase_self _ _ (mapKeysSorted_mapInsert _ _ _ hsorted)
  · rw [getComp_modifyComp_ne _ _ _ _ htne.symm, getComp_modifyComp_ne _ _ _ _ htne.symm]

/-- Concrete state for the witness of `c5_total_ownership_amended`:
component 0 is the new component (empty ledger), component 1 the child
(one original incoming edge), component 2 the grandchild (7 bytes). -/
def c5wG : HeapGraphWalker :=
  { components := [{}, { orig_incoming_edges := 1 }, { unique_retained_size := 7 }] }

theorem c5_total_ownership_amended_witness :
    ((0 : Int) ≤ 0) ∧ ((0 : Int) ≤ 2) ∧ ((2 : Int) ≠ 0) ∧
    ((0 : Int).toNat < c5wG.components.length) ∧
    (mkFraction 1 (c5wG.getComp 1).orig_incoming_edges = some ⟨1, 1⟩) ∧
    ((⟨1, 1⟩ : Fraction).mul ⟨1, 1⟩ = some ⟨1, 1⟩) ∧
    (((mapLookup 2 (c5wG.getComp 0).children_components).getD ⟨0, 1⟩).add ⟨1, 1⟩ =
      some ⟨1, 1⟩) ∧
    ((⟨1, 1⟩ : Fraction).eqInt 1 = true) ∧
    (mapKeysSorted (c5wG.getComp 0).children_components = true) ∧
    (∃ g' ctn' urbn',
      c5wG.grandLoop 0 1 1 5 [(2, ⟨1, 1⟩)] [] [] = some (g', ctn', urbn') ∧
      (g'.getComp 0).unique_retained_size =
        ((c5wG.getComp 0).unique_retained_size +
          (c5wG.getComp 2).unique_retained_size) % U64 ∧
      mapLookup 2 (g'.getComp 0).children_components = none ∧
      ctn' = AddChild [] 1 1 5 ∧
      urbn' = (if IsUniqueOwner (AddChild [] 1 1 5) 1 2 5 then
          mapInsert 5 (((mapLookup 5 ([] : List (Int × Nat))).getD 0 +
            (c5wG.getComp 2).unique_retained_size) % U64) ([] : List (Int × Nat))
        else ([] : List (Int × Nat)))) :=
  ⟨by decide, by decide, by decide, by decide, by decide, by decide, by decide,
   by decide, by decide,
   c5_total_ownership_amended c5wG 0 1 2 1 5 ⟨1, 1⟩ ⟨1, 1⟩ ⟨1, 1⟩ ⟨1, 1⟩ [] []
     (by decide) (by decide) (by decide) (by decide) (by decide) (by decide)
     (by decide) (by decide) (by decide)⟩

/-! ## C8: `MarkReachable` invocation discipline

Infrastructure: `MarkPres g g'` says the SCC machinery step from `g` to `g'`
left everything `MarkReachable`-relevant untouched (node count, child sets,
row fields, reachability flags, and the `MarkReachable` event counts). -/

theorem markCount_append_setRetained (g : HeapGraphWalker) (es : List Event)
    (row retained unique : Int) (r : Int) :
    (es ++ [Event.setRetained row retained unique]).countP
        (fun e => e == Event.markReachable r) =
      es.countP (fun e => e == Event.markReachable r) := by
  rw [List.countP_append]
  simp [List.countP_cons]

def MarkPres (g g' : HeapGraphWalker) : Prop :=
  g'.nodes.length = g.nodes.length ∧
  (∀ i, (g'.getNode i).children = (g.getNode i).children) ∧
  (∀ i, (g'.getNode i).row = (g.getNode i).row) ∧
  (∀ i, (g'.getNode i).reachable = (g.getNode i).reachable) ∧
  (∀ r : Int, markCount g' r = markCount g r)

theorem markPres_refl (g : HeapGraphWalker) : MarkPres g g :=
  ⟨rfl, fun _ => rfl, fun _ => rfl, fun _ => rfl, fun _ => rfl⟩

theorem markPres_trans {a b c : HeapGraphWalker} (h1 : MarkPres a b)
    (h2 : MarkPres b c) : MarkPres a c :=
  ⟨h2.1.trans h1.1,
   fun i => (h2.2.1 i).trans (h1.2.1 i),
   fun i => (h2.2.2.1 i).trans (h1.2.2.1 i),
   fun i => (h2.2.2.2.1 i).trans (h1.2.2.2.1 i),
   fun r => (h2.2.2.2.2 r).trans (h1.2.2.2.2 r)⟩

theorem getNode_modifyNode (g : HeapGraphWalker) (i j : Nat) (f : Node → Node) :
    (g.modifyNode i f).getNode j =
      if i = j ∧ i < g.nodes.length then f (g.getNode i) else g.getNode j := by
  by_cases hij : i = j
  · subst hij
    by_cases hi : i < g.nodes.length
    · simp [HeapGraphWalker.modifyNode, HeapGraphWalker.getNode,
        List.getD_eq_getElem?_getD, List.getElem?_set_self hi, hi]
    · have hset : g.nodes.set i (f (g.getNode i)) = g.nodes :=
        List.set_eq_of_length_le (by omega)
      rw [if_neg (by omega : ¬(i = i ∧ i < g.nodes.length))]
      show ({ g with nodes := g.nodes.set i (f (g.getNode i)) } :
        HeapGraphWalker).getNode i = g.getNode i
      rw [hset]
  · simp [HeapGraphWalker.modifyNode, HeapGraphWalker.getNode,
      List.getD_eq_getElem?_getD, List.getElem?_set_ne hij, hij]

theorem markPres_modifyNode (g : HeapGraphWalker) (i : Nat) (f : Node → Node)
    (hf : ∀ n, (f n).children = n.children ∧ (f n).row = n.row ∧
      (f n).reachable = n.reachable) :
    MarkPres g (g.modifyNode i f) := by
  refine ⟨by simp [HeapGraphWalker.modifyNode], ?_, ?_, ?_, fun r => rfl⟩
  all_goals
    intro j
    rw [getNode_modifyNode]
    split
    · rename_i hcase
      obtain ⟨hij, _⟩ := hcase
      subst hij
      first
        | exact (hf (g.getNode i)).1
        | exact (hf (g.getNode i)).2.1
        | exact (hf (g.getNode i)).2.2
    · rfl

theorem markPres_modifyComp (g : HeapGraphWalker) (c : Int) (f : Component → Component) :
    MarkPres g (g.modifyComp c f) :=
  ⟨rfl, fun _ => rfl, fun _ => rfl, fun _ => rfl, fun _ => rfl⟩

theorem markPres_stack (g : HeapGraphWalker) (s : List Nat) :
    MarkPres g { g with node_stack := s } :=
  ⟨rfl, fun _ => rfl, fun _ => rfl, fun _ => rfl, fun _ => rfl⟩

theorem markPres_components (g : HeapGraphWalker) (cs : List Component) :
    MarkPres g { g with components := cs } :=
  ⟨rfl, fun _ => rfl, fun _ => rfl, fun _ => rfl, fun _ => rfl⟩

theorem markPres_setRetained (g : HeapGraphWalker) (row retained unique : Int) :
    MarkPres g { g with events := g.events ++ [Event.setRetained row retained unique] } :=
  ⟨rfl, fun _ => rfl, fun _ => rfl, fun _ => rfl,
   fun r => markCount_append_setRetained g g.events row retained unique r⟩

theorem markPres_of_eq (g g' : HeapGraphWalker) (hn : g'.nodes = g.nodes)
    (he : g'.events = g.events) : MarkPres g g' :=
  ⟨by rw [hn], fun i => by simp [HeapGraphWalker.getNode, hn],
   fun i => by simp [HeapGraphWalker.getNode, hn],
   fun i => by simp [HeapGraphWalker.getNode, hn],
   fun r => by simp [markCount, he]⟩

theorem markPres_set_on_stack (g : HeapGraphWalker) (i : Nat) :
    MarkPres g (g.modifyNode i (fun n => { n with on_stack := false })) :=
  markPres_modifyNode g i _ (fun _ => ⟨rfl, rfl, rfl⟩)

theorem markPres_set_component (g : HeapGraphWalker) (i : Nat) (cid : Int) :
    MarkPres g (g.modifyNode i (fun n => { n with component := cid })) :=
  markPres_modifyNode g i _ (fun _ => ⟨rfl, rfl, rfl⟩)

theorem markPres_set_indexed (g : HeapGraphWalker) (i : Nat) (idx : Nat) :
    MarkPres g (g.modifyNode i (fun n =>
      { n with node_index := idx, lowlink := idx, on_stack := true })) :=
  markPres_modifyNode g i _ (fun _ => ⟨rfl, rfl, rfl⟩)

theorem markPres_set_lowlink (g : HeapGraphWalker) (i : Nat) (l : Nat) :
    MarkPres g (g.modifyNode i (fun n => { n with lowlink := l })) :=
  markPres_modifyNode g i _ (fun _ => ⟨rfl, rfl, rfl⟩)

theorem markPres_push (g : HeapGraphWalker) (idx : Nat) (s : List Nat) :
    MarkPres g { g with next_node_index := idx, node_stack := s } :=
  ⟨rfl, fun _ => rfl, fun _ => rfl, fun _ => rfl, fun _ => rfl⟩

theorem popLoop_markPres : ∀ (st : List Nat) (g : HeapGraphWalker) (cid : Int) (v : Nat)
    (acc : List Nat) (dc : List (Int × DirectChild)) (g' : HeapGraphWalker)
    (ns : List Nat) (dc' : List (Int × DirectChild)),
    g.popLoop cid v st acc dc = some (g', ns, dc') → MarkPres g g' := by
  intro st
  induction st with
  | nil =>
    intro g cid v acc dc g' ns dc' h
    exact absurd h (by simp [HeapGraphWalker.popLoop])
  | cons e rest ih =>
    intro g cid v acc dc g' ns dc' h
    simp only [HeapGraphWalker.popLoop] at h
    have p1 : MarkPres g { g with node_stack := rest } := markPres_stack g rest
    split at h
    · exact absurd h (by simp)
    · rename_i dc2 hsc
      have p2 := markPres_trans p1 (markPres_set_on_stack { g with node_stack := rest } e)
      split at h
      · rename_i hcomp
        have p3 := markPres_trans p2 (markPres_set_component _ e cid)
        split at h
        · rename_i hev
          simp only [Option.some.injEq, Prod.mk.injEq] at h
          obtain ⟨hg, -, -⟩ := h
          subst hg
          exact p3
        · exact markPres_trans p3 (ih _ _ _ _ _ _ _ _ h)
      · exact absurd h (by simp)

theorem parentLoop_markPres : ∀ (ps : List Nat) (g : HeapGraphWalker) (cid : Int),
    MarkPres g (g.parentLoop cid ps) := by
  intro ps
  induction ps with
  | nil => intro g cid; exact markPres_refl g
  | cons p rest ih =>
    intro g cid
    simp only [HeapGraphWalker.parentLoop]
    split
    · exact markPres_trans (markPres_modifyComp _ _ _) (ih _ _)
    · exact ih _ _

theorem incomingLoop_markPres : ∀ (es : List Nat) (g : HeapGraphWalker) (cid : Int),
    MarkPres g (g.incomingLoop cid es) := by
  intro es
  induction es with
  | nil => intro g cid; exact markPres_refl g
  | cons e rest ih =>
    intro g cid
    simp only [HeapGraphWalker.incomingLoop]
    exact markPres_trans (markPres_modifyComp _ _ _)
      (markPres_trans (parentLoop_markPres _ _ _)
        (markPres_trans (markPres_modifyComp _ _ _) (ih _ _)))

theorem grandLoop_markPres : ∀ (entries : List (Int × Fraction)) (g : HeapGraphWalker)
    (cid child_id : Int) (count : Nat) (last : Int)
    (ctn : List (Int × Int)) (urbn : List (Int × Nat))
    (g' : HeapGraphWalker) (ctn' : List (Int × Int)) (urbn' : List (Int × Nat)),
    g.grandLoop cid child_id count last entries ctn urbn = some (g', ctn', urbn') →
    MarkPres g g' := by
  intro entries
  induction entries with
  | nil =>
    intro g cid child_id count last ctn urbn g' ctn' urbn' h
    simp only [HeapGraphWalker.grandLoop, Option.some.injEq, Prod.mk.injEq] at h
    obtain ⟨hg, -, -⟩ := h
    subst hg
    exact markPres_refl g
  | cons p rest ih =>
    intro g cid child_id count last ctn urbn g' ctn' urbn' h
    obtain ⟨grand_id, frac⟩ := p
    simp only [HeapGraphWalker.grandLoop] at h
    split at h
    · exact absurd h (by simp)
    · split at h
      · exact absurd h (by simp)
      · split at h
        · exact absurd h (by simp)
        · split at h
          · have hrec := ih _ _ _ _ _ _ _ _ _ _ h
            exact markPres_trans (markPres_of_eq _ _ rfl rfl) hrec
          · have hrec := ih _ _ _ _ _ _ _ _ _ _ h
            exact markPres_trans (markPres_of_eq _ _ rfl rfl) hrec

theorem childrenLoop_markPres : ∀ (entries : List (Int × DirectChild))
    (g : HeapGraphWalker) (cid : Int)
    (ctn : List (Int × Int)) (urbn : List (Int × Nat))
    (g' : HeapGraphWalker) (ctn' : List (Int × Int)) (urbn' : List (Int × Nat)),
    g.childrenLoop cid entries ctn urbn = some (g', ctn', urbn') → MarkPres g g' := by
  intro entries
  induction entries with
  | nil =>
    intro g cid ctn urbn g' ctn' urbn' h
    simp only [HeapGraphWalker.childrenLoop, Option.some.injEq, Prod.mk.injEq] at h
    obtain ⟨hg, -, -⟩ := h
    subst hg
    exact markPres_refl g
  | cons p rest ih =>
    intro g cid ctn urbn g' ctn' urbn' h
    obtain ⟨child_id, dcv⟩ := p
    simp only [HeapGraphWalker.childrenLoop] at h
    split at h
    · exact absurd h (by simp)
    · split at h
      · exact absurd h (by simp)
      · rename_i g2 ctn2 urbn2 hgl
        have pg2 : MarkPres g g2 :=
          markPres_trans (markPres_modifyComp _ _ _)
            (grandLoop_markPres _ _ _ _ _ _ _ _ _ _ _ hgl)
        split at h
        · split at h
          · exact absurd h (by simp)
          · split at h
            · have hrec := ih _ _ _ _ _ _ _ h
              exact markPres_trans
                (markPres_trans pg2 (markPres_of_eq _ _ rfl rfl)) hrec
            · have hrec := ih _ _ _ _ _ _ _ h
              exact markPres_trans
                (markPres_trans pg2 (markPres_of_eq _ _ rfl rfl)) hrec
        · split at h
          · exact absurd h (by simp)
          · split at h
            · exact absurd h (by simp)
            · split at h
              all_goals try split at h
              all_goals try split at h
              all_goals try split at h
              all_goals
                have hrec := ih _ _ _ _ _ _ _ h
              all_goals
                exact markPres_trans
                  (markPres_trans pg2 (markPres_of_eq _ _ rfl rfl)) hrec

theorem emitLoop_markPres : ∀ (ns : List Nat) (g : HeapGraphWalker) (retained : Int)
    (urbn : List (Int × Nat)), MarkPres g (g.emitLoop retained urbn ns) := by
  intro ns
  induction ns with
  | nil => intro g retained urbn; exact markPres_refl g
  | cons e rest ih =>
    intro g retained urbn
    simp only [HeapGraphWalker.emitLoop]
    exact markPres_trans (markPres_setRetained _ _ _ _) (ih _ _ _)

theorem foundSCC_markPres (g : HeapGraphWalker) (v : Nat) (g' : HeapGraphWalker)
    (h : g.FoundSCC v = some g') : MarkPres g g' := by
  simp only [HeapGraphWalker.FoundSCC] at h
  split at h
  · exact absurd h (by simp)
  · rename_i g2 ns dc hpop
    split at h
    · exact absurd h (by simp)
    · rename_i g3 ctn urbn hcl
      simp only [Option.some.injEq] at h
      subst h
      exact markPres_trans (markPres_components g _)
        (markPres_trans (popLoop_markPres _ _ _ _ _ _ _ _ _ hpop)
          (markPres_trans (incomingLoop_markPres _ _ _)
            (markPres_trans (childrenLoop_markPres _ _ _ _ _ _ _ _ hcl)
              (emitLoop_markPres _ _ _ _))))

theorem sccChildren_markPres
    (findRec : HeapGraphWalker → Nat → Option HeapGraphWalker)
    (hfr : ∀ g v g', findRec g v = some g' → MarkPres g g') :
    ∀ (cs : List Nat) (g : HeapGraphWalker) (v : Nat) (g' : HeapGraphWalker),
    HeapGraphWalker.sccChildren findRec g v cs = some g' → MarkPres g g' := by
  intro cs
  induction cs with
  | nil =>
    intro g v g' h
    simp only [HeapGraphWalker.sccChildren, Option.some.injEq] at h
    subst h
    exact markPres_refl g
  | cons c rest ih =>
    intro g v g' h
    simp only [HeapGraphWalker.sccChildren] at h
    split at h
    · split at h
      · exact absurd h (by simp)
      · rename_i g1 hf1
        have p1 : MarkPres g g1 := hfr _ _ _ hf1
        split at h
        · exact markPres_trans p1
            (markPres_trans (markPres_set_lowlink g1 v _) (ih _ _ _ h))
        · exact markPres_trans p1 (ih _ _ _ h)
    · split at h
      · split at h
        · exact markPres_trans (markPres_set_lowlink g v _) (ih _ _ _ h)
        · exact ih _ _ _ h
      · exact ih _ _ _ h

theorem findSCC_markPres : ∀ (fuel : Nat) (g : HeapGraphWalker) (v : Nat)
    (g' : HeapGraphWalker), HeapGraphWalker.FindSCC fuel g v = some g' → MarkPres g g' := by
  intro fuel
  induction fuel with
  | zero => intro g v g' h; exact absurd h (by simp [HeapGraphWalker.FindSCC])
  | succ fuel ih =>
    intro g v g' h
    simp only [HeapGraphWalker.FindSCC] at h
    split at h
    · exact absurd h (by simp)
    · rename_i g3 hsc
      have hrec := sccChildren_markPres _ ih _ _ _ _ hsc
      have p0 : MarkPres g g3 :=
        markPres_trans
          (markPres_trans (markPres_set_indexed g v g.next_node_index)
            (markPres_of_eq _ _ rfl rfl)) hrec
      split at h
      · exact markPres_trans p0 (foundSCC_markPres _ _ _ h)
      · simp only [Option.some.injEq] at h
        subst h
        exact p0

theorem calcLoop_markPres : ∀ (is : List Nat) (g : HeapGraphWalker)
    (g' : HeapGraphWalker), g.calcLoop is = some g' → MarkPres g g' := by
  intro is
  induction is with
  | nil =>
    intro g g' h
    simp only [HeapGraphWalker.calcLoop, Option.some.injEq] at h
    subst h
    exact markPres_refl g
  | cons i rest ih =>
    intro g g' h
    simp only [HeapGraphWalker.calcLoop] at h
    split at h
    · split at h
      · exact absurd h (by simp)
      · rename_i g1 hf
        exact markPres_trans (findSCC_markPres _ _ _ _ hf) (ih _ _ h)
    · exact ih _ _ h

theorem calculateRetained_markPres (g g' : HeapGraphWalker)
    (h : g.CalculateRetained = some g') : MarkPres g g' := by
  simp only [HeapGraphWalker.CalculateRetained] at h
  split at h
  · exact absurd h (by simp)
  · rename_i g1 hcl
    split at h
    · simp only [Option.some.injEq] at h
      subst h
      exact calcLoop_markPres _ _ _ hcl
    · exact absurd h (by simp)

/-- The marking invariant: child references are in bounds and carry canonical
row fields, reachable nodes carry canonical row fields, `MarkReachable` has
been invoked exactly once per reachable node and never otherwise. -/
structure MarkInv (g : HeapGraphWalker) : Prop where
  children_ok : ∀ i, ∀ c ∈ (g.getNode i).children,
    c < g.nodes.length ∧ (g.getNode c).row = (c : Int)
  reach_row : ∀ i, i < g.nodes.length → (g.getNode i).reachable = true →
    (g.getNode i).row = (i : Int)
  count_in : ∀ i, i < g.nodes.length →
    markCount g (i : Int) = (if (g.getNode i).reachable then 1 else 0)
  count_out : ∀ r : Int, (r < 0 ∨ (g.nodes.length : Int) ≤ r) → markCount g r = 0

/-- Closure: the reachable set is closed under child edges. -/
def CL (g : HeapGraphWalker) : Prop :=
  ∀ i, i < g.nodes.length → (g.getNode i).reachable = true →
    ∀ c ∈ (g.getNode i).children, (g.getNode c).reachable = true

/-- Closure modulo a pending work list. -/
def CLW (g : HeapGraphWalker) (work : List Nat) : Prop :=
  ∀ i, i < g.nodes.length → (g.getNode i).reachable = true →
    ∀ c ∈ (g.getNode i).children, (g.getNode c).reachable = true ∨ c ∈ work

theorem markInv_of_markPres {g g' : HeapGraphWalker} (hp : MarkPres g g')
    (h : MarkInv g) : MarkInv g' := by
  obtain ⟨hlen, hch, hrow, hre, hcnt⟩ := hp
  refine ⟨?_, ?_, ?_, ?_⟩
  · intro i c hc
    rw [hch] at hc
    rw [hlen, hrow]
    exact h.children_ok i c hc
  · intro i hi hr
    rw [hlen] at hi
    rw [hre] at hr
    rw [hrow]
    exact h.reach_row i hi hr
  · intro i hi
    rw [hlen] at hi
    rw [hcnt, hre]
    exact h.count_in i hi
  · intro r hr
    rw [hlen] at hr
    rw [hcnt]
    exact h.count_out r hr

theorem cl_of_markPres {g g' : HeapGraphWalker} (hp : MarkPres g g') (h : CL g) :
    CL g' := by
  obtain ⟨hlen, hch, hrow, hre, hcnt⟩ := hp
  intro i hi hr c hc
  rw [hlen] at hi
  rw [hre] at hr
  rw [hch] at hc
  rw [hre]
  exact h i hi hr c hc

theorem getNode_set_events (g : HeapGraphWalker) (i : Nat) (x : Node)
    (es : List Event) (j : Nat) (hi : i < g.nodes.length) :
    ({ g with nodes := g.nodes.set i x, events := es } : HeapGraphWalker).getNode j =
      if j = i then x else g.getNode j := by
  by_cases hij : j = i
  · subst hij
    simp [HeapGraphWalker.getNode, List.getD_eq_getElem?_getD, List.getElem?_set_self hi]
  · simp [HeapGraphWalker.getNode, List.getD_eq_getElem?_getD,
      List.getElem?_set_ne (fun hh => hij hh.symm), hij]

theorem markCount_append_mark (g : HeapGraphWalker) (row r : Int) :
    markCount { g with events := g.events ++ [Event.markReachable row] } r =
      markCount g r + (if row = r then 1 else 0) := by
  simp only [markCount, List.countP_append]
  congr 1
  by_cases h : row = r
  · simp [List.countP_cons, h]
  · simp [List.countP_cons, h]

/-- The full specification of the reachability walk: it preserves `MarkInv`,
node count, child sets and row fields, only raises reachability flags,
establishes closure once the work list is drained, and marks every valid
work-list entry. -/
theorem reachableNode_spec : ∀ (fuel : Nat) (g : HeapGraphWalker) (work : List Nat)
    (g' : HeapGraphWalker),
    HeapGraphWalker.ReachableNode fuel g work = some g' →
    MarkInv g →
    (∀ j ∈ work, j < g.nodes.length → (g.getNode j).row = (j : Int)) →
    MarkInv g' ∧
    g'.nodes.length = g.nodes.length ∧
    (∀ i, (g'.getNode i).children = (g.getNode i).children) ∧
    (∀ i, (g'.getNode i).row = (g.getNode i).row) ∧
    (∀ i, (g.getNode i).reachable = true → (g'.getNode i).reachable = true) ∧
    (CLW g work → CL g') ∧
    (∀ j ∈ work, j < g.nodes.length → (g'.getNode j).reachable = true) := by
  intro fuel
  induction fuel with
  | zero =>
    intro g work g' h _ _
    exact absurd h (by simp [HeapGraphWalker.ReachableNode])
  | succ fuel ih =>
    intro g work g' h hinv hwork
    cases work with
    | nil =>
      simp only [HeapGraphWalker.ReachableNode, Option.some.injEq] at h
      subst h
      refine ⟨hinv, rfl, fun _ => rfl, fun _ => rfl, fun _ hr => hr, ?_, by simp⟩
      intro hclw i hi hr c hc
      rcases hclw i hi hr c hc with hre | hmem
      · exact hre
      · simp at hmem
    | cons i rest =>
      simp only [HeapGraphWalker.ReachableNode] at h
      by_cases hi : i < g.nodes.length
      · rw [if_pos hi] at h
        by_cases hr : (g.getNode i).reachable
        · rw [if_pos hr] at h
          obtain ⟨A1, A2, A3, A4, A5, A6, A7⟩ :=
            ih g rest g' h hinv (fun j hj => hwork j (List.mem_cons_of_mem i hj))
          refine ⟨A1, A2, A3, A4, A5, ?_, ?_⟩
          · intro hclw
            apply A6
            intro j hj hjr c hc
            rcases hclw j hj hjr c hc with hre | hmem
            · exact Or.inl hre
            · rcases List.mem_cons.mp hmem with hci | hcr
              · subst hci; exact Or.inl hr
              · exact Or.inr hcr
          · intro j hj hjlen
            rcases List.mem_cons.mp hj with hji | hjr
            · subst hji; exact A5 j hr
            · exact A7 j hjr hjlen
        · rw [if_neg hr] at h
          have hrowi : (g.getNode i).row = (i : Int) :=
            hwork i (List.mem_cons_self i rest) hi
          set g1 : HeapGraphWalker :=
            { g with nodes := g.nodes.set i { g.getNode i with reachable := true },
                     events := g.events ++ [Event.markReachable (g.getNode i).row] }
            with hg1
          have hlen1 : g1.nodes.length = g.nodes.length := by
            simp [hg1]
          have hget1 : ∀ j, g1.getNode j =
              if j = i then { g.getNode i with reachable := true } else g.getNode j :=
            fun j => getNode_set_events g i _ _ j hi
          have hcount1 : ∀ r : Int,
              markCount g1 r = markCount g r + (if (i : Int) = r then 1 else 0) := by
            intro r
            rw [hg1]
            simp only [markCount, List.countP_append, List.countP_cons,
              List.countP_nil, hrowi]
            by_cases hir : (i : Int) = r
            · simp [hir]
            · simp [hir]
          have hch1 : ∀ j, (g1.getNode j).children = (g.getNode j).children := by
            intro j
            rw [hget1]
            split
            · rename_i hj; subst hj; rfl
            · rfl
          have hrow1 : ∀ j, (g1.getNode j).row = (g.getNode j).row := by
            intro j
            rw [hget1]
            split
            · rename_i hj; subst hj; rfl
            · rfl
          have hmono1 : ∀ j, (g.getNode j).reachable = true →
              (g1.getNode j).reachable = true := by
            intro j hj
            rw [hget1]
            split
            · rfl
            · exact hj
          have hreach1i : (g1.getNode i).reachable = true := by
            rw [hget1, if_pos rfl]
          have hinv1 : MarkInv g1 := by
            refine ⟨?_, ?_, ?_, ?_⟩
            · intro j c hc
              rw [hch1] at hc
              rw [hlen1, hrow1]
              exact hinv.children_ok j c hc
            · intro j hj hjr
              rw [hlen1] at hj
              rw [hrow1]
              rw [hget1] at hjr
              by_cases hji : j = i
              · subst hji; exact hrowi
              · rw [if_neg hji] at hjr
                exact hinv.reach_row j hj hjr
            · intro j hj
              rw [hlen1] at hj
              rw [hcount1, hinv.count_in j hj, hget1]
              by_cases hji : j = i
              · subst hji
                simp only [Bool.not_eq_true] at hr
                simp [hr]
              · have hij2 : (i : Int) ≠ (j : Int) := by omega
                simp [hji, hij2]
            · intro r hrout
              rw [hlen1] at hrout
              rw [hcount1, hinv.count_out r hrout]
              have : (i : Int) ≠ r := by omega
              simp [this]
          have hwork' : ∀ j ∈ (g.getNode i).children ++ rest,
              j < g1.nodes.length → (g1.getNode j).row = (j : Int) := by
            intro j hj hjlen
            rw [hrow1]
            rcases List.mem_append.mp hj with hjc | hjr
            · exact (hinv.children_ok i j hjc).2
            · rw [hlen1] at hjlen
              exact hwork j (List.mem_cons_of_mem i hjr) hjlen
          obtain ⟨A1, A2, A3, A4, A5, A6, A7⟩ := ih g1 _ g' h hinv1 hwork'
          refine ⟨A1, A2.trans hlen1, fun j => (A3 j).trans (hch1 j),
            fun j => (A4 j).trans (hrow1 j),
            fun j hj => A5 j (hmono1 j hj), ?_, ?_⟩
          · intro hclw
            apply A6
            intro j hj hjr c hc
            rw [hlen1] at hj
            rw [hch1] at hc
            by_cases hji : j = i
            · subst hji
              exact Or.inr (List.mem_append.mpr (Or.inl hc))
            · rw [hget1, if_neg hji] at hjr
              rcases hclw j hj hjr c hc with hre | hmem
              · exact Or.inl (hmono1 c hre)
              · rcases List.mem_cons.mp hmem with hci | hcr
                · subst hci; exact Or.inl hreach1i
                · exact Or.inr (List.mem_append.mpr (Or.inr hcr))
          · intro j hj hjlen
            rcases List.mem_cons.mp hj with hji | hjr
            · subst hji; exact A5 j hreach1i
            · exact A7 j (List.mem_append.mpr (Or.inr hjr)) (by rw [hlen1]; exact hjlen)
      · rw [if_neg hi] at h
        obtain ⟨A1, A2, A3, A4, A5, A6, A7⟩ :=
          ih g rest g' h hinv (fun j hj => hwork j (List.mem_cons_of_mem i hj))
        refine ⟨A1, A2, A3, A4, A5, ?_, ?_⟩
        · intro hclw
          apply A6
          intro j hj hjr c hc
          rcases hclw j hj hjr c hc with hre | hmem
          · exact Or.inl hre
          · rcases List.mem_cons.mp hmem with hci | hcr
            · subst hci
              exact absurd (hinv.children_ok j c hc).1 hi
            · exact Or.inr hcr
        · intro j hj hjlen
          rcases List.mem_cons.mp hj with hji | hjr
          · subst hji; exact absurd hjlen hi
          · exact A7 j hjr hjlen

/-- Well-formed call sequences: every `AddEdge` endpoint and every `MarkRoot`
row has been registered by a previous `AddNode` (the spec's contract: "both
rows must already exist"). -/
def wfOps : List Op → List Nat → Bool
  | [], _ => true
  | Op.addNode r _ :: rest, reg => wfOps rest (r :: reg)
  | Op.addEdge a b :: rest, reg => reg.contains a && reg.contains b && wfOps rest reg
  | Op.markRoot r :: rest, reg => reg.contains r && wfOps rest reg
  | Op.calcRetained :: rest, reg => wfOps rest reg

/-- No further graph construction. -/
def noAdds : List Op → Bool
  | [] => true
  | Op.addNode _ _ :: _ => false
  | Op.addEdge _ _ :: _ => false
  | Op.markRoot _ :: rest => noAdds rest
  | Op.calcRetained :: rest => noAdds rest

/-- The documented control flow: all graph construction precedes the first
`MarkRoot`. -/
def phasedOps : List Op → Bool
  | [] => true
  | Op.addNode _ _ :: rest => phasedOps rest
  | Op.addEdge _ _ :: rest => phasedOps rest
  | Op.markRoot _ :: rest => noAdds rest
  | Op.calcRetained :: rest => phasedOps rest

theorem phasedOps_of_noAdds : ∀ (ops : List Op), noAdds ops = true → phasedOps ops = true := by
  intro ops
  induction ops with
  | nil => intro; rfl
  | cons op rest ih =>
    intro h
    cases op with
    | addNode r s => exact absurd h (by simp [noAdds])
    | addEdge a b => exact absurd h (by simp [noAdds])
    | markRoot r => exact h
    | calcRetained => exact ih h

/-- Graph reachability along child edges in a walker state. -/
inductive Reaches (g : HeapGraphWalker) : Nat → Nat → Prop
  | refl (u : Nat) : Reaches g u u
  | step {u v w : Nat} : Reaches g u v → w ∈ (g.getNode v).children → Reaches g u w

theorem mem_insertSorted {x y : Nat} : ∀ {l : List Nat}, x ∈ insertSorted y l → x = y ∨ x ∈ l := by
  intro l
  induction l with
  | nil => intro h; simp [insertSorted] at h; exact Or.inl h
  | cons z rest ih =>
    intro h
    simp only [insertSorted] at h
    split at h
    · rcases List.mem_cons.mp h with h1 | h1
      · exact Or.inl h1
      · exact Or.inr h1
    · split at h
      · exact Or.inr h
      · rcases List.mem_cons.mp h with h1 | h1
        · exact Or.inr (h1 ▸ List.mem_cons_self z rest)
        · rcases ih h1 with h2 | h2
          · exact Or.inl h2
          · exact Or.inr (List.mem_cons_of_mem z h2)

theorem getNode_oob (g : HeapGraphWalker) (j : Nat) (h : g.nodes.length ≤ j) :
    g.getNode j = defaultNode := by
  have : g.nodes[j]? = none := by
    rw [List.getElem?_eq_none_iff]; omega
  simp [HeapGraphWalker.getNode, List.getD_eq_getElem?_getD, this]

theorem getNode_extend (g : HeapGraphWalker) (k : Nat) (i : Nat) :
    ({ g with nodes := g.nodes ++ List.replicate k defaultNode } :
      HeapGraphWalker).getNode i =
    if i < g.nodes.length then g.getNode i else defaultNode := by
  by_cases hi : i < g.nodes.length
  · simp [HeapGraphWalker.getNode, List.getD_eq_getElem?_getD,
      List.getElem?_append_left hi, hi]
  · rw [if_neg hi]
    simp only [HeapGraphWalker.getNode, List.getD_eq_getElem?_getD]
    rw [List.getElem?_append_right (by omega)]
    by_cases hik : i - g.nodes.length < k
    · simp [List.getElem?_replicate, hik]
    · have hnone : (List.replicate k defaultNode)[i - g.nodes.length]? = none := by
        rw [List.getElem?_eq_none_iff]
        simp
        omega
      simp [hnone]

theorem addNode_getNode (g : HeapGraphWalker) (row size j : Nat) :
    (g.AddNode row size).getNode j =
      if j = row then
        { (if row < g.nodes.length then g.getNode row else defaultNode) with
            self_size := size % U64, row := (row : Int) }
      else if j < g.nodes.length then g.getNode j else defaultNode := by
  simp only [HeapGraphWalker.AddNode]
  by_cases hle : g.nodes.length ≤ row
  · rw [if_pos hle]
    rw [getNode_modifyNode]
    by_cases hj : row = j
    · subst hj
      rw [if_pos ⟨rfl, by simp; omega⟩, if_pos rfl, getNode_extend,
        if_neg (by omega)]
    · rw [if_neg (by intro hc; exact hj hc.1), if_neg (fun hc => hj hc.symm),
        getNode_extend]
  · rw [if_neg hle]
    rw [getNode_modifyNode]
    by_cases hj : row = j
    · subst hj
      rw [if_pos ⟨rfl, by omega⟩, if_pos rfl, if_pos (by omega)]
    · rw [if_neg (by intro hc; exact hj hc.1), if_neg (fun hc => hj hc.symm)]
      by_cases hjl : j < g.nodes.length
      · rw [if_pos hjl]
      · rw [if_neg hjl, getNode_oob g j (by omega)]

theorem addNode_length (g : HeapGraphWalker) (row size : Nat) :
    (g.AddNode row size).nodes.length =
      if g.nodes.length ≤ row then row + 1 else g.nodes.length := by
  simp only [HeapGraphWalker.AddNode]
  by_cases hle : g.nodes.length ≤ row
  · simp [HeapGraphWalker.modifyNode, hle]
    omega
  · simp [HeapGraphWalker.modifyNode, hle]

theorem addNode_events (g : HeapGraphWalker) (row size : Nat) :
    (g.AddNode row size).events = g.events := by
  simp only [HeapGraphWalker.AddNode]
  split <;> rfl

theorem addEdge_events (g : HeapGraphWalker) (a b : Nat) :
    (g.AddEdge a b).events = g.events := by
  simp only [HeapGraphWalker.AddEdge]
  split <;> rfl

theorem addEdge_length (g : HeapGraphWalker) (a b : Nat) :
    (g.AddEdge a b).nodes.length = g.nodes.length := by
  simp only [HeapGraphWalker.AddEdge]
  split
  · simp [HeapGraphWalker.modifyNode]
  · rfl

theorem getNode_modifyNode_row_reach (g : HeapGraphWalker) (i : Nat) (f : Node → Node)
    (hf : ∀ n, (f n).row = n.row ∧ (f n).reachable = n.reachable) (j : Nat) :
    ((g.modifyNode i f).getNode j).row = (g.getNode j).row ∧
    ((g.modifyNode i f).getNode j).reachable = (g.getNode j).reachable := by
  rw [getNode_modifyNode]
  split
  · rename_i hc
    obtain ⟨hij, -⟩ := hc
    subst hij
    exact ⟨(hf _).1, (hf _).2⟩
  · exact ⟨rfl, rfl⟩

theorem addEdge_row_reach (g : HeapGraphWalker) (a b j : Nat) :
    ((g.AddEdge a b).getNode j).row = (g.getNode j).row ∧
    ((g.AddEdge a b).getNode j).reachable = (g.getNode j).reachable := by
  simp only [HeapGraphWalker.AddEdge]
  split
  · have h1 := getNode_modifyNode_row_reach
      (g.modifyNode a (fun n => { n with children := insertSorted b n.children }))
      b (fun n => { n with parents := insertSorted a n.parents })
      (fun n => ⟨rfl, rfl⟩) j
    have h2 := getNode_modifyNode_row_reach g a
      (fun n => { n with children := insertSorted b n.children })
      (fun n => ⟨rfl, rfl⟩) j
    exact ⟨h1.1.trans h2.1, h1.2.trans h2.2⟩
  · exact ⟨rfl, rfl⟩

theorem addEdge_children (g : HeapGraphWalker) (a b j : Nat)
    (hg : a < g.nodes.length ∧ b < g.nodes.length) :
    ((g.AddEdge a b).getNode j).children =
      if j = a then insertSorted b (g.getNode a).children
      else (g.getNode j).children := by
  simp only [HeapGraphWalker.AddEdge, if_pos hg]
  have houter : ∀ j' : Nat,
      (((g.modifyNode a (fun n => { n with children := insertSorted b n.children })).modifyNode
        b (fun n => { n with parents := insertSorted a n.parents })).getNode j').children =
      ((g.modifyNode a (fun n =>
        { n with children := insertSorted b n.children })).getNode j').children := by
    intro j'
    rw [getNode_modifyNode]
    split
    · rename_i hc
      obtain ⟨hbj, -⟩ := hc
      subst hbj
      rfl
    · rfl
  rw [houter, getNode_modifyNode]
  by_cases hja : a = j
  · subst hja
    rw [if_pos ⟨rfl, hg.1⟩, if_pos rfl]
  · rw [if_neg (by intro hc; exact hja hc.1), if_neg (fun hc => hja hc.symm)]

theorem addNode_reachable (g : HeapGraphWalker) (row size j : Nat) :
    ((g.AddNode row size).getNode j).reachable =
      if j < g.nodes.length then (g.getNode j).reachable else false := by
  rw [addNode_getNode]
  by_cases hj : j = row
  · subst hj
    by_cases hjl : j < g.nodes.length
    · simp [hjl]
    · simp [hjl, defaultNode]
  · by_cases hjl : j < g.nodes.length
    · simp [hj, hjl]
    · simp [hj, hjl, defaultNode]

theorem addNode_markInv (g : HeapGraphWalker) (row size : Nat) (h : MarkInv g) :
    MarkInv (g.AddNode row size) := by
  have hlen := addNode_length g row size
  have hev := addNode_events g row size
  have hcnt : ∀ r, markCount (g.AddNode row size) r = markCount g r := by
    intro r
    simp [markCount, hev]
  have hlenle : g.nodes.length ≤ (g.AddNode row size).nodes.length := by
    rw [hlen]
    split <;> omega
  have hrowc : ∀ c, c < g.nodes.length → (g.getNode c).row = (c : Int) →
      ((g.AddNode row size).getNode c).row = (c : Int) := by
    intro c hc hcr
    rw [addNode_getNode]
    by_cases hcrow : c = row
    · subst hcrow; simp
    · simp [hcrow, hc, hcr]
  refine ⟨?_, ?_, ?_, ?_⟩
  · intro i c hc
    rw [addNode_getNode] at hc
    have hmem : c ∈ (g.getNode i).children := by
      by_cases hir : i = row
      · by_cases hrl : row < g.nodes.length
        · rw [if_pos hir, if_pos hrl] at hc
          rw [hir]
          exact hc
        · rw [if_pos hir, if_neg hrl] at hc
          simp [defaultNode] at hc
      · rw [if_neg hir] at hc
        by_cases hil : i < g.nodes.length
        · rw [if_pos hil] at hc
          exact hc
        · rw [if_neg hil] at hc
          simp [defaultNode] at hc
    obtain ⟨hcl, hcr⟩ := h.children_ok i c hmem
    exact ⟨by omega, hrowc c hcl hcr⟩
  · intro i hi hr
    rw [addNode_reachable] at hr
    by_cases hil : i < g.nodes.length
    · rw [if_pos hil] at hr
      exact hrowc i hil (h.reach_row i hil hr)
    · rw [if_neg hil] at hr
      exact absurd hr (by simp)
  · intro i hi
    rw [hcnt, addNode_reachable]
    by_cases hil : i < g.nodes.length
    · rw [if_pos hil]
      exact h.count_in i hil
    · rw [if_neg hil]
      exact h.count_out (i : Int) (by omega)
  · intro r hr
    rw [hcnt]
    exact h.count_out r (by omega)

theorem addEdge_markInv (g : HeapGraphWalker) (a b : Nat) (h : MarkInv g)
    (hbrow : b < g.nodes.length → (g.getNode b).row = (b : Int)) :
    MarkInv (g.AddEdge a b) := by
  have hev := addEdge_events g a b
  have hlen := addEdge_length g a b
  have hcnt : ∀ r, markCount (g.AddEdge a b) r = markCount g r := by
    intro r
    simp [markCount, hev]
  by_cases hg : a < g.nodes.length ∧ b < g.nodes.length
  · refine ⟨?_, ?_, ?_, ?_⟩
    · intro i c hc
      rw [addEdge_children g a b i hg] at hc
      rw [hlen]
      have hrowpres : ∀ j : Nat, ((g.AddEdge a b).getNode j).row = (g.getNode j).row :=
        fun j => (addEdge_row_reach g a b j).1
      by_cases hia : i = a
      · rw [if_pos hia] at hc
        rcases mem_insertSorted hc with hcb | hcm
        · subst hcb
          exact ⟨hg.2, by rw [hrowpres]; exact hbrow hg.2⟩
        · obtain ⟨h1, h2⟩ := h.children_ok a c hcm
          exact ⟨h1, by rw [hrowpres]; exact h2⟩
      · rw [if_neg hia] at hc
        obtain ⟨h1, h2⟩ := h.children_ok i c hc
        exact ⟨h1, by rw [hrowpres]; exact h2⟩
    · intro i hi hr
      rw [hlen] at hi
      rw [(addEdge_row_reach g a b i).1]
      rw [(addEdge_row_reach g a b i).2] at hr
      exact h.reach_row i hi hr
    · intro i hi
      rw [hlen] at hi
      rw [hcnt, (addEdge_row_reach g a b i).2]
      exact h.count_in i hi
    · intro r hr
      rw [hlen] at hr
      rw [hcnt]
      exact h.count_out r hr
  · have : g.AddEdge a b = g := by
      simp only [HeapGraphWalker.AddEdge, if_neg hg]
    rw [this]
    exact h

def AllUnreachable (g : HeapGraphWalker) : Prop :=
  ∀ i, (g.getNode i).reachable = false

theorem allUnreachable_CL (g : HeapGraphWalker) (h : AllUnreachable g) : CL g := by
  intro i hi hr
  rw [h i] at hr
  exact absurd hr (by simp)

theorem addNode_allUnreach (g : HeapGraphWalker) (row size : Nat)
    (h : AllUnreachable g) : AllUnreachable (g.AddNode row size) := by
  intro i
  rw [addNode_reachable]
  split
  · exact h i
  · rfl

theorem addEdge_allUnreach (g : HeapGraphWalker) (a b : Nat)
    (h : AllUnreachable g) : AllUnreachable (g.AddEdge a b) := by
  intro i
  rw [(addEdge_row_reach g a b i).2]
  exact h i

theorem addNode_row_canonical (g : HeapGraphWalker) (row size x : Nat)
    (hx : x < g.nodes.length) (hr : (g.getNode x).row = (x : Int)) :
    ((g.AddNode row size).getNode x).row = (x : Int) := by
  rw [addNode_getNode]
  by_cases hxr : x = row
  · subst hxr; simp
  · simp [hxr, hx, hr]

theorem addNode_self_row (g : HeapGraphWalker) (row size : Nat) :
    ((g.AddNode row size).getNode row).row = (row : Int) := by
  rw [addNode_getNode]
  simp

/-- The `MarkRoot` step: preserves the marking invariant, node count, child
sets and row fields, only raises reachability flags, preserves closure, and
marks the root. -/
theorem markRoot_spec (g g' : HeapGraphWalker) (row : Nat)
    (h : g.MarkRoot row = some g')
    (hinv : MarkInv g)
    (hrow : row < g.nodes.length → (g.getNode row).row = (row : Int)) :
    MarkInv g' ∧
    g'.nodes.length = g.nodes.length ∧
    (∀ i, (g'.getNode i).children = (g.getNode i).children) ∧
    (∀ i, (g'.getNode i).row = (g.getNode i).row) ∧
    (∀ i, (g.getNode i).reachable = true → (g'.getNode i).reachable = true) ∧
    (CL g → CL g') ∧
    (row < g.nodes.length → (g'.getNode row).reachable = true) := by
  simp only [HeapGraphWalker.MarkRoot] at h
  by_cases hlt : row < g.nodes.length
  · rw [if_pos hlt] at h
    split at h
    · exact absurd h (by simp)
    · rename_i g1 hrn
      obtain ⟨A1, A2, A3, A4, A5, A6, A7⟩ := reachableNode_spec _ g [row] g1 hrn hinv
        (by
          intro j hj hjl
          rw [List.mem_singleton] at hj
          subst hj
          exact hrow hjl)
      have hclw : CL g → CLW g [row] := by
        intro hcl i hi hr c hc
        exact Or.inl (hcl i hi hr c hc)
      have hrowmark : (g1.getNode row).reachable = true :=
        A7 row (List.mem_singleton.mpr rfl) hlt
      split at h
      · have hp := findSCC_markPres _ _ _ _ h
        obtain ⟨plen, pch, prow, pre, pcnt⟩ := hp
        refine ⟨markInv_of_markPres ⟨plen, pch, prow, pre, pcnt⟩ A1,
          plen.trans A2,
          fun i => (pch i).trans (A3 i),
          fun i => (prow i).trans (A4 i),
          fun i hi => by rw [pre]; exact A5 i hi,
          fun hcl => cl_of_markPres ⟨plen, pch, prow, pre, pcnt⟩ (A6 (hclw hcl)),
          fun _ => by rw [pre]; exact hrowmark⟩
      · simp only [Option.some.injEq] at h
        subst h
        exact ⟨A1, A2, A3, A4, A5, fun hcl => A6 (hclw hcl), fun _ => hrowmark⟩
  · rw [if_neg hlt] at h
    simp only [Option.some.injEq] at h
    subst h
    exact ⟨hinv, rfl, fun _ => rfl, fun _ => rfl, fun _ hi => hi,
      fun hcl => hcl, fun hc => absurd hc hlt⟩

/-- Along any well-formed call sequence the marking invariant holds. -/
theorem runOps_markInv : ∀ (ops : List Op) (reg : List Nat) (g g' : HeapGraphWalker),
    g.runOps ops = some g' →
    wfOps ops reg = true →
    (∀ x ∈ reg, x < g.nodes.length ∧ (g.getNode x).row = (x : Int)) →
    MarkInv g → MarkInv g' := by
  intro ops
  induction ops with
  | nil =>
    intro reg g g' h _ _ hinv
    simp only [HeapGraphWalker.runOps, Option.some.injEq] at h
    subst h
    exact hinv
  | cons op rest ih =>
    intro reg g g' h hwf hreg hinv
    cases op with
    | addNode r s =>
      simp only [HeapGraphWalker.runOps, HeapGraphWalker.step] at h
      refine ih (r :: reg) (g.AddNode r s) g' h hwf ?_ (addNode_markInv g r s hinv)
      intro x hx
      have hlen := addNode_length g r s
      rcases List.mem_cons.mp hx with hxr | hxm
      · subst hxr
        refine ⟨by rw [hlen]; split <;> omega, addNode_self_row g x s⟩
      · obtain ⟨h1, h2⟩ := hreg x hxm
        exact ⟨by rw [hlen]; split <;> omega, addNode_row_canonical g r s x h1 h2⟩
    | addEdge a b =>
      simp only [HeapGraphWalker.runOps, HeapGraphWalker.step] at h
      simp only [wfOps, Bool.and_eq_true] at hwf
      obtain ⟨⟨ha, hb⟩, hwrest⟩ := hwf
      have hamem : a ∈ reg := by simpa using ha
      have hbmem : b ∈ reg := by simpa using hb
      refine ih reg (g.AddEdge a b) g' h hwrest ?_
        (addEdge_markInv g a b hinv (fun _ => (hreg b hbmem).2))
      intro x hx
      obtain ⟨h1, h2⟩ := hreg x hx
      rw [addEdge_length]
      exact ⟨h1, by rw [(addEdge_row_reach g a b x).1]; exact h2⟩
    | markRoot r =>
      simp only [HeapGraphWalker.runOps, HeapGraphWalker.step] at h
      simp only [wfOps, Bool.and_eq_true] at hwf
      obtain ⟨hr, hwrest⟩ := hwf
      have hrmem : r ∈ reg := by simpa using hr
      split at h
      · exact absurd h (by simp)
      · rename_i g1 hmr
        obtain ⟨A1, A2, A3, A4, A5, A6, A7⟩ :=
          markRoot_spec g g1 r hmr hinv (fun _ => (hreg r hrmem).2)
        refine ih reg g1 g' h hwrest ?_ A1
        intro x hx
        obtain ⟨h1, h2⟩ := hreg x hx
        exact ⟨by omega, by rw [A4]; exact h2⟩
    | calcRetained =>
      simp only [HeapGraphWalker.runOps, HeapGraphWalker.step] at h
      split at h
      · exact absurd h (by simp)
      · rename_i g1 hcr
        have hp := calculateRetained_markPres g g1 hcr
        obtain ⟨plen, pch, prow, pre, pcnt⟩ := hp
        refine ih reg g1 g' h hwf ?_ (markInv_of_markPres ⟨plen, pch, prow, pre, pcnt⟩ hinv)
        intro x hx
        obtain ⟨h1, h2⟩ := hreg x hx
        exact ⟨by omega, by rw [prow]; exact h2⟩

/-- Along a well-formed, phased call sequence: closure and the marking
invariant hold at the end, reachability is monotone, and every declared root
ends up reachable. -/
theorem runOps_complete : ∀ (ops : List Op) (reg : List Nat) (g g' : HeapGraphWalker),
    g.runOps ops = some g' →
    wfOps ops reg = true →
    phasedOps ops = true →
    (∀ x ∈ reg, x < g.nodes.length ∧ (g.getNode x).row = (x : Int)) →
    MarkInv g →
    CL g →
    (AllUnreachable g ∨ noAdds ops = true) →
    CL g' ∧ g.nodes.length ≤ g'.nodes.length ∧
    (∀ i, (g.getNode i).reachable = true → (g'.getNode i).reachable = true) ∧
    (∀ r, Op.markRoot r ∈ ops → r < g'.nodes.length ∧ (g'.getNode r).reachable = true) := by
  intro ops
  induction ops with
  | nil =>
    intro reg g g' h _ _ _ _ hcl _
    simp only [HeapGraphWalker.runOps, Option.some.injEq] at h
    subst h
    exact ⟨hcl, le_refl _, fun _ hi => hi, by simp⟩
  | cons op rest ih =>
    intro reg g g' h hwf hph hreg hinv hcl hun
    cases op with
    | addNode r s =>
      simp only [HeapGraphWalker.runOps, HeapGraphWalker.step] at h
      have hunl : AllUnreachable g := by
        rcases hun with hu | hna
        · exact hu
        · exact absurd hna (by simp [noAdds])
      have hreg' : ∀ x ∈ r :: reg, x < (g.AddNode r s).nodes.length ∧
          ((g.AddNode r s).getNode x).row = (x : Int) := by
        intro x hx
        have hlen := addNode_length g r s
        rcases List.mem_cons.mp hx with hxr | hxm
        · subst hxr
          exact ⟨by rw [hlen]; split <;> omega, addNode_self_row g x s⟩
        · obtain ⟨h1, h2⟩ := hreg x hxm
          exact ⟨by rw [hlen]; split <;> omega, addNode_row_canonical g r s x h1 h2⟩
      have hun1 := addNode_allUnreach g r s hunl
      obtain ⟨B1, B2, B3, B4⟩ := ih (r :: reg) (g.AddNode r s) g' h hwf hph hreg'
        (addNode_markInv g r s hinv) (allUnreachable_CL _ hun1) (Or.inl hun1)
      refine ⟨B1, ?_, ?_, ?_⟩
      · have hlen := addNode_length g r s
        calc g.nodes.length ≤ (g.AddNode r s).nodes.length := by rw [hlen]; split <;> omega
          _ ≤ g'.nodes.length := B2
      · intro i hi
        apply B3
        rw [addNode_reachable]
        by_cases hil : i < g.nodes.length
        · rw [if_pos hil]; exact hi
        · rw [getNode_oob g i (by omega)] at hi
          exact absurd hi (by simp [defaultNode])
      · intro r0 hr0
        rcases List.mem_cons.mp hr0 with hx | hx
        · exact absurd hx (by simp)
        · exact B4 r0 hx
    | addEdge a b =>
      simp only [HeapGraphWalker.runOps, HeapGraphWalker.step] at h
      simp only [wfOps, Bool.and_eq_true] at hwf
      obtain ⟨⟨ha, hb⟩, hwrest⟩ := hwf
      have hbmem : b ∈ reg := by simpa using hb
      have hunl : AllUnreachable g := by
        rcases hun with hu | hna
        · exact hu
        · exact absurd hna (by simp [noAdds])
      have hreg' : ∀ x ∈ reg, x < (g.AddEdge a b).nodes.length ∧
          ((g.AddEdge a b).getNode x).row = (x : Int) := by
        intro x hx
        obtain ⟨h1, h2⟩ := hreg x hx
        rw [addEdge_length]
        exact ⟨h1, by rw [(addEdge_row_reach g a b x).1]; exact h2⟩
      have hun1 := addEdge_allUnreach g a b hunl
      obtain ⟨B1, B2, B3, B4⟩ := ih reg (g.AddEdge a b) g' h hwrest hph hreg'
        (addEdge_markInv g a b hinv (fun _ => (hreg b hbmem).2))
        (allUnreachable_CL _ hun1) (Or.inl hun1)
      refine ⟨B1, ?_, ?_, ?_⟩
      · rw [addEdge_length] at B2
        exact B2
      · intro i hi
        apply B3
        rw [(addEdge_row_reach g a b i).2]
        exact hi
      · intro r0 hr0
        rcases List.mem_cons.mp hr0 with hx | hx
        · exact absurd hx (by simp)
        · exact B4 r0 hx
    | markRoot r =>
      simp only [HeapGraphWalker.runOps, HeapGraphWalker.step] at h
      simp only [wfOps, Bool.and_eq_true] at hwf
      obtain ⟨hr, hwrest⟩ := hwf
      have hrmem : r ∈ reg := by simpa using hr
      have hna : noAdds rest = true := hph
      split at h
      · exact absurd h (by simp)
      · rename_i g1 hmr
        obtain ⟨A1, A2, A3, A4, A5, A6, A7⟩ :=
          markRoot_spec g g1 r hmr hinv (fun _ => (hreg r hrmem).2)
        have hreg' : ∀ x ∈ reg, x < g1.nodes.length ∧ (g1.getNode x).row = (x : Int) := by
          intro x hx
          obtain ⟨h1, h2⟩ := hreg x hx
          exact ⟨by omega, by rw [A4]; exact h2⟩
        obtain ⟨B1, B2, B3, B4⟩ := ih reg g1 g' h hwrest (phasedOps_of_noAdds rest hna)
          hreg' A1 (A6 hcl) (Or.inr hna)
        refine ⟨B1, by omega, fun i hi => B3 i (A5 i hi), ?_⟩
        intro r0 hr0
        rcases List.mem_cons.mp hr0 with hx | hx
        · have hrr : r0 = r := by injection hx
          subst hrr
          have hr0lt := (hreg r0 hrmem).1
          exact ⟨by omega, B3 r0 (A7 hr0lt)⟩
        · exact B4 r0 hx
    | calcRetained =>
      simp only [HeapGraphWalker.runOps, HeapGraphWalker.step] at h
      split at h
      · exact absurd h (by simp)
      · rename_i g1 hcr
        have hp := calculateRetained_markPres g g1 hcr
        obtain ⟨plen, pch, prow, pre, pcnt⟩ := hp
        have hreg' : ∀ x ∈ reg, x < g1.nodes.length ∧ (g1.getNode x).row = (x : Int) := by
          intro x hx
          obtain ⟨h1, h2⟩ := hreg x hx
          exact ⟨by omega, by rw [prow]; exact h2⟩
        have hun1 : AllUnreachable g ∨ noAdds rest = true := by
          rcases hun with hu | hna
          · exact Or.inl hu
          · exact Or.inr hna
        have hun2 : AllUnreachable g1 ∨ noAdds rest = true := by
          rcases hun1 with hu | hna
          · exact Or.inl (fun i => by rw [pre]; exact hu i)
          · exact Or.inr hna
        obtain ⟨B1, B2, B3, B4⟩ := ih reg g1 g' h hwf hph hreg'
          (markInv_of_markPres ⟨plen, pch, prow, pre, pcnt⟩ hinv)
          (cl_of_markPres ⟨plen, pch, prow, pre, pcnt⟩ hcl) hun2
        refine ⟨B1, by omega, fun i hi => B3 i (by rw [pre]; exact hi), ?_⟩
        intro r0 hr0
        rcases List.mem_cons.mp hr0 with hx | hx
        · exact absurd hx (by simp)
        · exact B4 r0 hx

/-- Edges added after a root was marked: node 1 is a child of the declared
root 0 in the final graph but never receives `MarkReachable`. -/
def c8cexA : List Op := [Op.addNode 0 0, Op.addNode 1 0, Op.markRoot 0, Op.addEdge 0 1]

/-- An edge to a resize-created, never-registered row: the gap node at index
2 carries the default row field 0, so marking the root emits
`MarkReachable(0)` twice. -/
def c8cexB : List Op := [Op.addNode 0 5, Op.addNode 3 5, Op.addEdge 0 2, Op.markRoot 0]

/-- C8 (counterexample): the claim fails on unrestricted call sequences.
In `c8cexA` the declared root 0 was marked (one `MarkReachable(0)`) and node
1 is a child of it in the final graph — so node 1 is reachable from a
declared root — yet `MarkReachable(1)` is never invoked (count 0, not
exactly 1): reachability is only propagated at `MarkRoot` time, never when a
later `AddEdge` extends the graph.  In `c8cexB` (an edge to a never
registered row, outside the spec's `AddEdge` contract) `MarkReachable(0)` is
invoked twice for the row value 0, refuting "at most once per row" for
arbitrary sequences. -/
theorem c8_mark_reachable_counterexample :
    ((run c8cexA).map (fun g =>
      (markCount g 0, (g.getNode 0).children.contains 1, markCount g 1)) =
      some (1, true, 0)) ∧
    ((run c8cexB).map (fun g => markCount g 0) = some 2) ∧
    (0 : Nat) ≠ 1 :=
  ⟨by decide, by decide, by decide⟩

/-- C8 (amended): for every call sequence in which `AddEdge` and `MarkRoot`
only reference previously registered rows, the delegate's `MarkReachable` is
invoked at most once per row; if additionally no `AddNode`/`AddEdge` follows
the first `MarkRoot` (the documented populate-then-mark control flow), every
node reachable from some declared root receives exactly one `MarkReachable`
call. -/
theorem c8_mark_reachable_amended (ops : List Op) (g' : HeapGraphWalker)
    (hrun : run ops = some g') (hwf : wfOps ops [] = true) :
    (∀ r : Int, markCount g' r ≤ 1) ∧
    (phasedOps ops = true →
      ∀ (r u : Nat), Op.markRoot r ∈ ops → Reaches g' r u →
        markCount g' (u : Int) = 1) := by
  have hinv0 : MarkInv initWalker := by
    refine ⟨?_, ?_, ?_, ?_⟩
    · intro i c hc
      simp [initWalker, HeapGraphWalker.getNode, defaultNode] at hc
    · intro i hi
      simp [initWalker] at hi
    · intro i hi
      simp [initWalker] at hi
    · intro r _
      simp [initWalker, markCount]
  have hreg0 : ∀ x ∈ ([] : List Nat),
      x < initWalker.nodes.length ∧ (initWalker.getNode x).row = (x : Int) := by
    simp
  have hinv' : MarkInv g' := runOps_markInv ops [] initWalker g' hrun hwf hreg0 hinv0
  constructor
  · intro r
    by_cases hr : 0 ≤ r ∧ r < (g'.nodes.length : Int)
    · have hrt : r = ((r.toNat : Nat) : Int) := by omega
      rw [hrt, hinv'.count_in r.toNat (by omega)]
      split <;> omega
    · have := hinv'.count_out r (by omega)
      omega
  · intro hph r u hmem hru
    have hun0 : AllUnreachable initWalker := by
      intro i
      simp [initWalker, HeapGraphWalker.getNode, defaultNode]
    obtain ⟨B1, B2, B3, B4⟩ := runOps_complete ops [] initWalker g' hrun hwf hph
      hreg0 hinv0 (allUnreachable_CL _ hun0) (Or.inl hun0)
    obtain ⟨hrlen, hrreach⟩ := B4 r hmem
    have haux : ∀ w, Reaches g' r w →
        (g'.getNode w).reachable = true ∧ w < g'.nodes.length := by
      intro w hw
      induction hw with
      | refl => exact ⟨hrreach, hrlen⟩
      | step hp hc ihp =>
        obtain ⟨hvr, hvlen⟩ := ihp
        exact ⟨B1 _ hvlen hvr _ hc, (hinv'.children_ok _ _ hc).1⟩
    obtain ⟨hur, hulen⟩ := haux u hru
    rw [hinv'.count_in u hulen, if_pos hur]

theorem c8_mark_reachable_amended_witness :
    (run chainOps = some ((run chainOps).getD initWalker)) ∧
    (wfOps chainOps [] = true) ∧
    ((∀ r : Int, markCount ((run chainOps).getD initWalker) r ≤ 1) ∧
      (phasedOps chainOps = true →
        ∀ (r u : Nat), Op.markRoot r ∈ chainOps →
          Reaches ((run chainOps).getD initWalker) r u →
          markCount ((run chainOps).getD initWalker) (u : Int) = 1)) :=
  ⟨by decide, by decide,
   c8_mark_reachable_amended chainOps _ (by decide) (by decide)⟩

/-! ## C3: component assignment discipline

Infrastructure: `NodesPres g g'` says a step left the node table, the
discovery stack and the index counter untouched (it only changed components
or events). -/

def NodesPres (g g' : HeapGraphWalker) : Prop :=
  g'.nodes = g.nodes ∧ g'.node_stack = g.node_stack ∧
  g'.next_node_index = g.next_node_index

theorem nodesPres_refl (g : HeapGraphWalker) : NodesPres g g := ⟨rfl, rfl, rfl⟩

theorem nodesPres_trans {a b c : HeapGraphWalker} (h1 : NodesPres a b)
    (h2 : NodesPres b c) : NodesPres a c :=
  ⟨h2.1.trans h1.1, h2.2.1.trans h1.2.1, h2.2.2.trans h1.2.2⟩

theorem parentLoop_nodesPres : ∀ (ps : List Nat) (g : HeapGraphWalker) (cid : Int),
    NodesPres g (g.parentLoop cid ps) := by
  intro ps
  induction ps with
  | nil => intro g cid; exact nodesPres_refl g
  | cons p rest ih =>
    intro g cid
    simp only [HeapGraphWalker.parentLoop]
    split
    · exact nodesPres_trans (⟨rfl, rfl, rfl⟩ : NodesPres _ _) (ih _ _)
    · exact ih _ _

theorem incomingLoop_nodesPres : ∀ (es : List Nat) (g : HeapGraphWalker) (cid : Int),
    NodesPres g (g.incomingLoop cid es) := by
  intro es
  induction es with
  | nil => intro g cid; exact nodesPres_refl g
  | cons e rest ih =>
    intro g cid
    simp only [HeapGraphWalker.incomingLoop]
    refine nodesPres_trans ?_ (ih _ _)
    have hp := parentLoop_nodesPres ((g.getNode e).parents)
      (g.modifyComp cid (fun c =>
        { c with unique_retained_size :=
            (c.unique_retained_size + (g.getNode e).self_size) % U64 })) cid
    exact ⟨hp.1, hp.2.1, hp.2.2⟩

theorem grandLoop_nodesPres : ∀ (entries : List (Int × Fraction)) (g : HeapGraphWalker)
    (cid child_id : Int) (count : Nat) (last : Int)
    (ctn : List (Int × Int)) (urbn : List (Int × Nat))
    (g' : HeapGraphWalker) (ctn' : List (Int × Int)) (urbn' : List (Int × Nat)),
    g.grandLoop cid child_id count last entries ctn urbn = some (g', ctn', urbn') →
    NodesPres g g' := by
  intro entries
  induction entries with
  | nil =>
    intro g cid child_id count last ctn urbn g' ctn' urbn' h
    simp only [HeapGraphWalker.grandLoop, Option.some.injEq, Prod.mk.injEq] at h
    obtain ⟨hg, -, -⟩ := h
    subst hg
    exact nodesPres_refl g
  | cons p rest ih =>
    intro g cid child_id count last ctn urbn g' ctn' urbn' h
    obtain ⟨grand_id, frac⟩ := p
    simp only [HeapGraphWalker.grandLoop] at h
    split at h
    · exact absurd h (by simp)
    · split at h
      · exact absurd h (by simp)
      · split at h
        · exact absurd h (by simp)
        · split at h
          all_goals
            have hrec := ih _ _ _ _ _ _ _ _ _ _ h
          all_goals
            exact ⟨hrec.1, hrec.2.1, hrec.2.2⟩

theorem childrenLoop_nodesPres : ∀ (entries : List (Int × DirectChild))
    (g : HeapGraphWalker) (cid : Int)
    (ctn : List (Int × Int)) (urbn : List (Int × Nat))
    (g' : HeapGraphWalker) (ctn' : List (Int × Int)) (urbn' : List (Int × Nat)),
    g.childrenLoop cid entries ctn urbn = some (g', ctn', urbn') → NodesPres g g' := by
  intro entries
  induction entries with
  | nil =>
    intro g cid ctn urbn g' ctn' urbn' h
    simp only [HeapGraphWalker.childrenLoop, Option.some.injEq, Prod.mk.injEq] at h
    obtain ⟨hg, -, -⟩ := h
    subst hg
    exact nodesPres_refl g
  | cons p rest ih =>
    intro g cid ctn urbn g' ctn' urbn' h
    obtain ⟨child_id, dcv⟩ := p
    simp only [HeapGraphWalker.childrenLoop] at h
    split at h
    · exact absurd h (by simp)
    · split at h
      · exact absurd h (by simp)
      · rename_i g2 ctn2 urbn2 hgl
        have pg2 := grandLoop_nodesPres _ _ _ _ _ _ _ _ _ _ _ hgl
        split at h
        · split at h
          · exact absurd h (by simp)
          · split at h
            all_goals
              have hrec := ih _ _ _ _ _ _ _ h
            all_goals
              exact ⟨(hrec.1.trans pg2.1), (hrec.2.1.trans pg2.2.1),
                (hrec.2.2.trans pg2.2.2)⟩
        · split at h
          · exact absurd h (by simp)
          · split at h
            · exact absurd h (by simp)
            · split at h
              all_goals try split at h
              all_goals try split at h
              all_goals try split at h
              all_goals
                have hrec := ih _ _ _ _ _ _ _ h
              all_goals
                exact ⟨(hrec.1.trans pg2.1), (hrec.2.1.trans pg2.2.1),
                  (hrec.2.2.trans pg2.2.2)⟩

theorem emitLoop_nodesPres : ∀ (ns : List Nat) (g : HeapGraphWalker) (retained : Int)
    (urbn : List (Int × Nat)), NodesPres g (g.emitLoop retained urbn ns) := by
  intro ns
  induction ns with
  | nil => intro g retained urbn; exact nodesPres_refl g
  | cons e rest ih =>
    intro g retained urbn
    simp only [HeapGraphWalker.emitLoop]
    refine nodesPres_trans ?_ (ih _ _ _)
    exact ⟨rfl, rfl, rfl⟩

/-- The pop loop pops exactly the stack segment down to and including `v`,
assigns `cid` to each popped node (touching nothing else about the node
table), and leaves everything else unchanged. -/
theorem popLoop_spec : ∀ (st : List Nat) (g : HeapGraphWalker) (cid : Int) (v : Nat)
    (acc : List Nat) (dc : List (Int × DirectChild)) (g' : HeapGraphWalker)
    (ns : List Nat) (dc' : List (Int × DirectChild)) (w0 rest : List Nat),
    g.popLoop cid v st acc dc = some (g', ns, dc') →
    st = w0 ++ v :: rest →
    v ∉ w0 →
    (∀ i ∈ st, i < g.nodes.length) →
    g'.node_stack = rest ∧
    g'.nodes.length = g.nodes.length ∧
    g'.next_node_index = g.next_node_index ∧
    g'.components = g.components ∧
    g'.events = g.events ∧
    (∀ i, (i ∈ w0 ∨ i = v) →
      (g'.getNode i).component = cid ∧ (g'.getNode i).on_stack = false ∧
      (g'.getNode i).node_index = (g.getNode i).node_index ∧
      (g'.getNode i).lowlink = (g.getNode i).lowlink ∧
      (g'.getNode i).children = (g.getNode i).children ∧
      (g'.getNode i).parents = (g.getNode i).parents) ∧
    (∀ i, ¬(i ∈ w0 ∨ i = v) → g'.getNode i = g.getNode i) := by
  intro st
  induction st with
  | nil =>
    intro g cid v acc dc g' ns dc' w0 rest h hsp hvw hlen
    exact absurd hsp (by simp)
  | cons e st' ih =>
    intro g cid v acc dc g' ns dc' w0 rest h hsp hvw hlen
    have helen : e < g.nodes.length := hlen e (List.mem_cons_self _ _)
    have hSget : ∀ j, ((({ g with node_stack := st' } : HeapGraphWalker).modifyNode e
        (fun n => { n with on_stack := false })).modifyNode e
        (fun n => { n with component := cid })).getNode j =
        if j = e then { g.getNode e with on_stack := false, component := cid }
        else g.getNode j := by
      intro j
      by_cases hje : j = e
      · subst hje
        rw [if_pos rfl]
        rw [getNode_modifyNode,
          if_pos ⟨rfl, by simp [HeapGraphWalker.modifyNode]; exact helen⟩]
        rw [getNode_modifyNode, if_pos ⟨rfl, by exact helen⟩]
        rfl
      · rw [if_neg hje]
        rw [getNode_modifyNode, if_neg (by intro hc; exact hje hc.1.symm)]
        rw [getNode_modifyNode, if_neg (by intro hc; exact hje hc.1.symm)]
        rfl
    simp only [HeapGraphWalker.popLoop] at h
    split at h
    · exact absurd h (by simp)
    · rename_i dc2 hsc
      split at h
      · rename_i hcomp
        split at h
        · rename_i hev
          subst hev
          simp only [Option.some.injEq, Prod.mk.injEq] at h
          obtain ⟨hg, -, -⟩ := h
          subst hg
          have hw0 : w0 = [] ∧ st' = rest := by
            cases w0 with
            | nil =>
              simp only [List.nil_append, List.cons.injEq] at hsp
              exact ⟨rfl, hsp.2⟩
            | cons x w1 =>
              simp only [List.cons_append, List.cons.injEq] at hsp
              exact absurd (hsp.1 ▸ List.mem_cons_self x w1) hvw
          obtain ⟨hw0nil, hst⟩ := hw0
          subst hw0nil
          subst hst
          refine ⟨rfl, by simp [HeapGraphWalker.modifyNode], rfl, rfl, rfl, ?_, ?_⟩
          · intro i hi
            have hie : i = e := by
              rcases hi with hi | hi
              · simp at hi
              · exact hi
            subst hie
            rw [hSget, if_pos rfl]
            exact ⟨rfl, rfl, rfl, rfl, rfl, rfl⟩
          · intro i hi
            have hie : i ≠ e := fun hc => hi (Or.inr hc)
            rw [hSget, if_neg hie]
        · rename_i hev
          have hw0 : ∃ w1, w0 = e :: w1 ∧ st' = w1 ++ v :: rest := by
            cases w0 with
            | nil =>
              simp only [List.nil_append, List.cons.injEq] at hsp
              exact absurd hsp.1 hev
            | cons x w1 =>
              simp only [List.cons_append, List.cons.injEq] at hsp
              exact ⟨w1, by rw [hsp.1], hsp.2⟩
          obtain ⟨w1, hw0e, hst⟩ := hw0
          have hvw1 : v ∉ w1 := by
            intro hc
            exact hvw (hw0e ▸ List.mem_cons_of_mem e hc)
          have hlen' : ∀ i ∈ st',
              i < ((({ g with node_stack := st' } : HeapGraphWalker).modifyNode e
                (fun n => { n with on_stack := false })).modifyNode e
                (fun n => { n with component := cid })).nodes.length := by
            intro i hi
            simpa [HeapGraphWalker.modifyNode] using hlen i (List.mem_cons_of_mem e hi)
          obtain ⟨B1, B2, B3, B4, B5, B6, B7⟩ :=
            ih _ cid v (e :: acc) dc2 g' ns dc' w1 rest h hst hvw1 hlen'
          refine ⟨B1, by simpa [HeapGraphWalker.modifyNode] using B2, B3, B4, B5, ?_, ?_⟩
          · intro i hi
            by_cases hiw1 : i ∈ w1 ∨ i = v
            · obtain ⟨C1, C2, C3, C4, C5, C6⟩ := B6 i hiw1
              rw [hSget] at C3 C4 C5 C6
              by_cases hie : i = e
              · subst hie
                rw [if_pos rfl] at C3 C4 C5 C6
                exact ⟨C1, C2, C3, C4, C5, C6⟩
              · rw [if_neg hie] at C3 C4 C5 C6
                exact ⟨C1, C2, C3, C4, C5, C6⟩
            · have hie : i = e := by
                rcases hi with hi | hi
                · rw [hw0e] at hi
                  rcases List.mem_cons.mp hi with h1 | h1
                  · exact h1
                  · exact absurd (Or.inl h1) hiw1
                · exact absurd (Or.inr hi) hiw1
              subst hie
              have hB7 := B7 i hiw1
              rw [hSget, if_pos rfl] at hB7
              rw [hB7]
              exact ⟨rfl, rfl, rfl, rfl, rfl, rfl⟩
          · intro i hi
            have hie : i ≠ e := by
              intro hc
              refine hi (Or.inl ?_)
              rw [hw0e, hc]
              exact List.mem_cons_self e w1
            have hiw1 : ¬(i ∈ w1 ∨ i = v) := by
              intro hc
              rcases hc with hc | hc
              · exact hi (Or.inl (hw0e ▸ List.mem_cons_of_mem e hc))
              · exact hi (Or.inr hc)
            have hB7 := B7 i hiw1
            rw [hSget, if_neg hie] at hB7
            exact hB7
      · exact absurd h (by simp)

/-- Well-formedness of the walker state during the low-link search. -/
structure SearchInv (g : HeapGraphWalker) : Prop where
  stack_flag : ∀ i, (g.getNode i).on_stack = true ↔ i ∈ g.node_stack
  visited_state : ∀ i, (g.getNode i).node_index ≠ 0 →
    (g.getNode i).on_stack = true ∨ (g.getNode i).component ≠ -1
  stack_visited : ∀ i ∈ g.node_stack, (g.getNode i).node_index ≠ 0
  stack_nodup : g.node_stack.Nodup
  stack_bound : ∀ i ∈ g.node_stack, (g.getNode i).node_index < g.next_node_index
  next_pos : 0 < g.next_node_index
  children_bound : ∀ i, ∀ c ∈ (g.getNode i).children, c < g.nodes.length
  stack_mem_lt : ∀ i ∈ g.node_stack, i < g.nodes.length
  stack_unassigned : ∀ i ∈ g.node_stack, (g.getNode i).component = -1
  unvisited_unassigned : ∀ i, (g.getNode i).node_index = 0 →
    (g.getNode i).component = -1
  low_le_idx : ∀ i, (g.getNode i).node_index ≠ 0 →
    (g.getNode i).lowlink ≤ (g.getNode i).node_index
  stack_desc : g.node_stack.Pairwise
    (fun a b => (g.getNode b).node_index < (g.getNode a).node_index)

/-- `FoundSCC` pops the stack segment down to `v`, assigns all popped nodes
the fresh component id, preserves the search invariant and everything else
about the node table. -/
theorem foundSCC_spec (g : HeapGraphWalker) (v : Nat) (g' : HeapGraphWalker)
    (h : g.FoundSCC v = some g')
    (hW : SearchInv g)
    (w0 rest : List Nat) (hstk : g.node_stack = w0 ++ v :: rest) (hvw : v ∉ w0) :
    SearchInv g' ∧
    g'.node_stack = rest ∧
    g'.nodes.length = g.nodes.length ∧
    g'.next_node_index = g.next_node_index ∧
    (∀ i, (g.getNode i).component ≠ -1 →
      (g'.getNode i).component = (g.getNode i).component) ∧
    (∀ i, (g'.getNode i).node_index = (g.getNode i).node_index) ∧
    (∀ i, (g'.getNode i).lowlink = (g.getNode i).lowlink) ∧
    (∀ i, (g'.getNode i).children = (g.getNode i).children) ∧
    (g'.getNode v).component ≠ -1 := by
  simp only [HeapGraphWalker.FoundSCC] at h
  split at h
  · exact absurd h (by simp)
  · rename_i g2 ns dc hpop
    split at h
    · exact absurd h (by simp)
    · rename_i g3 ctn urbn hcl
      simp only [Option.some.injEq] at h
      obtain ⟨P1, P2, P3, P4, P5, P6, P7⟩ :=
        popLoop_spec _ _ _ _ _ _ _ _ _ w0 rest hpop hstk hvw
          (by intro i hi; exact hW.stack_mem_lt i hi)
      have hn2 := childrenLoop_nodesPres _ _ _ _ _ _ _ _ hcl
      have hn1 : NodesPres g2 (g2.incomingLoop ((g.components.length : Int)) ns) :=
        incomingLoop_nodesPres ns g2 _
      have hn3 : NodesPres g3 (g3.emitLoop
          (g3.RetainedSize (g3.getComp ((g.components.length : Int)))) urbn ns) :=
        emitLoop_nodesPres ns g3 _ urbn
      have hnp : NodesPres g2 g' :=
        nodesPres_trans hn1 (nodesPres_trans hn2 (h ▸ hn3))
      have hget : ∀ i, g'.getNode i = g2.getNode i := by
        intro i
        simp [HeapGraphWalker.getNode, hnp.1]
      have hstk' : g'.node_stack = rest := by rw [hnp.2.1, P1]
      have hnext' : g'.next_node_index = g.next_node_index := by rw [hnp.2.2, P3]
      have hlen' : g'.nodes.length = g.nodes.length := by rw [hnp.1, P2]
      have hcid : ((g.components.length : Int)) ≠ -1 := by omega
      have hnodup := hW.stack_nodup
      rw [hstk] at hnodup
      have hvrest : v ∉ rest := by
        have := List.Nodup.of_append_right hnodup
        exact (List.nodup_cons.mp this).1
      have hw0rest : ∀ i ∈ w0, i ∉ rest := by
        intro i hi hir
        have hd := List.disjoint_of_nodup_append hnodup
        exact hd hi (List.mem_cons_of_mem v hir)
      have hpopped : ∀ i, (i ∈ w0 ∨ i = v) →
          (g'.getNode i).component = (g.components.length : Int) ∧
          (g'.getNode i).on_stack = false ∧
          (g'.getNode i).node_index = (g.getNode i).node_index ∧
          (g'.getNode i).lowlink = (g.getNode i).lowlink ∧
          (g'.getNode i).children = (g.getNode i).children ∧
          (g'.getNode i).parents = (g.getNode i).parents := by
        intro i hi
        rw [hget]
        exact P6 i hi
      have huntouched : ∀ i, ¬(i ∈ w0 ∨ i = v) → g'.getNode i = g.getNode i := by
        intro i hi
        rw [hget]
        exact P7 i hi
      have hmemstk : ∀ i, i ∈ g.node_stack ↔ (i ∈ w0 ∨ i = v) ∨ i ∈ rest := by
        intro i
        rw [hstk]
        simp [List.mem_append, List.mem_cons]
        tauto
      have hpopnotrest : ∀ i, (i ∈ w0 ∨ i = v) → i ∉ rest := by
        intro i hi
        rcases hi with hi | hi
        · exact hw0rest i hi
        · subst hi; exact hvrest
      have hidxall : ∀ i, (g'.getNode i).node_index = (g.getNode i).node_index := by
        intro i
        by_cases hp : i ∈ w0 ∨ i = v
        · exact (hpopped i hp).2.2.1
        · rw [huntouched i hp]
      have hlowall : ∀ i, (g'.getNode i).lowlink = (g.getNode i).lowlink := by
        intro i
        by_cases hp : i ∈ w0 ∨ i = v
        · exact (hpopped i hp).2.2.2.1
        · rw [huntouched i hp]
      refine ⟨?_, hstk', hlen', hnext', ?_, ?_, ?_, ?_, ?_⟩
      · refine ⟨?_, ?_, ?_, ?_, ?_, ?_, ?_, ?_, ?_, ?_, ?_, ?_⟩
        · intro i
          rw [hstk']
          by_cases hi : i ∈ w0 ∨ i = v
          · rw [(hpopped i hi).2.1]
            simp [hpopnotrest i hi]
          · rw [huntouched i hi, hW.stack_flag i, hmemstk i]
            constructor
            · intro hc
              rcases hc with hc | hc
              · exact absurd hc hi
              · exact hc
            · intro hc
              exact Or.inr hc
        · intro i hidx
          by_cases hi : i ∈ w0 ∨ i = v
          · refine Or.inr ?_
            rw [(hpopped i hi).1]
            exact hcid
          · rw [huntouched i hi] at hidx ⊢
            exact hW.visited_state i hidx
        · intro i hi
          rw [hstk'] at hi
          have himem : i ∈ g.node_stack := (hmemstk i).mpr (Or.inr hi)
          by_cases hp : i ∈ w0 ∨ i = v
          · rw [(hpopped i hp).2.2.1]
            exact hW.stack_visited i himem
          · rw [huntouched i hp]
            exact hW.stack_visited i himem
        · rw [hstk']
          exact (List.nodup_cons.mp (List.Nodup.of_append_right hnodup)).2
        · intro i hi
          rw [hstk'] at hi
          have himem : i ∈ g.node_stack := (hmemstk i).mpr (Or.inr hi)
          rw [hnext']
          by_cases hp : i ∈ w0 ∨ i = v
          · rw [(hpopped i hp).2.2.1]
            exact hW.stack_bound i himem
          · rw [huntouched i hp]
            exact hW.stack_bound i himem
        · rw [hnext']
          exact hW.next_pos
        · intro i c hc
          rw [hlen']
          by_cases hp : i ∈ w0 ∨ i = v
          · rw [(hpopped i hp).2.2.2.2.1] at hc
            exact hW.children_bound i c hc
          · rw [huntouched i hp] at hc
            exact hW.children_bound i c hc
        · intro i hi
          rw [hstk'] at hi
          rw [hlen']
          exact hW.stack_mem_lt i ((hmemstk i).mpr (Or.inr hi))
        · intro i hi
          rw [hstk'] at hi
          by_cases hp : i ∈ w0 ∨ i = v
          · exact absurd hi (hpopnotrest i hp)
          · rw [huntouched i hp]
            exact hW.stack_unassigned i ((hmemstk i).mpr (Or.inr hi))
        · intro i hidx
          by_cases hp : i ∈ w0 ∨ i = v
          · exfalso
            have himem : i ∈ g.node_stack := (hmemstk i).mpr (Or.inl hp)
            have := hW.stack_visited i himem
            rw [← (hpopped i hp).2.2.1] at this
            exact this hidx
          · rw [huntouched i hp] at hidx ⊢
            exact hW.unvisited_unassigned i hidx
        · intro i hidx
          rw [hidxall i] at hidx
          rw [hidxall i, hlowall i]
          exact hW.low_le_idx i hidx
        · rw [hstk']
          have hsub : rest.Pairwise (fun a b =>
              (g.getNode b).node_index < (g.getNode a).node_index) := by
            have hd := hW.stack_desc
            rw [hstk] at hd
            exact (List.pairwise_cons.mp (List.pairwise_append.mp hd).2.1).2
          refine List.Pairwise.imp ?_ hsub
          intro a b hab
          rw [hidxall a, hidxall b]
          exact hab
      · intro i hcomp
        by_cases hp : i ∈ w0 ∨ i = v
        · exact absurd (hW.stack_unassigned i ((hmemstk i).mpr (Or.inl hp))) hcomp
        · rw [huntouched i hp]
      · intro i
        by_cases hp : i ∈ w0 ∨ i = v
        · exact (hpopped i hp).2.2.1
        · rw [huntouched i hp]
      · intro i
        by_cases hp : i ∈ w0 ∨ i = v
        · exact (hpopped i hp).2.2.2.1
        · rw [huntouched i hp]
      · intro i
        by_cases hp : i ∈ w0 ∨ i = v
        · exact (hpopped i hp).2.2.2.2.1
        · rw [huntouched i hp]
      · rw [(hpopped v (Or.inr rfl)).1]
        exact hcid

/-- Common conclusion bundle for one search step from `g` to `g'` with stack
lower bound `B` on discovery indexes. -/
structure SccStep (g g' : HeapGraphWalker) (B : Nat) : Prop where
  inv : SearchInv g'
  next_mono : g.next_node_index ≤ g'.next_node_index
  len : g'.nodes.length = g.nodes.length
  idx_pres : ∀ i, (g.getNode i).node_index ≠ 0 →
    (g'.getNode i).node_index = (g.getNode i).node_index
  comp_pres : ∀ i, (g.getNode i).component ≠ -1 →
    (g'.getNode i).component = (g.getNode i).component
  children_pres : ∀ i, (g'.getNode i).children = (g.getNode i).children
  stack_B : ∀ i ∈ g'.node_stack, B ≤ (g'.getNode i).node_index
  new_idx_ge : ∀ i, (g.getNode i).node_index = 0 → (g'.getNode i).node_index ≠ 0 →
    g.next_node_index ≤ (g'.getNode i).node_index

/-- The full specification of (a fuel instance of) the low-link search. -/
def FindSpec (find : HeapGraphWalker → Nat → Option HeapGraphWalker) : Prop :=
  ∀ (g : HeapGraphWalker) (v : Nat) (g' : HeapGraphWalker) (B : Nat),
    find g v = some g' →
    SearchInv g →
    v < g.nodes.length →
    (g.getNode v).node_index = 0 →
    B ≤ g.next_node_index →
    (∀ i ∈ g.node_stack, B ≤ (g.getNode i).node_index) →
    SccStep g g' B ∧
    g.next_node_index < g'.next_node_index ∧
    (∀ i, (g.getNode i).node_index ≠ 0 →
      (g'.getNode i).lowlink = (g.getNode i).lowlink) ∧
    (g'.getNode v).node_index = g.next_node_index ∧
    B ≤ (g'.getNode v).lowlink ∧
    ((g'.node_stack = g.node_stack ∧ (g'.getNode v).component ≠ -1) ∨
      (∃ w, g'.node_stack = w ++ v :: g.node_stack ∧
        (g'.getNode v).lowlink < (g'.getNode v).node_index)) ∧
    (∀ t, t ∈ g'.node_stack → t ∉ g.node_stack →
      (g'.getNode v).lowlink ≤ (g'.getNode t).lowlink ∧
      (∀ c ∈ (g'.getNode t).children, c ∈ g'.node_stack →
        (g'.getNode v).lowlink ≤ (g'.getNode c).node_index))

theorem searchInv_set_lowlink (g : HeapGraphWalker) (v : Nat) (l : Nat)
    (hl : (g.getNode v).node_index ≠ 0 → l ≤ (g.getNode v).node_index)
    (hW : SearchInv g) :
    SearchInv (g.modifyNode v (fun n => { n with lowlink := l })) := by
  have hget : ∀ j, ((g.modifyNode v (fun n => { n with lowlink := l })).getNode j).children
        = (g.getNode j).children ∧
      ((g.modifyNode v (fun n => { n with lowlink := l })).getNode j).node_index
        = (g.getNode j).node_index ∧
      ((g.modifyNode v (fun n => { n with lowlink := l })).getNode j).component
        = (g.getNode j).component ∧
      ((g.modifyNode v (fun n => { n with lowlink := l })).getNode j).on_stack
        = (g.getNode j).on_stack := by
    intro j
    rw [getNode_modifyNode]
    split
    · rename_i hc
      obtain ⟨hvj, -⟩ := hc
      subst hvj
      exact ⟨rfl, rfl, rfl, rfl⟩
    · exact ⟨rfl, rfl, rfl, rfl⟩
  have hlen : (g.modifyNode v (fun n => { n with lowlink := l })).nodes.length
      = g.nodes.length := by
    simp [HeapGraphWalker.modifyNode]
  refine ⟨?_, ?_, ?_, ?_, ?_, ?_, ?_, ?_, ?_, ?_, ?_, ?_⟩
  · intro i
    rw [(hget i).2.2.2]
    exact hW.stack_flag i
  · intro i hidx
    rw [(hget i).2.1] at hidx
    rw [(hget i).2.2.2, (hget i).2.2.1]
    exact hW.visited_state i hidx
  · intro i hi
    rw [(hget i).2.1]
    exact hW.stack_visited i hi
  · exact hW.stack_nodup
  · intro i hi
    rw [(hget i).2.1]
    exact hW.stack_bound i hi
  · exact hW.next_pos
  · intro i c hc
    rw [(hget i).1] at hc
    rw [hlen]
    exact hW.children_bound i c hc
  · intro i hi
    rw [hlen]
    exact hW.stack_mem_lt i hi
  · intro i hi
    rw [(hget i).2.2.1]
    exact hW.stack_unassigned i hi
  · intro i hidx
    rw [(hget i).2.1] at hidx
    rw [(hget i).2.2.1]
    exact hW.unvisited_unassigned i hidx
  · intro i hidx
    rw [(hget i).2.1] at hidx
    rw [(hget i).2.1]
    by_cases hiv : i = v
    · subst hiv
      by_cases hvlen : i < g.nodes.length
      · rw [getNode_modifyNode, if_pos ⟨rfl, hvlen⟩]
        exact hl hidx
      · rw [getNode_modifyNode, if_neg (by intro hc; exact hvlen hc.2)]
        exact hW.low_le_idx i hidx
    · rw [getNode_modifyNode, if_neg (by intro hc; exact hiv hc.1.symm)]
      exact hW.low_le_idx i hidx
  · refine List.Pairwise.imp ?_ hW.stack_desc
    intro a b hab
    rw [(hget a).2.1, (hget b).2.1]
    exact hab

theorem getNode_set_lowlink (g : HeapGraphWalker) (v : Nat) (l : Nat) (j : Nat) :
    ((g.modifyNode v (fun n => { n with lowlink := l })).getNode j).children
        = (g.getNode j).children ∧
    ((g.modifyNode v (fun n => { n with lowlink := l })).getNode j).node_index
        = (g.getNode j).node_index ∧
    ((g.modifyNode v (fun n => { n with lowlink := l })).getNode j).component
        = (g.getNode j).component ∧
    ((g.modifyNode v (fun n => { n with lowlink := l })).getNode j).on_stack
        = (g.getNode j).on_stack ∧
    (j ≠ v → ((g.modifyNode v (fun n => { n with lowlink := l })).getNode j).lowlink
        = (g.getNode j).lowlink) ∧
    (v < g.nodes.length → ((g.modifyNode v (fun n =>
        { n with lowlink := l })).getNode v).lowlink = l) := by
  constructor
  · rw [getNode_modifyNode]; split
    · rename_i hc; obtain ⟨hvj, -⟩ := hc; subst hvj; rfl
    · rfl
  constructor
  · rw [getNode_modifyNode]; split
    · rename_i hc; obtain ⟨hvj, -⟩ := hc; subst hvj; rfl
    · rfl
  constructor
  · rw [getNode_modifyNode]; split
    · rename_i hc; obtain ⟨hvj, -⟩ := hc; subst hvj; rfl
    · rfl
  constructor
  · rw [getNode_modifyNode]; split
    · rename_i hc; obtain ⟨hvj, -⟩ := hc; subst hvj; rfl
    · rfl
  constructor
  · intro hjv
    rw [getNode_modifyNode, if_neg (by intro hc; exact hjv hc.1.symm)]
  · intro hv
    rw [getNode_modifyNode, if_pos ⟨rfl, hv⟩]

theorem sccStep_refl_of (g : HeapGraphWalker) (B : Nat) (hW : SearchInv g)
    (hstB : ∀ i ∈ g.node_stack, B ≤ (g.getNode i).node_index) :
    SccStep g g B := by
  refine ⟨hW, Nat.le_refl _, rfl, ?_, ?_, ?_, hstB, ?_⟩
  · intro i _; rfl
  · intro i _; rfl
  · intro i; rfl
  · intro i h0 hne; exact absurd h0 hne

theorem sccStep_trans {g g1 g2 : HeapGraphWalker} {B : Nat}
    (h1 : SccStep g g1 B) (h2 : SccStep g1 g2 B) : SccStep g g2 B := by
  refine ⟨h2.inv, Nat.le_trans h1.next_mono h2.next_mono,
    h2.len.trans h1.len, ?_, ?_, ?_, h2.stack_B, ?_⟩
  · intro i hi
    have e1 := h1.idx_pres i hi
    have e2 := h2.idx_pres i (by rw [e1]; exact hi)
    rw [e2, e1]
  · intro i hi
    have e1 := h1.comp_pres i hi
    have e2 := h2.comp_pres i (by rw [e1]; exact hi)
    rw [e2, e1]
  · intro i
    rw [h2.children_pres i, h1.children_pres i]
  · intro i h0 hne
    by_cases h1i : (g1.getNode i).node_index = 0
    · exact Nat.le_trans h1.next_mono (h2.new_idx_ge i h1i hne)
    · have e2 := h2.idx_pres i h1i
      rw [e2]
      exact h1.new_idx_ge i h0 h1i

theorem sccStep_set_lowlink (g : HeapGraphWalker) (v l : Nat) (B : Nat)
    (hW : SearchInv g)
    (hstB : ∀ i ∈ g.node_stack, B ≤ (g.getNode i).node_index)
    (hl : (g.getNode v).node_index ≠ 0 → l ≤ (g.getNode v).node_index) :
    SccStep g (g.modifyNode v (fun n => { n with lowlink := l })) B := by
  refine ⟨searchInv_set_lowlink g v l hl hW, Nat.le_refl _,
    by simp [HeapGraphWalker.modifyNode], ?_, ?_, ?_, ?_, ?_⟩
  · intro i _
    exact (getNode_set_lowlink g v l i).2.1
  · intro i _
    exact (getNode_set_lowlink g v l i).2.2.1
  · intro i
    exact (getNode_set_lowlink g v l i).1
  · intro i hi
    rw [(getNode_set_lowlink g v l i).2.1]
    exact hstB i hi
  · intro i h0 hne
    rw [(getNode_set_lowlink g v l i).2.1] at hne
    exact absurd h0 hne

/-- The child loop of the low-link search: assuming the recursive call meets
its specification, the loop preserves the search invariant, only decreases
`v`'s low-link (never below the stack bound `B`), only pushes onto the
stack, and leaves every processed child that is still on the stack with a
discovery index at least `v`'s final low-link. -/
theorem sccChildren_spec
    (findRec : HeapGraphWalker → Nat → Option HeapGraphWalker)
    (hfind : FindSpec findRec) (v : Nat) (g' : HeapGraphWalker) (B : Nat) :
    ∀ (cs : List Nat) (g : HeapGraphWalker),
    HeapGraphWalker.sccChildren findRec g v cs = some g' →
    SearchInv g →
    (∀ c ∈ cs, c < g.nodes.length) →
    v < g.nodes.length →
    (g.getNode v).node_index ≠ 0 →
    B ≤ g.next_node_index →
    (∀ i ∈ g.node_stack, B ≤ (g.getNode i).node_index) →
    B ≤ (g.getNode v).lowlink →
    v ∈ g.node_stack →
    SccStep g g' B ∧
    (∀ i, i ≠ v → (g.getNode i).node_index ≠ 0 →
      (g'.getNode i).lowlink = (g.getNode i).lowlink) ∧
    B ≤ (g'.getNode v).lowlink ∧
    (g'.getNode v).lowlink ≤ (g.getNode v).lowlink ∧
    (∃ w, g'.node_stack = w ++ g.node_stack) ∧
    (∀ c ∈ cs, c ∈ g'.node_stack →
      (g'.getNode v).lowlink ≤ (g'.getNode c).node_index) ∧
    (∀ t, t ∈ g'.node_stack → t ∉ g.node_stack →
      (g'.getNode v).lowlink ≤ (g'.getNode t).lowlink ∧
      (∀ c ∈ (g'.getNode t).children, c ∈ g'.node_stack →
        (g'.getNode v).lowlink ≤ (g'.getNode c).node_index)) := by
  intro cs
  induction cs with
  | nil =>
    intro g h hW hcs hv hvidx hBn hstB hvB hvstk
    simp only [HeapGraphWalker.sccChildren, Option.some.injEq] at h
    subst h
    exact ⟨sccStep_refl_of g B hW hstB, fun i _ _ => rfl, hvB,
      Nat.le_refl _, ⟨[], rfl⟩,
      fun c hc => absurd hc (List.not_mem_nil c),
      fun t ht hnt => absurd ht hnt⟩
  | cons c rest ih =>
    intro g h hW hcs hv hvidx hBn hstB hvB hvstk
    have hclen : c < g.nodes.length := hcs c (List.mem_cons_self _ _)
    simp only [HeapGraphWalker.sccChildren] at h
    split at h
    · rename_i hcidx0
      split at h
      · exact absurd h (by simp)
      · rename_i g1 hfc
        obtain ⟨FS, Fnext, Flowpres, Fidxc, FBlowc, Fshape, F1⟩ :=
          hfind g c g1 B hfc hW hclen hcidx0 hBn hstB
        have hvlen1 : v < g1.nodes.length := by rw [FS.len]; exact hv
        have hvidx1eq : (g1.getNode v).node_index = (g.getNode v).node_index :=
          FS.idx_pres v hvidx
        have hvidx1 : (g1.getNode v).node_index ≠ 0 := by
          rw [hvidx1eq]; exact hvidx
        have hlowv1 : (g1.getNode v).lowlink = (g.getNode v).lowlink :=
          Flowpres v hvidx
        have hshape1 : ∃ w1, g1.node_stack = w1 ++ g.node_stack := by
          rcases Fshape with ⟨hst, -⟩ | ⟨w1, hst, -⟩
          · exact ⟨[], by rw [hst]; rfl⟩
          · exact ⟨w1 ++ [c], by rw [hst]; simp⟩
        have hvstk1 : v ∈ g1.node_stack := by
          obtain ⟨w1, hw1⟩ := hshape1
          rw [hw1]
          exact List.mem_append_right _ hvstk
        have hidxc0 : (g1.getNode c).node_index ≠ 0 := by
          rw [Fidxc]
          have := hW.next_pos
          omega
        by_cases hpull : (g1.getNode c).lowlink < (g1.getNode v).lowlink
        · rw [if_pos hpull] at h
          set cl := (g1.getNode c).lowlink with hcl
          set g2 := g1.modifyNode v (fun n => { n with lowlink := cl }) with hg2
          have hstep2 : SccStep g1 g2 B :=
            sccStep_set_lowlink g1 v cl B FS.inv FS.stack_B
              (fun hidx => Nat.le_trans (Nat.le_of_lt hpull)
                (FS.inv.low_le_idx v hidx))
          have hg2vlow : (g2.getNode v).lowlink = cl :=
            (getNode_set_lowlink g1 v cl v).2.2.2.2.2 hvlen1
          have hvidx2 : (g2.getNode v).node_index ≠ 0 := by
            rw [(getNode_set_lowlink g1 v cl v).2.1]
            exact hvidx1
          have hstk2 : g2.node_stack = g1.node_stack := rfl
          have hrec := ih g2 h hstep2.inv
            (by intro c2 hc2
                have : c2 < g.nodes.length := hcs c2 (List.mem_cons_of_mem _ hc2)
                rw [hstep2.len, FS.len]; exact this)
            (by rw [hstep2.len]; exact hvlen1)
            hvidx2
            (Nat.le_trans hBn (Nat.le_trans FS.next_mono hstep2.next_mono))
            hstep2.stack_B
            (by rw [hg2vlow]; exact FBlowc)
            (by rw [hstk2]; exact hvstk1)
          obtain ⟨RS, Rlowpres, RBlow, Rlowle, Rshape, RS1, RS2⟩ := hrec
          have hlowfin : (g'.getNode v).lowlink ≤ cl :=
            Nat.le_trans Rlowle (by rw [hg2vlow])
          have hlowstable : ∀ t, t ≠ v → (g1.getNode t).node_index ≠ 0 →
              (g'.getNode t).lowlink = (g1.getNode t).lowlink := by
            intro t htv hti
            rw [Rlowpres t htv (by
              rw [(getNode_set_lowlink g1 v cl t).2.1]; exact hti),
              (getNode_set_lowlink g1 v cl t).2.2.2.2.1 htv]
          have hidxstable : ∀ t, (g1.getNode t).node_index ≠ 0 →
              (g'.getNode t).node_index = (g1.getNode t).node_index := by
            intro t hti
            rw [RS.idx_pres t (by
              rw [(getNode_set_lowlink g1 v cl t).2.1]; exact hti),
              (getNode_set_lowlink g1 v cl t).2.1]
          refine ⟨sccStep_trans (sccStep_trans FS hstep2) RS, ?_, RBlow, ?_, ?_, ?_, ?_⟩
          · intro i hiv hidx
            have hidx1 : (g1.getNode i).node_index ≠ 0 := by
              rw [FS.idx_pres i hidx]; exact hidx
            rw [hlowstable i hiv hidx1, Flowpres i hidx]
          · have h2 : cl < (g.getNode v).lowlink := by
              rw [← hlowv1]; exact hpull
            omega
          · obtain ⟨w2, hw2⟩ := Rshape
            obtain ⟨w1, hw1⟩ := hshape1
            refine ⟨w2 ++ w1, ?_⟩
            rw [hw2, hstk2, hw1, List.append_assoc]
          · intro c2 hc2 hc2stk
            rcases List.mem_cons.mp hc2 with hc2c | hc2r
            · subst hc2c
              rcases Fshape with ⟨hst1, hcomp1⟩ | ⟨w1, hw1, hlt1⟩
              · exfalso
                have hcomp2 : (g2.getNode c2).component ≠ -1 := by
                  rw [(getNode_set_lowlink g1 v cl c2).2.2.1]
                  exact hcomp1
                have hcomp3 : (g'.getNode c2).component ≠ -1 := by
                  rw [RS.comp_pres c2 hcomp2]
                  exact hcomp2
                exact hcomp3 (RS.inv.stack_unassigned c2 hc2stk)
              · rw [hidxstable c2 hidxc0]
                exact Nat.le_trans hlowfin (Nat.le_of_lt hlt1)
            · exact RS1 c2 hc2r hc2stk
          · intro t ht hnt
            by_cases ht1 : t ∈ g1.node_stack
            · have htv : t ≠ v := fun hc => hnt (hc ▸ hvstk)
              have hti : (g1.getNode t).node_index ≠ 0 :=
                FS.inv.stack_visited t ht1
              obtain ⟨hF1a, hF1b⟩ := F1 t ht1 hnt
              constructor
              · rw [hlowstable t htv hti]
                exact Nat.le_trans hlowfin hF1a
              · intro cc hcc hccstk
                have hch : (g'.getNode t).children = (g1.getNode t).children := by
                  rw [RS.children_pres t, (getNode_set_lowlink g1 v cl t).1]
                rw [hch] at hcc
                by_cases hcc1 : cc ∈ g1.node_stack
                · have hcci : (g1.getNode cc).node_index ≠ 0 :=
                    FS.inv.stack_visited cc hcc1
                  rw [hidxstable cc hcci]
                  exact Nat.le_trans hlowfin (hF1b cc hcc hcc1)
                · have hR := RS2 cc hccstk (by rw [hstk2]; exact hcc1)
                  refine Nat.le_trans hR.1 ?_
                  exact RS.inv.low_le_idx cc (RS.inv.stack_visited cc hccstk)
            · exact RS2 t ht (by rw [hstk2]; exact ht1)
        · rw [if_neg hpull] at h
          have hrec := ih g1 h FS.inv
            (by intro c2 hc2
                have : c2 < g.nodes.length := hcs c2 (List.mem_cons_of_mem _ hc2)
                rw [FS.len]; exact this)
            hvlen1 hvidx1
            (Nat.le_trans hBn FS.next_mono)
            FS.stack_B
            (by rw [hlowv1]; exact hvB)
            hvstk1
          obtain ⟨RS, Rlowpres, RBlow, Rlowle, Rshape, RS1, RS2⟩ := hrec
          have hlow1cl : (g1.getNode v).lowlink ≤ (g1.getNode c).lowlink :=
            Nat.le_of_not_lt hpull
          have hlowfin : (g'.getNode v).lowlink ≤ (g1.getNode c).lowlink :=
            Nat.le_trans Rlowle hlow1cl
          refine ⟨sccStep_trans FS RS, ?_, RBlow, ?_, ?_, ?_, ?_⟩
          · intro i hiv hidx
            have hidx1 : (g1.getNode i).node_index ≠ 0 := by
              rw [FS.idx_pres i hidx]; exact hidx
            rw [Rlowpres i hiv hidx1, Flowpres i hidx]
          · rw [← hlowv1]; exact Rlowle
          · obtain ⟨w2, hw2⟩ := Rshape
            obtain ⟨w1, hw1⟩ := hshape1
            exact ⟨w2 ++ w1, by rw [hw2, hw1, List.append_assoc]⟩
          · intro c2 hc2 hc2stk
            rcases List.mem_cons.mp hc2 with hc2c | hc2r
            · subst hc2c
              rcases Fshape with ⟨hst1, hcomp1⟩ | ⟨w1, hw1, hlt1⟩
              · exfalso
                have hcomp3 : (g'.getNode c2).component ≠ -1 := by
                  rw [RS.comp_pres c2 hcomp1]
                  exact hcomp1
                exact hcomp3 (RS.inv.stack_unassigned c2 hc2stk)
              · rw [RS.idx_pres c2 hidxc0]
                exact Nat.le_trans hlowfin (Nat.le_of_lt hlt1)
            · exact RS1 c2 hc2r hc2stk
          · intro t ht hnt
            by_cases ht1 : t ∈ g1.node_stack
            · have htv : t ≠ v := fun hc => hnt (hc ▸ hvstk)
              have hti : (g1.getNode t).node_index ≠ 0 :=
                FS.inv.stack_visited t ht1
              obtain ⟨hF1a, hF1b⟩ := F1 t ht1 hnt
              constructor
              · rw [Rlowpres t htv hti]
                exact Nat.le_trans hlowfin hF1a
              · intro cc hcc hccstk
                rw [RS.children_pres t] at hcc
                by_cases hcc1 : cc ∈ g1.node_stack
                · have hcci : (g1.getNode cc).node_index ≠ 0 :=
                    FS.inv.stack_visited cc hcc1
                  rw [RS.idx_pres cc hcci]
                  exact Nat.le_trans hlowfin (hF1b cc hcc hcc1)
                · have hR := RS2 cc hccstk hcc1
                  refine Nat.le_trans hR.1 ?_
                  exact RS.inv.low_le_idx cc (RS.inv.stack_visited cc hccstk)
            · exact RS2 t ht ht1
    · rename_i hcidx
      split at h
      · rename_i hon
        have hcmem : c ∈ g.node_stack := (hW.stack_flag c).mp hon
        by_cases hpull : (g.getNode c).node_index < (g.getNode v).lowlink
        · rw [if_pos hpull] at h
          have hcv : c ≠ v := by
            intro hc
            subst hc
            have := hW.low_le_idx c hcidx
            omega
          set cl := (g.getNode c).node_index with hcl
          set g2 := g.modifyNode v (fun n => { n with lowlink := cl }) with hg2
          have hstep2 : SccStep g g2 B := sccStep_set_lowlink g v cl B hW hstB
            (fun hidx => Nat.le_trans (Nat.le_of_lt hpull)
              (hW.low_le_idx v hidx))
          have hg2vlow : (g2.getNode v).lowlink = cl :=
            (getNode_set_lowlink g v cl v).2.2.2.2.2 hv
          have hBcl : B ≤ cl := hstB c hcmem
          have hstk2 : g2.node_stack = g.node_stack := rfl
          have hrec := ih g2 h hstep2.inv
            (by intro c2 hc2
                have : c2 < g.nodes.length := hcs c2 (List.mem_cons_of_mem _ hc2)
                rw [hstep2.len]; exact this)
            (by rw [hstep2.len]; exact hv)
            (by rw [(getNode_set_lowlink g v cl v).2.1]; exact hvidx)
            hBn hstep2.stack_B
            (by rw [hg2vlow]; exact hBcl)
            (by rw [hstk2]; exact hvstk)
          obtain ⟨RS, Rlowpres, RBlow, Rlowle, Rshape, RS1, RS2⟩ := hrec
          have hlowfin : (g'.getNode v).lowlink ≤ cl :=
            Nat.le_trans Rlowle (by rw [hg2vlow])
          refine ⟨sccStep_trans hstep2 RS, ?_, RBlow, ?_, ?_, ?_, ?_⟩
          · intro i hiv hidx
            have hidx2 : (g2.getNode i).node_index ≠ 0 := by
              rw [(getNode_set_lowlink g v cl i).2.1]; exact hidx
            rw [Rlowpres i hiv hidx2,
              (getNode_set_lowlink g v cl i).2.2.2.2.1 hiv]
          · omega
          · obtain ⟨w2, hw2⟩ := Rshape
            exact ⟨w2, hw2⟩
          · intro c2 hc2 hc2stk
            rcases List.mem_cons.mp hc2 with hc2c | hc2r
            · subst hc2c
              have hidx2 : (g2.getNode c2).node_index ≠ 0 := by
                rw [(getNode_set_lowlink g v cl c2).2.1]; exact hcidx
              rw [RS.idx_pres c2 hidx2,
                (getNode_set_lowlink g v cl c2).2.1]
              exact hlowfin
            · exact RS1 c2 hc2r hc2stk
          · intro t ht hnt
            exact RS2 t ht hnt
        · rw [if_neg hpull] at h
          have hrec := ih g h hW
            (fun c2 hc2 => hcs c2 (List.mem_cons_of_mem _ hc2))
            hv hvidx hBn hstB hvB hvstk
          obtain ⟨RS, Rlowpres, RBlow, Rlowle, Rshape, RS1, RS2⟩ := hrec
          refine ⟨RS, Rlowpres, RBlow, Rlowle, Rshape, ?_, RS2⟩
          intro c2 hc2 hc2stk
          rcases List.mem_cons.mp hc2 with hc2c | hc2r
          · subst hc2c
            rw [RS.idx_pres c2 hcidx]
            exact Nat.le_trans Rlowle (Nat.le_of_not_lt hpull)
          · exact RS1 c2 hc2r hc2stk
      · rename_i hnon
        have hrec := ih g h hW
          (fun c2 hc2 => hcs c2 (List.mem_cons_of_mem _ hc2))
          hv hvidx hBn hstB hvB hvstk
        obtain ⟨RS, Rlowpres, RBlow, Rlowle, Rshape, RS1, RS2⟩ := hrec
        refine ⟨RS, Rlowpres, RBlow, Rlowle, Rshape, ?_, RS2⟩
        intro c2 hc2 hc2stk
        rcases List.mem_cons.mp hc2 with hc2c | hc2r
        · subst hc2c
          exfalso
          have hcomp : (g.getNode c2).component ≠ -1 := by
            rcases hW.visited_state c2 hcidx with hon2 | hc2p
            · exact absurd hon2 hnon
            · exact hc2p
          have hcomp3 : (g'.getNode c2).component ≠ -1 := by
            rw [RS.comp_pres c2 hcomp]
            exact hcomp
          exact hcomp3 (RS.inv.stack_unassigned c2 hc2stk)
        · exact RS1 c2 hc2r hc2stk

/-- The prologue of `FindSCC` (line 307-309): assign the next discovery
index and low-link, push the node on the search stack. -/
def searchPush (g : HeapGraphWalker) (v : Nat) : HeapGraphWalker :=
  let idx := g.next_node_index
  let g1 := g.modifyNode v (fun n =>
    { n with node_index := idx, lowlink := idx, on_stack := true })
  { g1 with next_node_index := idx + 1, node_stack := v :: g1.node_stack }

theorem searchPush_getNode (g : HeapGraphWalker) (v j : Nat)
    (hv : v < g.nodes.length) :
    (searchPush g v).getNode j =
      if j = v then
        { g.getNode v with
          node_index := g.next_node_index
          lowlink := g.next_node_index
          on_stack := true }
      else g.getNode j := by
  have hstep : (searchPush g v).getNode j = (g.modifyNode v (fun n =>
      { n with
        node_index := g.next_node_index
        lowlink := g.next_node_index
        on_stack := true })).getNode j := rfl
  rw [hstep, getNode_modifyNode]
  by_cases hj : j = v
  · subst hj
    rw [if_pos ⟨rfl, hv⟩, if_pos rfl]
  · rw [if_neg (by intro hc; exact hj hc.1.symm), if_neg hj]

theorem searchPush_next (g : HeapGraphWalker) (v : Nat) :
    (searchPush g v).next_node_index = g.next_node_index + 1 := rfl

theorem searchPush_stack (g : HeapGraphWalker) (v : Nat) :
    (searchPush g v).node_stack = v :: g.node_stack := rfl

theorem searchPush_len (g : HeapGraphWalker) (v : Nat) :
    (searchPush g v).nodes.length = g.nodes.length := by
  simp [searchPush, HeapGraphWalker.modifyNode]

theorem searchPush_inv (g : HeapGraphWalker) (v : Nat) (hW : SearchInv g)
    (hv : v < g.nodes.length) (hvidx0 : (g.getNode v).node_index = 0) :
    SearchInv (searchPush g v) := by
  have hvnotstk : v ∉ g.node_stack := fun hc => hW.stack_visited v hc hvidx0
  have hnxtpos := hW.next_pos
  have hget := fun j => searchPush_getNode g v j hv
  have hcompv : (g.getNode v).component = -1 := hW.unvisited_unassigned v hvidx0
  refine ⟨?_, ?_, ?_, ?_, ?_, ?_, ?_, ?_, ?_, ?_, ?_, ?_⟩
  · intro i
    rw [hget i, searchPush_stack]
    by_cases hiv : i = v
    · subst hiv
      rw [if_pos rfl]
      simp
    · rw [if_neg hiv]
      rw [hW.stack_flag i]
      simp [List.mem_cons, hiv]
  · intro i hidx
    rw [hget i] at hidx ⊢
    by_cases hiv : i = v
    · subst hiv
      rw [if_pos rfl]
      exact Or.inl rfl
    · rw [if_neg hiv] at hidx ⊢
      exact hW.visited_state i hidx
  · intro i hi
    rw [searchPush_stack] at hi
    rw [hget i]
    by_cases hiv : i = v
    · subst hiv
      rw [if_pos rfl]
      show g.next_node_index ≠ 0
      omega
    · rw [if_neg hiv]
      rcases List.mem_cons.mp hi with hc | hc
      · exact absurd hc hiv
      · exact hW.stack_visited i hc
  · rw [searchPush_stack]
    exact List.nodup_cons.mpr ⟨hvnotstk, hW.stack_nodup⟩
  · intro i hi
    rw [searchPush_stack] at hi
    rw [hget i, searchPush_next]
    by_cases hiv : i = v
    · subst hiv
      rw [if_pos rfl]
      show g.next_node_index < g.next_node_index + 1
      omega
    · rw [if_neg hiv]
      rcases List.mem_cons.mp hi with hc | hc
      · exact absurd hc hiv
      · have := hW.stack_bound i hc
        omega
  · rw [searchPush_next]
    omega
  · intro i c hc
    rw [hget i] at hc
    rw [searchPush_len]
    by_cases hiv : i = v
    · subst hiv
      rw [if_pos rfl] at hc
      exact hW.children_bound i c hc
    · rw [if_neg hiv] at hc
      exact hW.children_bound i c hc
  · intro i hi
    rw [searchPush_stack] at hi
    rw [searchPush_len]
    rcases List.mem_cons.mp hi with hc | hc
    · subst hc; exact hv
    · exact hW.stack_mem_lt i hc
  · intro i hi
    rw [searchPush_stack] at hi
    rw [hget i]
    by_cases hiv : i = v
    · subst hiv
      rw [if_pos rfl]
      exact hcompv
    · rw [if_neg hiv]
      rcases List.mem_cons.mp hi with hc | hc
      · exact absurd hc hiv
      · exact hW.stack_unassigned i hc
  · intro i hidx
    rw [hget i] at hidx ⊢
    by_cases hiv : i = v
    · subst hiv
      rw [if_pos rfl] at hidx
      exact absurd hidx (by show g.next_node_index ≠ 0; omega)
    · rw [if_neg hiv] at hidx ⊢
      exact hW.unvisited_unassigned i hidx
  · intro i hidx
    rw [hget i] at hidx ⊢
    by_cases hiv : i = v
    · subst hiv
      rw [if_pos rfl] at hidx ⊢
    · rw [if_neg hiv] at hidx ⊢
      exact hW.low_le_idx i hidx
  · rw [searchPush_stack]
    refine List.Pairwise.cons ?_ ?_
    · intro b hb
      have hbv : b ≠ v := fun hc => hvnotstk (hc ▸ hb)
      rw [hget b, if_neg hbv, hget v, if_pos rfl]
      exact hW.stack_bound b hb
    · refine List.Pairwise.imp_of_mem ?_ hW.stack_desc
      intro a b ha hb hab
      have hav : a ≠ v := fun hc => hvnotstk (hc ▸ ha)
      have hbv : b ≠ v := fun hc => hvnotstk (hc ▸ hb)
      rw [hget a, if_neg hav, hget b, if_neg hbv]
      exact hab

/-- Every fuel instance of the low-link search meets its specification:
it preserves the search invariant, freshly indexes `v`, assigns components
only (and permanently), and either leaves the stack as it was with `v`
assigned to a component, or leaves `v` on the stack with a strictly smaller
low-link. -/
theorem findSCC_spec : ∀ fuel, FindSpec (HeapGraphWalker.FindSCC fuel) := by
  intro fuel
  induction fuel with
  | zero =>
    unfold FindSpec
    intro g v g' B h _ _ _ _ _
    exact absurd h (by simp [HeapGraphWalker.FindSCC])
  | succ fuel ih =>
    unfold FindSpec
    intro g v g' B h hW hv hvidx0 hBn hstB
    have hbody : HeapGraphWalker.FindSCC (Nat.succ fuel) g v =
        (match HeapGraphWalker.sccChildren (HeapGraphWalker.FindSCC fuel)
            (searchPush g v) v (((searchPush g v).getNode v).children) with
         | none => none
         | some g3 =>
           if (g3.getNode v).lowlink = (g3.getNode v).node_index then
             g3.FoundSCC v
           else some g3) := rfl
    rw [hbody] at h
    split at h
    · exact absurd h (by simp)
    · rename_i g3 hsc
      have hget2 := fun j => searchPush_getNode g v j hv
      have hlen2 := searchPush_len g v
      have hvnotstk : v ∉ g.node_stack := fun hc => hW.stack_visited v hc hvidx0
      have hnxtpos := hW.next_pos
      have hvidx2 : ((searchPush g v).getNode v).node_index = g.next_node_index := by
        rw [hget2 v, if_pos rfl]
      have hvlow2 : ((searchPush g v).getNode v).lowlink = g.next_node_index := by
        rw [hget2 v, if_pos rfl]
      have hne2 : ∀ j, j ≠ v → (searchPush g v).getNode j = g.getNode j := by
        intro j hj
        rw [hget2 j, if_neg hj]
      have hchild2 : ∀ j, ((searchPush g v).getNode j).children
          = (g.getNode j).children := by
        intro j
        rw [hget2 j]
        by_cases hj : j = v
        · subst hj; rw [if_pos rfl]
        · rw [if_neg hj]
      have hcomp2 : ∀ j, ((searchPush g v).getNode j).component
          = (g.getNode j).component := by
        intro j
        rw [hget2 j]
        by_cases hj : j = v
        · subst hj; rw [if_pos rfl]
        · rw [if_neg hj]
      have hInv2 := searchPush_inv g v hW hv hvidx0
      obtain ⟨CS, Clowpres, CBlow, Clowle, Cshape, CS1, CS2⟩ :=
        sccChildren_spec _ ih v g3 B _ _ hsc hInv2
          (by intro c hc
              rw [hchild2 v] at hc
              rw [hlen2]
              exact hW.children_bound v c hc)
          (by rw [hlen2]; exact hv)
          (by rw [hvidx2]; omega)
          (by rw [searchPush_next]; omega)
          (by intro i hi
              rw [searchPush_stack] at hi
              rcases List.mem_cons.mp hi with hiv | hi
              · subst hiv; rw [hvidx2]; exact hBn
              · have hine : i ≠ v := fun hc => hvnotstk (hc ▸ hi)
                rw [hne2 i hine]
                exact hstB i hi)
          (by rw [hvlow2]; exact hBn)
          (by rw [searchPush_stack]; exact List.mem_cons_self _ _)
      have hidx3v : (g3.getNode v).node_index = g.next_node_index := by
        rw [CS.idx_pres v (by rw [hvidx2]; omega), hvidx2]
      have hlow3le : (g3.getNode v).lowlink ≤ g.next_node_index := by
        rw [← hvlow2]
        exact Clowle
      have hnext3 : g.next_node_index + 1 ≤ g3.next_node_index := by
        have := CS.next_mono
        rw [searchPush_next] at this
        exact this
      split at h
      · rename_i hlowidx
        obtain ⟨w, hw⟩ := Cshape
        rw [searchPush_stack] at hw
        have hvw : v ∉ w := by
          intro hvin
          have hnd := CS.inv.stack_nodup
          rw [hw] at hnd
          exact (List.disjoint_of_nodup_append hnd) hvin (List.mem_cons_self _ _)
        obtain ⟨FW, Fstk, Flen, Fnext, Fcomp, Fidx, Flow, Fchild, Fcompv⟩ :=
          foundSCC_spec g3 v g' h CS.inv w g.node_stack hw hvw
        refine ⟨⟨FW, ?_, ?_, ?_, ?_, ?_, ?_, ?_⟩, ?_, ?_, ?_, ?_, ?_, ?_⟩
        · rw [Fnext]
          omega
        · rw [Flen, CS.len, hlen2]
        · intro i hi
          have hiv : i ≠ v := fun hc => hi (hc ▸ hvidx0)
          rw [Fidx i, CS.idx_pres i (by rw [hne2 i hiv]; exact hi), hne2 i hiv]
        · intro i hi
          have h2 := hcomp2 i
          have h3 := CS.comp_pres i (by rw [h2]; exact hi)
          have h4 := Fcomp i (by rw [h3, h2]; exact hi)
          rw [h4, h3, h2]
        · intro i
          rw [Fchild i, CS.children_pres i, hchild2 i]
        · intro i hi
          rw [Fstk] at hi
          have hi3 : i ∈ g3.node_stack := by
            rw [hw]
            exact List.mem_append_right _ (List.mem_cons_of_mem _ hi)
          rw [Fidx i]
          exact CS.stack_B i hi3
        · intro i h0 hne
          rw [Fidx i] at hne ⊢
          by_cases hiv : i = v
          · subst hiv
            rw [hidx3v]
          · have := CS.new_idx_ge i (by rw [hne2 i hiv]; exact h0) hne
            rw [searchPush_next] at this
            omega
        · rw [Fnext]
          omega
        · intro i hi
          have hiv : i ≠ v := fun hc => hi (hc ▸ hvidx0)
          rw [Flow i, Clowpres i hiv (by rw [hne2 i hiv]; exact hi), hne2 i hiv]
        · rw [Fidx v, hidx3v]
        · rw [Flow v]
          exact CBlow
        · exact Or.inl ⟨Fstk, Fcompv⟩
        · intro t ht hnt
          rw [Fstk] at ht
          exact absurd ht hnt
      · rename_i hlowne
        obtain rfl : g3 = g' := by simpa using h
        refine ⟨⟨CS.inv, ?_, ?_, ?_, ?_, ?_, CS.stack_B, ?_⟩, ?_, ?_, hidx3v, CBlow, ?_, ?_⟩
        · omega
        · rw [CS.len, hlen2]
        · intro i hi
          have hiv : i ≠ v := fun hc => hi (hc ▸ hvidx0)
          rw [CS.idx_pres i (by rw [hne2 i hiv]; exact hi), hne2 i hiv]
        · intro i hi
          have h2 := hcomp2 i
          have h3 := CS.comp_pres i (by rw [h2]; exact hi)
          rw [h3, h2]
        · intro i
          rw [CS.children_pres i, hchild2 i]
        · intro i h0 hne
          by_cases hiv : i = v
          · subst hiv
            rw [hidx3v]
          · have := CS.new_idx_ge i (by rw [hne2 i hiv]; exact h0) hne
            rw [searchPush_next] at this
            omega
        · omega
        · intro i hi
          have hiv : i ≠ v := fun hc => hi (hc ▸ hvidx0)
          rw [Clowpres i hiv (by rw [hne2 i hiv]; exact hi), hne2 i hiv]
        · obtain ⟨w, hw⟩ := Cshape
          rw [searchPush_stack] at hw
          have hne' : (g3.getNode v).lowlink ≠ g.next_node_index := by
            rw [← hidx3v]
            exact hlowne
          refine Or.inr ⟨w, hw, ?_⟩
          rw [hidx3v]
          omega
        · intro t ht hnt
          by_cases htv : t = v
          · subst htv
            refine ⟨Nat.le_refl _, ?_⟩
            intro c hc hcstk
            rw [CS.children_pres t] at hc
            exact CS1 c hc hcstk
          · refine CS2 t ht ?_
            rw [searchPush_stack]
            intro hc
            rcases List.mem_cons.mp hc with hc1 | hc1
            · exact htv hc1
            · exact hnt hc1

/-! ### Top-level component assignment (claim C3) -/

/-- Pointwise preservation of the node fields the low-link search reads,
plus the search stack, the next index and the node count. -/
def TarjanPres (g g' : HeapGraphWalker) : Prop :=
  g'.node_stack = g.node_stack ∧ g'.next_node_index = g.next_node_index ∧
  g'.nodes.length = g.nodes.length ∧
  ∀ j, (g'.getNode j).node_index = (g.getNode j).node_index ∧
    (g'.getNode j).lowlink = (g.getNode j).lowlink ∧
    (g'.getNode j).component = (g.getNode j).component ∧
    (g'.getNode j).on_stack = (g.getNode j).on_stack ∧
    (g'.getNode j).children = (g.getNode j).children

theorem searchInv_of_tarjanPres (g g' : HeapGraphWalker)
    (hp : TarjanPres g g') (hW : SearchInv g) : SearchInv g' := by
  obtain ⟨hstk, hnext, hlen, hf⟩ := hp
  refine ⟨?_, ?_, ?_, ?_, ?_, ?_, ?_, ?_, ?_, ?_, ?_, ?_⟩
  · intro i
    rw [(hf i).2.2.2.1, hstk]
    exact hW.stack_flag i
  · intro i hidx
    rw [(hf i).1] at hidx
    rw [(hf i).2.2.2.1, (hf i).2.2.1]
    exact hW.visited_state i hidx
  · intro i hi
    rw [hstk] at hi
    rw [(hf i).1]
    exact hW.stack_visited i hi
  · rw [hstk]
    exact hW.stack_nodup
  · intro i hi
    rw [hstk] at hi
    rw [(hf i).1, hnext]
    exact hW.stack_bound i hi
  · rw [hnext]
    exact hW.next_pos
  · intro i c hc
    rw [(hf i).2.2.2.2] at hc
    rw [hlen]
    exact hW.children_bound i c hc
  · intro i hi
    rw [hstk] at hi
    rw [hlen]
    exact hW.stack_mem_lt i hi
  · intro i hi
    rw [hstk] at hi
    rw [(hf i).2.2.1]
    exact hW.stack_unassigned i hi
  · intro i hidx
    rw [(hf i).1] at hidx
    rw [(hf i).2.2.1]
    exact hW.unvisited_unassigned i hidx
  · intro i hidx
    rw [(hf i).1] at hidx
    rw [(hf i).1, (hf i).2.1]
    exact hW.low_le_idx i hidx
  · rw [hstk]
    refine List.Pairwise.imp ?_ hW.stack_desc
    intro a b hab
    rw [(hf a).1, (hf b).1]
    exact hab

/-- `ReachableNode` touches only `reachable` flags and the event log. -/
theorem reachableNode_tarjanPres : ∀ (fuel : Nat) (g : HeapGraphWalker)
    (work : List Nat) (g' : HeapGraphWalker),
    HeapGraphWalker.ReachableNode fuel g work = some g' → TarjanPres g g' := by
  intro fuel
  induction fuel with
  | zero =>
    intro g work g' h
    exact absurd h (by simp [HeapGraphWalker.ReachableNode])
  | succ fuel ih =>
    intro g work g' h
    simp only [HeapGraphWalker.ReachableNode] at h
    match work with
    | [] =>
      simp only [Option.some.injEq] at h
      subst h
      exact ⟨rfl, rfl, rfl, fun j => ⟨rfl, rfl, rfl, rfl, rfl⟩⟩
    | i :: rest =>
      simp only at h
      split at h
      · rename_i hilen
        split at h
        · exact ih g rest g' h
        · rename_i hreach
          have hrec := ih _ _ _ h
          have hmid : TarjanPres g ({ g with
              nodes := g.nodes.set i { g.getNode i with reachable := true }
              events := g.events ++ [Event.markReachable (g.getNode i).row] }) := by
            refine ⟨rfl, rfl, by simp, ?_⟩
            intro j
            have hstep : ∀ (w : HeapGraphWalker), w = ({ g with
                nodes := g.nodes.set i { g.getNode i with reachable := true }
                events := g.events ++ [Event.markReachable (g.getNode i).row] }) →
                w.getNode j = (g.modifyNode i
                  (fun n => { n with reachable := true })).getNode j := by
              intro w hw
              subst hw
              rfl
            rw [hstep _ rfl, getNode_modifyNode]
            split
            · rename_i hc
              obtain ⟨hij, -⟩ := hc
              subst hij
              exact ⟨rfl, rfl, rfl, rfl, rfl⟩
            · exact ⟨rfl, rfl, rfl, rfl, rfl⟩
          obtain ⟨A1, A2, A3, A4⟩ := hmid
          obtain ⟨B1, B2, B3, B4⟩ := hrec
          refine ⟨B1.trans A1, B2.trans A2, B3.trans A3, ?_⟩
          intro j
          obtain ⟨a1, a2, a3, a4, a5⟩ := A4 j
          obtain ⟨b1, b2, b3, b4, b5⟩ := B4 j
          exact ⟨b1.trans a1, b2.trans a2, b3.trans a3, b4.trans a4, b5.trans a5⟩
      · exact ih g rest g' h

theorem addNode_tarjanFields (g : HeapGraphWalker) (row size j : Nat) :
    ((g.AddNode row size).getNode j).node_index = (g.getNode j).node_index ∧
    ((g.AddNode row size).getNode j).lowlink = (g.getNode j).lowlink ∧
    ((g.AddNode row size).getNode j).component = (g.getNode j).component ∧
    ((g.AddNode row size).getNode j).on_stack = (g.getNode j).on_stack ∧
    ((g.AddNode row size).getNode j).children = (g.getNode j).children := by
  rw [addNode_getNode]
  by_cases hj : j = row
  · subst hj
    by_cases hl : j < g.nodes.length
    · rw [if_pos rfl, if_pos hl]
      exact ⟨rfl, rfl, rfl, rfl, rfl⟩
    · rw [if_pos rfl, if_neg hl, getNode_oob g j (by omega)]
      exact ⟨rfl, rfl, rfl, rfl, rfl⟩
  · rw [if_neg hj]
    by_cases hl : j < g.nodes.length
    · rw [if_pos hl]
      exact ⟨rfl, rfl, rfl, rfl, rfl⟩
    · rw [if_neg hl, getNode_oob g j (by omega)]
      exact ⟨rfl, rfl, rfl, rfl, rfl⟩

theorem addNode_stack_next (g : HeapGraphWalker) (row size : Nat) :
    (g.AddNode row size).node_stack = g.node_stack ∧
    (g.AddNode row size).next_node_index = g.next_node_index := by
  simp only [HeapGraphWalker.AddNode]
  split <;> exact ⟨rfl, rfl⟩

theorem addNode_length_ge (g : HeapGraphWalker) (row size : Nat) :
    g.nodes.length ≤ (g.AddNode row size).nodes.length := by
  rw [addNode_length]
  split <;> omega

theorem searchInv_addNode (g : HeapGraphWalker) (row size : Nat)
    (hW : SearchInv g) : SearchInv (g.AddNode row size) := by
  have hf := addNode_tarjanFields g row size
  have hsn := addNode_stack_next g row size
  have hlen := addNode_length_ge g row size
  refine ⟨?_, ?_, ?_, ?_, ?_, ?_, ?_, ?_, ?_, ?_, ?_, ?_⟩
  · intro i
    rw [(hf i).2.2.2.1, hsn.1]
    exact hW.stack_flag i
  · intro i hidx
    rw [(hf i).1] at hidx
    rw [(hf i).2.2.2.1, (hf i).2.2.1]
    exact hW.visited_state i hidx
  · intro i hi
    rw [hsn.1] at hi
    rw [(hf i).1]
    exact hW.stack_visited i hi
  · rw [hsn.1]
    exact hW.stack_nodup
  · intro i hi
    rw [hsn.1] at hi
    rw [(hf i).1, hsn.2]
    exact hW.stack_bound i hi
  · rw [hsn.2]
    exact hW.next_pos
  · intro i c hc
    rw [(hf i).2.2.2.2] at hc
    have := hW.children_bound i c hc
    omega
  · intro i hi
    rw [hsn.1] at hi
    have := hW.stack_mem_lt i hi
    omega
  · intro i hi
    rw [hsn.1] at hi
    rw [(hf i).2.2.1]
    exact hW.stack_unassigned i hi
  · intro i hidx
    rw [(hf i).1] at hidx
    rw [(hf i).2.2.1]
    exact hW.unvisited_unassigned i hidx
  · intro i hidx
    rw [(hf i).1] at hidx
    rw [(hf i).1, (hf i).2.1]
    exact hW.low_le_idx i hidx
  · rw [hsn.1]
    refine List.Pairwise.imp ?_ hW.stack_desc
    intro a b hab
    rw [(hf a).1, (hf b).1]
    exact hab

theorem getNode_modifyNode_tarjanFields (g : HeapGraphWalker) (i : Nat)
    (f : Node → Node)
    (hfn : ∀ n, (f n).node_index = n.node_index ∧ (f n).lowlink = n.lowlink ∧
      (f n).component = n.component ∧ (f n).on_stack = n.on_stack) (j : Nat) :
    ((g.modifyNode i f).getNode j).node_index = (g.getNode j).node_index ∧
    ((g.modifyNode i f).getNode j).lowlink = (g.getNode j).lowlink ∧
    ((g.modifyNode i f).getNode j).component = (g.getNode j).component ∧
    ((g.modifyNode i f).getNode j).on_stack = (g.getNode j).on_stack := by
  rw [getNode_modifyNode]
  split
  · rename_i hc
    obtain ⟨hij, -⟩ := hc
    subst hij
    exact hfn _
  · exact ⟨rfl, rfl, rfl, rfl⟩

theorem addEdge_tarjanFields (g : HeapGraphWalker) (a b j : Nat) :
    ((g.AddEdge a b).getNode j).node_index = (g.getNode j).node_index ∧
    ((g.AddEdge a b).getNode j).lowlink = (g.getNode j).lowlink ∧
    ((g.AddEdge a b).getNode j).component = (g.getNode j).component ∧
    ((g.AddEdge a b).getNode j).on_stack = (g.getNode j).on_stack := by
  simp only [HeapGraphWalker.AddEdge]
  split
  · have h1 := getNode_modifyNode_tarjanFields
      (g.modifyNode a (fun n => { n with children := insertSorted b n.children }))
      b (fun n => { n with parents := insertSorted a n.parents })
      (fun n => ⟨rfl, rfl, rfl, rfl⟩) j
    have h2 := getNode_modifyNode_tarjanFields g a
      (fun n => { n with children := insertSorted b n.children })
      (fun n => ⟨rfl, rfl, rfl, rfl⟩) j
    exact ⟨h1.1.trans h2.1, h1.2.1.trans h2.2.1, h1.2.2.1.trans h2.2.2.1,
      h1.2.2.2.trans h2.2.2.2⟩
  · exact ⟨rfl, rfl, rfl, rfl⟩

theorem addEdge_stack_next (g : HeapGraphWalker) (a b : Nat) :
    (g.AddEdge a b).node_stack = g.node_stack ∧
    (g.AddEdge a b).next_node_index = g.next_node_index := by
  simp only [HeapGraphWalker.AddEdge]
  split <;> exact ⟨rfl, rfl⟩

theorem searchInv_addEdge (g : HeapGraphWalker) (a b : Nat)
    (hW : SearchInv g) : SearchInv (g.AddEdge a b) := by
  by_cases hg : a < g.nodes.length ∧ b < g.nodes.length
  · have hf := addEdge_tarjanFields g a b
    have hsn := addEdge_stack_next g a b
    have hlen := addEdge_length g a b
    have hch := fun j => addEdge_children g a b j hg
    refine ⟨?_, ?_, ?_, ?_, ?_, ?_, ?_, ?_, ?_, ?_, ?_, ?_⟩
    · intro i
      rw [(hf i).2.2.2, hsn.1]
      exact hW.stack_flag i
    · intro i hidx
      rw [(hf i).1] at hidx
      rw [(hf i).2.2.2, (hf i).2.2.1]
      exact hW.visited_state i hidx
    · intro i hi
      rw [hsn.1] at hi
      rw [(hf i).1]
      exact hW.stack_visited i hi
    · rw [hsn.1]
      exact hW.stack_nodup
    · intro i hi
      rw [hsn.1] at hi
      rw [(hf i).1, hsn.2]
      exact hW.stack_bound i hi
    · rw [hsn.2]
      exact hW.next_pos
    · intro i c hc
      rw [hch i] at hc
      rw [hlen]
      by_cases hia : i = a
      · rw [if_pos hia] at hc
        rcases mem_insertSorted hc with hcb | hcm
        · subst hcb
          exact hg.2
        · exact hW.children_bound a c hcm
      · rw [if_neg hia] at hc
        exact hW.children_bound i c hc
    · intro i hi
      rw [hsn.1] at hi
      rw [hlen]
      exact hW.stack_mem_lt i hi
    · intro i hi
      rw [hsn.1] at hi
      rw [(hf i).2.2.1]
      exact hW.stack_unassigned i hi
    · intro i hidx
      rw [(hf i).1] at hidx
      rw [(hf i).2.2.1]
      exact hW.unvisited_unassigned i hidx
    · intro i hidx
      rw [(hf i).1] at hidx
      rw [(hf i).1, (hf i).2.1]
      exact hW.low_le_idx i hidx
    · rw [hsn.1]
      refine List.Pairwise.imp ?_ hW.stack_desc
      intro a b hab
      rw [(hf a).1, (hf b).1]
      exact hab
  · have heq : g.AddEdge a b = g := by
      simp only [HeapGraphWalker.AddEdge]
      rw [if_neg hg]
    rw [heq]
    exact hW

/-- At top level (empty search stack) the low-link search always returns with
the root assigned: the "still on the stack" disjunct is impossible because
the root's low-link cannot drop below the entry next-index. -/
theorem findSCC_top (fuel : Nat) (g : HeapGraphWalker) (v : Nat)
    (g' : HeapGraphWalker)
    (h : HeapGraphWalker.FindSCC fuel g v = some g')
    (hW : SearchInv g) (hstk : g.node_stack = [])
    (hv : v < g.nodes.length) (hidx0 : (g.getNode v).node_index = 0) :
    SearchInv g' ∧ g'.node_stack = [] ∧ g'.nodes.length = g.nodes.length ∧
    (∀ i, (g.getNode i).component ≠ -1 →
      (g'.getNode i).component = (g.getNode i).component) ∧
    (g'.getNode v).component ≠ -1 := by
  obtain ⟨CS, hstrict, hlowpres, hidxv, hBlow, hshape⟩ :=
    findSCC_spec fuel g v g' g.next_node_index h hW hv hidx0 (Nat.le_refl _)
      (by intro i hi; rw [hstk] at hi; simp at hi)
  rcases hshape with ⟨hs, hc⟩ | ⟨w, hw, hlt⟩
  · exact ⟨CS.inv, by rw [hs, hstk], CS.len, CS.comp_pres, hc⟩
  · rw [hidxv] at hlt
    omega

theorem markRoot_tinv (g g' : HeapGraphWalker) (row : Nat)
    (h : g.MarkRoot row = some g')
    (hW : SearchInv g) (hstk : g.node_stack = []) :
    SearchInv g' ∧ g'.node_stack = [] ∧
    (∀ i, (g.getNode i).component ≠ -1 →
      (g'.getNode i).component = (g.getNode i).component) := by
  simp only [HeapGraphWalker.MarkRoot] at h
  split at h
  · rename_i hrow
    split at h
    · exact absurd h (by simp)
    · rename_i g1 hre
      obtain ⟨R1, R2, R3, R4⟩ := reachableNode_tarjanPres _ _ _ _ hre
      have hW1 : SearchInv g1 :=
        searchInv_of_tarjanPres g g1 ⟨R1, R2, R3, R4⟩ hW
      split at h
      · rename_i hidx
        obtain ⟨A1, A2, A3, A4, A5⟩ := findSCC_top _ g1 row g' h hW1
          (by rw [R1, hstk]) (by rw [R3]; exact hrow) hidx
        refine ⟨A1, A2, ?_⟩
        intro i hc
        rw [A4 i (by rw [(R4 i).2.2.1]; exact hc), (R4 i).2.2.1]
      · simp only [Option.some.injEq] at h
        subst h
        refine ⟨hW1, by rw [R1, hstk], ?_⟩
        intro i _
        exact (R4 i).2.2.1
  · simp only [Option.some.injEq] at h
    subst h
    exact ⟨hW, hstk, fun i _ => rfl⟩

theorem calcLoop_tinv : ∀ (l : List Nat) (g g' : HeapGraphWalker),
    g.calcLoop l = some g' → SearchInv g → g.node_stack = [] →
    (∀ i ∈ l, i < g.nodes.length) →
    SearchInv g' ∧ g'.node_stack = [] ∧ g'.nodes.length = g.nodes.length ∧
    (∀ i, (g.getNode i).component ≠ -1 →
      (g'.getNode i).component = (g.getNode i).component) ∧
    (∀ i ∈ l, (g'.getNode i).component ≠ -1) := by
  intro l
  induction l with
  | nil =>
    intro g g' h hW hstk _
    simp only [HeapGraphWalker.calcLoop, Option.some.injEq] at h
    subst h
    exact ⟨hW, hstk, rfl, fun i _ => rfl, by simp⟩
  | cons i rest ih =>
    intro g g' h hW hstk hlen
    simp only [HeapGraphWalker.calcLoop] at h
    split at h
    · rename_i hidx0
      split at h
      · exact absurd h (by simp)
      · rename_i g1 hf
        obtain ⟨hW1, hstk1, hlen1, hcomp1, hcv⟩ :=
          findSCC_top _ g i g1 hf hW hstk (hlen i (List.mem_cons_self _ _)) hidx0
        obtain ⟨RW, Rstk, Rlen, Rcomp, Rall⟩ := ih g1 g' h hW1 hstk1
          (by intro j hj
              rw [hlen1]
              exact hlen j (List.mem_cons_of_mem _ hj))
        refine ⟨RW, Rstk, Rlen.trans hlen1, ?_, ?_⟩
        · intro j hj
          rw [Rcomp j (by rw [hcomp1 j hj]; exact hj), hcomp1 j hj]
        · intro j hj
          rcases List.mem_cons.mp hj with hji | hjr
          · subst hji
            rw [Rcomp j hcv]
            exact hcv
          · exact Rall j hjr
    · rename_i hidx
      have hci : (g.getNode i).component ≠ -1 := by
        rcases hW.visited_state i hidx with hon | hc
        · exfalso
          have := (hW.stack_flag i).mp hon
          rw [hstk] at this
          simp at this
        · exact hc
      obtain ⟨RW, Rstk, Rlen, Rcomp, Rall⟩ := ih g g' h hW hstk
        (fun j hj => hlen j (List.mem_cons_of_mem _ hj))
      refine ⟨RW, Rstk, Rlen, Rcomp, ?_⟩
      intro j hj
      rcases List.mem_cons.mp hj with hji | hjr
      · subst hji
        rw [Rcomp j hci]
        exact hci
      · exact Rall j hjr

theorem calculateRetained_tinv (g g' : HeapGraphWalker)
    (h : g.CalculateRetained = some g')
    (hW : SearchInv g) (hstk : g.node_stack = []) :
    SearchInv g' ∧ g'.node_stack = [] ∧
    (∀ i, (g.getNode i).component ≠ -1 →
      (g'.getNode i).component = (g.getNode i).component) ∧
    (∀ i, i < g'.nodes.length → (g'.getNode i).component ≠ -1) := by
  simp only [HeapGraphWalker.CalculateRetained] at h
  split at h
  · exact absurd h (by simp)
  · rename_i g1 hcl
    split at h
    · simp only [Option.some.injEq] at h
      subst h
      obtain ⟨RW, Rstk, Rlen, Rcomp, Rall⟩ := calcLoop_tinv _ g g1 hcl hW hstk
        (by intro j hj; exact List.mem_range.mp hj)
      refine ⟨RW, Rstk, Rcomp, ?_⟩
      intro i hi
      rw [Rlen] at hi
      exact Rall i (List.mem_range.mpr hi)
    · exact absurd h (by simp)

theorem searchInv_init : SearchInv initWalker := by
  have hget : ∀ i, initWalker.getNode i = defaultNode := by
    intro i
    simp [initWalker, HeapGraphWalker.getNode]
  have hstk : initWalker.node_stack = [] := rfl
  refine ⟨?_, ?_, ?_, ?_, ?_, ?_, ?_, ?_, ?_, ?_, ?_, ?_⟩
  · intro i
    rw [hget i, hstk]
    simp [defaultNode]
  · intro i hidx
    rw [hget i] at hidx
    exact absurd rfl hidx
  · intro i hi
    rw [hstk] at hi
    simp at hi
  · rw [hstk]
    exact List.nodup_nil
  · intro i hi
    rw [hstk] at hi
    simp at hi
  · show 0 < 1
    omega
  · intro i c hc
    rw [hget i] at hc
    simp [defaultNode] at hc
  · intro i hi
    rw [hstk] at hi
    simp at hi
  · intro i hi
    rw [hstk] at hi
    simp at hi
  · intro i _
    rw [hget i]
    rfl
  · intro i hidx
    rw [hget i] at hidx
    exact absurd rfl hidx
  · rw [hstk]
    exact List.Pairwise.nil

theorem step_tinv (g g' : HeapGraphWalker) (op : Op) (h : g.step op = some g')
    (hW : SearchInv g) (hstk : g.node_stack = []) :
    SearchInv g' ∧ g'.node_stack = [] ∧
    (∀ i, (g.getNode i).component ≠ -1 →
      (g'.getNode i).component = (g.getNode i).component) := by
  cases op with
  | addNode r s =>
    simp only [HeapGraphWalker.step, Option.some.injEq] at h
    subst h
    exact ⟨searchInv_addNode g r s hW,
      by rw [(addNode_stack_next g r s).1, hstk],
      fun i _ => (addNode_tarjanFields g r s i).2.2.1⟩
  | addEdge a b =>
    simp only [HeapGraphWalker.step, Option.some.injEq] at h
    subst h
    exact ⟨searchInv_addEdge g a b hW,
      by rw [(addEdge_stack_next g a b).1, hstk],
      fun i _ => (addEdge_tarjanFields g a b i).2.2.1⟩
  | markRoot r =>
    exact markRoot_tinv g g' r h hW hstk
  | calcRetained =>
    obtain ⟨A1, A2, A3, A4⟩ := calculateRetained_tinv g g' h hW hstk
    exact ⟨A1, A2, A3⟩

theorem runOps_tinv : ∀ (ops : List Op) (g g' : HeapGraphWalker),
    g.runOps ops = some g' → SearchInv g → g.node_stack = [] →
    SearchInv g' ∧ g'.node_stack = [] ∧
    (∀ i, (g.getNode i).component ≠ -1 →
      (g'.getNode i).component = (g.getNode i).component) := by
  intro ops
  induction ops with
  | nil =>
    intro g g' h hW hstk
    simp only [HeapGraphWalker.runOps, Option.some.injEq] at h
    subst h
    exact ⟨hW, hstk, fun i _ => rfl⟩
  | cons op rest ih =>
    intro g g' h hW hstk
    simp only [HeapGraphWalker.runOps] at h
    split at h
    · exact absurd h (by simp)
    · rename_i g1 hstep
      obtain ⟨A1, A2, A3⟩ := step_tinv g g1 op hstep hW hstk
      obtain ⟨B1, B2, B3⟩ := ih g1 g' h A1 A2
      refine ⟨B1, B2, ?_⟩
      intro i hc
      rw [B3 i (by rw [A3 i hc]; exact hc), A3 i hc]

theorem runOps_append : ∀ (l1 l2 : List Op) (g g' : HeapGraphWalker),
    g.runOps (l1 ++ l2) = some g' →
    ∃ gm, g.runOps l1 = some gm ∧ gm.runOps l2 = some g' := by
  intro l1
  induction l1 with
  | nil =>
    intro l2 g g' h
    exact ⟨g, rfl, h⟩
  | cons op rest ih =>
    intro l2 g g' h
    simp only [List.cons_append, HeapGraphWalker.runOps] at h
    split at h
    · exact absurd h (by simp)
    · rename_i g1 hstep
      obtain ⟨gm, h1, h2⟩ := ih l2 g1 g' h
      refine ⟨gm, ?_, h2⟩
      have hrw : g.runOps (op :: rest) = g1.runOps rest := by
        simp only [HeapGraphWalker.runOps]
        rw [hstep]
      rw [hrw]
      exact h1

/-- **C3.** After `CalculateRetained()` returns, every registered node has
been assigned to a component (`component ≠ -1`), so the components partition
the node set; and over the whole run no node's component assignment ever
changes from one component id to another: any assignment present in the
state after `CalculateRetained` persists unchanged through every
continuation of the run (each node is assigned exactly once — the fatal
check on a second assignment, modelled by `none`, never fires on a run that
returns `some`). -/
theorem c3_component_partition (ops0 more : List Op) (g g2 : HeapGraphWalker)
    (hrun : initWalker.runOps (ops0 ++ [Op.calcRetained]) = some g)
    (hmore : g.runOps more = some g2) :
    (∀ i, i < g.nodes.length → (g.getNode i).component ≠ -1) ∧
    (∀ i, (g.getNode i).component ≠ -1 →
      (g2.getNode i).component = (g.getNode i).component) := by
  obtain ⟨gm, h1, h2⟩ := runOps_append ops0 [Op.calcRetained] initWalker g hrun
  obtain ⟨hWm, hstkm, -⟩ := runOps_tinv ops0 initWalker gm h1 searchInv_init rfl
  simp only [HeapGraphWalker.runOps, HeapGraphWalker.step] at h2
  split at h2
  · exact absurd h2 (by simp)
  · rename_i g1 hcalc
    simp only [Option.some.injEq] at h2
    subst h2
    obtain ⟨A1, A2, A3, A4⟩ := calculateRetained_tinv gm g1 hcalc hWm hstkm
    exact ⟨A4, (runOps_tinv more g1 g2 hmore A1 A2).2.2⟩

/-- The state after a concrete populate-mark-calculate run, for the C3
witness. -/
def c3wG : HeapGraphWalker :=
  (initWalker.runOps ([Op.addNode 0 10, Op.addNode 1 20, Op.addEdge 0 1,
    Op.markRoot 0] ++ [Op.calcRetained])).getD initWalker

set_option maxRecDepth 10000 in
/-- Witness for `c3_component_partition` at a concrete run. -/
theorem c3_component_partition_witness :
    (∀ i, i < c3wG.nodes.length → (c3wG.getNode i).component ≠ -1) ∧
    (∀ i, (c3wG.getNode i).component ≠ -1 →
      (c3wG.getNode i).component = (c3wG.getNode i).component) :=
  c3_component_partition [Op.addNode 0 10, Op.addNode 1 20, Op.addEdge 0 1,
    Op.markRoot 0] [] c3wG c3wG (by decide) (by decide)

/-! ### Counting toolkit for the incoming-edge conservation argument (C4) -/

theorem sum_map_add (L : List Nat) (f g : Nat → Nat) :
    (L.map (fun u => f u + g u)).sum = (L.map f).sum + (L.map g).sum := by
  induction L with
  | nil => rfl
  | cons x t ih =>
    simp only [List.map_cons, List.sum_cons, ih]
    omega

theorem sum_map_congr (L : List Nat) (f g : Nat → Nat)
    (h : ∀ x ∈ L, f x = g x) : (L.map f).sum = (L.map g).sum := by
  induction L with
  | nil => rfl
  | cons x t ih =>
    simp only [List.map_cons, List.sum_cons]
    rw [h x (List.mem_cons_self _ _),
      ih (fun y hy => h y (List.mem_cons_of_mem _ hy))]

theorem sum_map_zero (L : List Nat) (f : Nat → Nat)
    (h : ∀ x ∈ L, f x = 0) : (L.map f).sum = 0 := by
  induction L with
  | nil => rfl
  | cons x t ih =>
    simp only [List.map_cons, List.sum_cons]
    rw [h x (List.mem_cons_self _ _),
      ih (fun y hy => h y (List.mem_cons_of_mem _ hy))]

theorem sum_single (L : List Nat) (e : Nat) (c : Nat → Nat) (hnd : L.Nodup) :
    (L.map (fun u => if u = e then c u else 0)).sum =
      if e ∈ L then c e else 0 := by
  induction L with
  | nil => simp
  | cons x t ih =>
    simp only [List.map_cons, List.sum_cons]
    have hx := (List.nodup_cons.mp hnd).1
    have ht := (List.nodup_cons.mp hnd).2
    by_cases hxe : x = e
    · subst hxe
      rw [if_pos rfl, ih ht, if_neg hx, if_pos (List.mem_cons_self _ _)]
      omega
    · rw [if_neg hxe, ih ht]
      by_cases he : e ∈ t
      · rw [if_pos he, if_pos (List.mem_cons_of_mem _ he)]
        omega
      · rw [if_neg he, if_neg (by
          intro hc
          rcases List.mem_cons.mp hc with h1 | h1
          · exact hxe h1.symm
          · exact he h1)]

theorem countP_as_sum (L : List Nat) (p : Nat → Bool) :
    L.countP p = (L.map (fun x => if p x = true then 1 else 0)).sum := by
  induction L with
  | nil => rfl
  | cons x t ih =>
    simp only [List.map_cons, List.sum_cons]
    by_cases hx : p x = true
    · rw [List.countP_cons_of_pos _ _ hx, if_pos hx, ih]
      omega
    · rw [List.countP_cons_of_neg _ _ hx, if_neg hx, ih]
      omega

theorem countP_congr_local (L : List Nat) (p q : Nat → Bool)
    (h : ∀ x ∈ L, p x = q x) : L.countP p = L.countP q := by
  rw [countP_as_sum, countP_as_sum]
  refine sum_map_congr L _ _ ?_
  intro x hx
  rw [h x hx]

theorem countP_false_eq_zero (L : List Nat) (p : Nat → Bool)
    (h : ∀ x ∈ L, p x = false) : L.countP p = 0 := by
  rw [countP_as_sum]
  refine sum_map_zero L _ ?_
  intro x hx
  rw [h x hx]
  rfl

theorem countP_split_disjoint (L : List Nat) (p q : Nat → Bool)
    (h : ∀ x ∈ L, ¬(p x = true ∧ q x = true)) :
    L.countP (fun x => p x || q x) = L.countP p + L.countP q := by
  rw [countP_as_sum, countP_as_sum, countP_as_sum, ← sum_map_add]
  refine sum_map_congr L _ _ ?_
  intro x hx
  by_cases hp : p x = true
  · have hq : q x = false := by
      rcases Bool.eq_false_or_eq_true (q x) with h1 | h1
      · exact absurd ⟨hp, h1⟩ (h x hx)
      · exact h1
    rw [hp, hq]
    simp
  · have hp' : p x = false := by
      rcases Bool.eq_false_or_eq_true (p x) with h1 | h1
      · exact absurd h1 hp
      · exact h1
    rw [hp']
    simp

theorem countP_eq_single (L : List Nat) (e : Nat) (hnd : L.Nodup) :
    L.countP (fun u => u == e) = if e ∈ L then 1 else 0 := by
  rw [countP_as_sum]
  have := sum_single L e (fun _ => 1) hnd
  rw [← this]
  refine sum_map_congr L _ _ ?_
  intro x _
  by_cases hx : x = e
  · subst hx
    simp
  · simp [hx]

theorem countP_via_range (L : List Nat) (n : Nat) (Q : Nat → Bool)
    (hnd : L.Nodup) (hbnd : ∀ x ∈ L, x < n) :
    L.countP Q =
      ((List.range n).map (fun u =>
        if u ∈ L ∧ Q u = true then 1 else 0)).sum := by
  induction L with
  | nil =>
    rw [List.countP_nil]
    refine (sum_map_zero _ _ ?_).symm
    intro x _
    simp
  | cons e t ih =>
    have he := (List.nodup_cons.mp hnd).1
    have ht := (List.nodup_cons.mp hnd).2
    have hrw : ∀ u ∈ List.range n,
        (if u ∈ e :: t ∧ Q u = true then 1 else 0) =
          (if u = e then (if Q e = true then 1 else 0) else 0) +
          (if u ∈ t ∧ Q u = true then 1 else 0) := by
      intro u _
      by_cases hue : u = e
      · subst hue
        by_cases hq : Q u = true
        · simp [List.mem_cons, hq, he]
        · simp [hq]
      · by_cases hut : u ∈ t
        · by_cases hq : Q u = true
          · simp [List.mem_cons, hue, hut, hq]
          · simp [hue, hq]
        · simp [List.mem_cons, hue, hut]
    rw [sum_map_congr _ _ _ hrw, sum_map_add]
    have hsing : ((List.range n).map (fun u =>
        if u = e then (if Q e = true then 1 else 0) else 0)).sum =
        if Q e = true then 1 else 0 := by
      rw [sum_single _ e _ (List.nodup_range n),
        if_pos (List.mem_range.mpr (hbnd e (List.mem_cons_self _ _)))]
    rw [hsing, ← ih ht (fun x hx => hbnd x (List.mem_cons_of_mem _ hx))]
    by_cases hq : Q e = true
    · rw [List.countP_cons_of_pos _ _ hq, if_pos hq]
      omega
    · rw [List.countP_cons_of_neg _ _ hq, if_neg hq]
      omega

/-- Double counting of a bipartite edge relation given as mutually inverse
adjacency lists: summing matching parents over `ns` equals summing matching
children over the whole node range. -/
theorem count_swap (len : Nat) (children parents : Nat → List Nat)
    (P : Nat → Bool)
    (hiff : ∀ u w, w ∈ children u ↔ u ∈ parents w)
    (hcnd : ∀ u, (children u).Nodup)
    (hpnd : ∀ w, (parents w).Nodup)
    (hbnd : ∀ u w, w ∈ children u → u < len ∧ w < len) :
    ∀ (ns : List Nat), ns.Nodup →
    (ns.map (fun e => (parents e).countP P)).sum =
      ((List.range len).map (fun u =>
        if P u = true then (children u).countP (fun w => decide (w ∈ ns)) else 0)).sum := by
  intro ns
  induction ns with
  | nil =>
    intro _
    simp only [List.map_nil, List.sum_nil]
    refine (sum_map_zero _ _ ?_).symm
    intro u _
    by_cases hP : P u = true
    · rw [if_pos hP]
      refine countP_false_eq_zero _ _ ?_
      intro w _
      simp
    · rw [if_neg hP]
  | cons e ns' ih =>
    intro hnd
    have he := (List.nodup_cons.mp hnd).1
    have hnd' := (List.nodup_cons.mp hnd).2
    simp only [List.map_cons, List.sum_cons]
    have hrw : ∀ u ∈ List.range len,
        (if P u = true then
          (children u).countP (fun w => decide (w ∈ e :: ns')) else 0) =
        (if u ∈ parents e ∧ P u = true then 1 else 0) +
        (if P u = true then
          (children u).countP (fun w => decide (w ∈ ns')) else 0) := by
      intro u _
      by_cases hP : P u = true
      · rw [if_pos hP, if_pos hP]
        have hc1 : (children u).countP (fun w => decide (w ∈ e :: ns')) =
            (children u).countP (fun w => (w == e) || decide (w ∈ ns')) := by
          refine countP_congr_local _ _ _ ?_
          intro w _
          by_cases hwe : w = e
          · simp [hwe]
          · by_cases hwm : w ∈ ns'
            · simp [hwe, hwm]
            · simp [hwe, hwm]
        have hc2 : (children u).countP (fun w => (w == e) || decide (w ∈ ns')) =
            (children u).countP (fun w => w == e) +
            (children u).countP (fun w => decide (w ∈ ns')) := by
          refine countP_split_disjoint _ _ _ ?_
          intro w _ hc
          have hwe : w = e := by
            have := hc.1
            simpa using this
          have hwm : w ∈ ns' := by
            have := hc.2
            simpa using this
          exact he (hwe ▸ hwm)
        have hc3 : (children u).countP (fun w => w == e) =
            if e ∈ children u then 1 else 0 := countP_eq_single _ _ (hcnd u)
        rw [hc1, hc2, hc3]
        by_cases hm : u ∈ parents e
        · rw [if_pos ((hiff u e).mpr hm), if_pos ⟨hm, hP⟩]
        · rw [if_neg (fun hc => hm ((hiff u e).mp hc)),
            if_neg (fun hc => hm hc.1)]
      · rw [if_neg hP, if_neg (fun hc => hP hc.2), if_neg hP]
    rw [sum_map_congr _ _ _ hrw, sum_map_add]
    have hcnt : ((List.range len).map (fun u =>
        if u ∈ parents e ∧ P u = true then 1 else 0)).sum =
        (parents e).countP P := by
      refine (countP_via_range _ _ _ (hpnd e) ?_).symm
      intro u hu
      exact (hbnd u e ((hiff u e).mpr hu)).1
    rw [hcnt, ih hnd']

/-- Number of edges (u, w) with `u` still unassigned and `w` in component
`k`: the exact value the live incoming-edge counter of `k` must hold. -/
def extCount (g : HeapGraphWalker) (k : Int) : Nat :=
  ((List.range g.nodes.length).map (fun u =>
    if (g.getNode u).component = -1 then
      (g.getNode u).children.countP (fun w => (g.getNode w).component == k)
    else 0)).sum

/-- Total number of (deduplicated) edges of the graph. -/
def totalEdges (g : HeapGraphWalker) : Nat :=
  (g.nodes.map (fun n => n.children.length)).sum

/-- The edge count recorded in a `direct_children_rows` map under key `k`. -/
def dcCountVal (k : Int) (dc : List (Int × DirectChild)) : Nat :=
  ((mapLookup k dc).getD defaultDirectChild).edges_from_current_component

/-- `children`/`parents` are mutually inverse, duplicate-free, in-bounds
adjacency lists (what `AddEdge` maintains). -/
def EdgeInv (g : HeapGraphWalker) : Prop :=
  (∀ u w, w ∈ (g.getNode u).children ↔ u ∈ (g.getNode w).parents) ∧
  (∀ u, (g.getNode u).children.Nodup) ∧
  (∀ u, (g.getNode u).parents.Nodup) ∧
  (∀ u w, w ∈ (g.getNode u).children →
    u < g.nodes.length ∧ w < g.nodes.length)

/-- Assigned component ids are indices into `components_`. -/
def CompBound (g : HeapGraphWalker) : Prop :=
  ∀ j, (g.getNode j).component ≠ -1 →
    0 ≤ (g.getNode j).component ∧
    (g.getNode j).component < (g.components.length : Int)

/-- Every child of an assigned node is assigned (components are finalized
in reverse topological order). -/
def AssignedClosed (g : HeapGraphWalker) : Prop :=
  ∀ u, (g.getNode u).component ≠ -1 →
    ∀ w ∈ (g.getNode u).children, (g.getNode w).component ≠ -1

/-- Every component's live incoming-edge counter is exactly the number of
edges into it from still-unassigned nodes. -/
def CountInv (g : HeapGraphWalker) : Prop :=
  ∀ k : Nat, k < g.components.length →
    (g.getComp (k : Int)).incoming_edges = extCount g (k : Int)

/-- The full accounting invariant for claim C4. -/
def AccInv (g : HeapGraphWalker) : Prop :=
  CompBound g ∧ AssignedClosed g ∧ CountInv g

theorem sum_map_le (L : List Nat) (f g : Nat → Nat)
    (h : ∀ x ∈ L, f x ≤ g x) : (L.map f).sum ≤ (L.map g).sum := by
  induction L with
  | nil => exact Nat.le_refl _
  | cons x t ih =>
    simp only [List.map_cons, List.sum_cons]
    have h1 := h x (List.mem_cons_self _ _)
    have h2 := ih (fun y hy => h y (List.mem_cons_of_mem _ hy))
    omega

theorem sum_over_getD (l : List Node) (f : Node → Nat) (d : Node) :
    ((List.range l.length).map (fun u => f (l.getD u d))).sum = (l.map f).sum := by
  induction l with
  | nil => rfl
  | cons a t ih =>
    rw [List.length_cons, List.range_succ_eq_map]
    simp only [List.map_cons, List.map_map, List.sum_cons, List.getD_cons_zero]
    have hcomp : ((List.range t.length).map
        ((fun u => f ((a :: t).getD u d)) ∘ (· + 1))).sum =
        ((List.range t.length).map (fun u => f (t.getD u d))).sum := by
      refine sum_map_congr _ _ _ ?_
      intro x _
      simp [Function.comp, List.getD_cons_succ]
    rw [hcomp, ih]

theorem extCount_le_totalEdges (g : HeapGraphWalker) (k : Int) :
    extCount g k ≤ totalEdges g := by
  unfold extCount totalEdges
  have h1 : ((List.range g.nodes.length).map (fun u =>
      if (g.getNode u).component = -1 then
        (g.getNode u).children.countP (fun w => (g.getNode w).component == k)
      else 0)).sum ≤
      ((List.range g.nodes.length).map (fun u =>
        (g.getNode u).children.length)).sum := by
    refine sum_map_le _ _ _ ?_
    intro u _
    split
    · exact List.countP_le_length _
    · exact Nat.zero_le _
  have h2 := sum_over_getD g.nodes (fun n => n.children.length) defaultNode
  calc _ ≤ _ := h1
    _ = _ := h2

theorem getNode_modifyComp (g : HeapGraphWalker) (c : Int)
    (f : Component → Component) (j : Nat) :
    (g.modifyComp c f).getNode j = g.getNode j := rfl

theorem length_modifyComp (g : HeapGraphWalker) (c : Int)
    (f : Component → Component) :
    (g.modifyComp c f).components.length = g.components.length := by
  simp [HeapGraphWalker.modifyComp]

theorem nodesLength_modifyComp (g : HeapGraphWalker) (c : Int)
    (f : Component → Component) :
    (g.modifyComp c f).nodes = g.nodes := rfl

theorem mapLookup_cons_ne {α : Type} (k : Int) (v : α)
    (m : List (Int × α)) (j : Int) (hj : j ≠ k) :
    mapLookup j ((k, v) :: m) = mapLookup j m := by
  simp only [mapLookup, if_neg hj]

theorem mapLookup_rest_none {α : Type} (k : Int) (v : α)
    (m : List (Int × α)) (hs : mapKeysSorted ((k, v) :: m) = true) :
    mapLookup k m = none := by
  cases m with
  | nil => rfl
  | cons p rest =>
    obtain ⟨k2, v2⟩ := p
    have hk2 : k < k2 := mapKeysSorted_head_lt _ _ _ _ _ hs
    exact mapLookup_lt_head _ _ _ _ (mapKeysSorted_cons _ _ _ hs) hk2

theorem mem_mapInsert {α : Type} (k : Int) (v : α) :
    ∀ (m : List (Int × α)) (p : Int × α), p ∈ mapInsert k v m →
      p = (k, v) ∨ p ∈ m := by
  intro m
  induction m with
  | nil =>
    intro p hp
    simp [mapInsert] at hp
    exact Or.inl hp
  | cons q rest ih =>
    obtain ⟨k1, v1⟩ := q
    intro p hp
    simp only [mapInsert] at hp
    split at hp
    · rcases List.mem_cons.mp hp with h1 | h1
      · exact Or.inl h1
      · exact Or.inr h1
    · split at hp
      · rcases List.mem_cons.mp hp with h1 | h1
        · exact Or.inl h1
        · exact Or.inr (List.mem_cons_of_mem _ h1)
      · rcases List.mem_cons.mp hp with h1 | h1
        · exact Or.inr (h1 ▸ List.mem_cons_self _ _)
        · rcases ih p h1 with h2 | h2
          · exact Or.inl h2
          · exact Or.inr (List.mem_cons_of_mem _ h2)

/-- The child scan of one popped member: it bumps, per off-stack child in a
foreign component, that component's count in the `direct_children_rows`
map, keeps the map sorted, and (in a successful run) certifies that every
off-stack child is assigned. -/
theorem scanChildren_count (g : HeapGraphWalker) (cid erow : Int)
    (P : Int → Prop) :
    ∀ (cs : List Nat) (dc dc' : List (Int × DirectChild)),
    g.scanChildren cid erow cs dc = some dc' →
    mapKeysSorted dc = true →
    (∀ p ∈ dc, P p.1) →
    (∀ c ∈ cs, (g.getNode c).on_stack ≠ true → (g.getNode c).component ≠ -1 →
      (g.getNode c).component ≠ cid → P ((g.getNode c).component)) →
    mapKeysSorted dc' = true ∧
    (∀ p ∈ dc', P p.1) ∧
    (∀ c ∈ cs, (g.getNode c).on_stack ≠ true → (g.getNode c).component ≠ -1) ∧
    (∀ k : Int, k ≠ cid →
      dcCountVal k dc' = dcCountVal k dc +
        cs.countP (fun c => !(g.getNode c).on_stack &&
          ((g.getNode c).component == k))) := by
  intro cs
  induction cs with
  | nil =>
    intro dc dc' h hs hP _
    simp only [HeapGraphWalker.scanChildren, Option.some.injEq] at h
    subst h
    refine ⟨hs, hP, ?_, ?_⟩
    · intro c hc
      exact absurd hc (List.not_mem_nil c)
    · intro k _
      simp
  | cons c rest ih =>
    intro dc dc' h hs hP hPc
    simp only [HeapGraphWalker.scanChildren] at h
    split at h
    · rename_i hon
      obtain ⟨A1, A2, A3, A4⟩ := ih dc dc' h hs hP
        (fun c2 hc2 => hPc c2 (List.mem_cons_of_mem _ hc2))
      refine ⟨A1, A2, ?_, ?_⟩
      · intro c2 hc2 hnon
        rcases List.mem_cons.mp hc2 with hcc | hcr
        · subst hcc
          exact absurd hon hnon
        · exact A3 c2 hcr hnon
      · intro k hk
        rw [A4 k hk, List.countP_cons_of_neg _ _ (by simp [hon])]
    · rename_i hnon
      split at h
      · exact absurd h (by simp)
      · rename_i hcomp
        split at h
        · rename_i hne
          obtain ⟨A1, A2, A3, A4⟩ := ih _ dc' h
            (mapKeysSorted_mapInsert _ _ _ hs)
            (by intro p hp
                rcases mem_mapInsert _ _ _ p hp with h1 | h1
                · rw [h1]
                  exact hPc c (List.mem_cons_self _ _) hnon hcomp hne
                · exact hP p h1)
            (fun c2 hc2 => hPc c2 (List.mem_cons_of_mem _ hc2))
          refine ⟨A1, A2, ?_, ?_⟩
          · intro c2 hc2 hnon2
            rcases List.mem_cons.mp hc2 with hcc | hcr
            · subst hcc
              exact hcomp
            · exact A3 c2 hcr hnon2
          · intro k hk
            rw [A4 k hk]
            by_cases hkc : k = (g.getNode c).component
            · have hself : dcCountVal k (mapInsert ((g.getNode c).component)
                  ⟨((mapLookup ((g.getNode c).component) dc).getD
                      defaultDirectChild).edges_from_current_component + 1,
                    erow⟩ dc) = dcCountVal k dc + 1 := by
                unfold dcCountVal
                rw [hkc, mapLookup_mapInsert_self]
                rfl
              rw [hself, List.countP_cons_of_pos _ _ (by simp [hnon, hkc])]
              omega
            · have hne2 : dcCountVal k (mapInsert ((g.getNode c).component)
                  ⟨((mapLookup ((g.getNode c).component) dc).getD
                      defaultDirectChild).edges_from_current_component + 1,
                    erow⟩ dc) = dcCountVal k dc := by
                unfold dcCountVal
                rw [mapLookup_mapInsert_ne _ _ _ _ hkc]
              rw [hne2, List.countP_cons_of_neg _ _ (by
                simp only [Bool.and_eq_true, beq_iff_eq]
                intro hcon
                exact hkc hcon.2.symm)]
        · rename_i hne
          obtain ⟨A1, A2, A3, A4⟩ := ih dc dc' h hs hP
            (fun c2 hc2 => hPc c2 (List.mem_cons_of_mem _ hc2))
          have hccid : (g.getNode c).component = cid := by
            by_contra hc
            exact hne hc
          refine ⟨A1, A2, ?_, ?_⟩
          · intro c2 hc2 hnon2
            rcases List.mem_cons.mp hc2 with hcc | hcr
            · subst hcc
              exact hcomp
            · exact A3 c2 hcr hnon2
          · intro k hk
            rw [A4 k hk, List.countP_cons_of_neg _ _ (by
              simp only [Bool.and_eq_true, beq_iff_eq]
              intro hcon
              rw [hccid] at hcon
              exact hk hcon.2.symm)]

/-- The pop loop's `direct_children_rows` accounting: relative to the state
`g0` in force when `FoundSCC` was entered, the map records, for every
foreign component `k`, exactly the number of (member, child) edges into
`k`; and every child of a member is (in `g0`) assigned, a member itself,
already popped, or still on the stack. -/
theorem popLoop_dc (g0 : HeapGraphWalker) (cid : Int) (v : Nat) (P : Int → Prop)
    (HC : ∀ j, (g0.getNode j).component ≠ -1 → (g0.getNode j).component ≠ cid →
      (g0.getNode j).on_stack = false)
    (HP0 : ∀ j, (g0.getNode j).component ≠ -1 → (g0.getNode j).component ≠ cid →
      P ((g0.getNode j).component)) :
    ∀ (st : List Nat) (g : HeapGraphWalker) (accRev : List Nat)
      (dc : List (Int × DirectChild)) (g2 : HeapGraphWalker)
      (ns : List Nat) (dc' : List (Int × DirectChild))
      (w0 rest : List Nat) (Pop : List Nat),
    g.popLoop cid v st accRev dc = some (g2, ns, dc') →
    st = w0 ++ v :: rest →
    v ∉ w0 →
    st.Nodup →
    (∀ i ∈ st, i < g.nodes.length) →
    mapKeysSorted dc = true →
    (∀ p ∈ dc, P p.1) →
    (∀ j, j ∉ Pop → g.getNode j = g0.getNode j) →
    (∀ j ∈ Pop, (g.getNode j).component = cid ∧
      (g.getNode j).on_stack = false ∧ (g0.getNode j).component = -1) →
    (∀ j ∈ Pop, j ∉ st) →
    mapKeysSorted dc' = true ∧
    (∀ p ∈ dc', P p.1) ∧
    ns = accRev.reverse ++ (w0 ++ [v]) ∧
    (∀ k : Int, k ≠ cid → k ≠ -1 →
      dcCountVal k dc' = dcCountVal k dc +
        ((w0 ++ [v]).map (fun e => (g0.getNode e).children.countP
          (fun c => (g0.getNode c).component == k))).sum) ∧
    (∀ e, e ∈ w0 ++ [v] → ∀ c ∈ (g0.getNode e).children,
      (g0.getNode c).component ≠ -1 ∨ c ∈ Pop ∨ c ∈ w0 ++ [v] ∨
      (g0.getNode c).on_stack = true) := by
  intro st
  induction st with
  | nil =>
    intro g accRev dc g2 ns dc' w0 rest Pop h hsp _ _ _ _ _ _ _ _
    exact absurd hsp (by simp)
  | cons e st' ih =>
    intro g accRev dc g2 ns dc' w0 rest Pop h hsp hvw hnd hlen hs hP HA1 HA2 HD
    have hePop : e ∉ Pop := by
      intro hc
      exact HD e hc (List.mem_cons_self _ _)
    have helen : e < g.nodes.length := hlen e (List.mem_cons_self _ _)
    have hgetS : ∀ j, ({ g with node_stack := st' } : HeapGraphWalker).getNode j
        = g.getNode j := fun j => rfl
    have hSget : ∀ j, ((({ g with node_stack := st' } : HeapGraphWalker).modifyNode e
        (fun n => { n with on_stack := false })).modifyNode e
        (fun n => { n with component := cid })).getNode j =
        if j = e then { g.getNode e with on_stack := false, component := cid }
        else g.getNode j := by
      intro j
      by_cases hje : j = e
      · subst hje
        rw [if_pos rfl]
        rw [getNode_modifyNode,
          if_pos ⟨rfl, by simp [HeapGraphWalker.modifyNode]; exact helen⟩]
        rw [getNode_modifyNode, if_pos ⟨rfl, by exact helen⟩]
        rfl
      · rw [if_neg hje]
        rw [getNode_modifyNode, if_neg (by intro hc; exact hje hc.1.symm)]
        rw [getNode_modifyNode, if_neg (by intro hc; exact hje hc.1.symm)]
        rfl
    simp only [HeapGraphWalker.popLoop] at h
    split at h
    · exact absurd h (by simp)
    · rename_i dc2 hscan
      obtain ⟨A1, A2, A3, A4⟩ := scanChildren_count _ cid _ P _ _ _ hscan hs hP
        (by intro c _ hnon hcne hccid
            have hcPop : c ∉ Pop := by
              intro hcp
              exact hccid (HA2 c hcp).1
            have heq := HA1 c hcPop
            rw [hgetS] at hnon hcne hccid ⊢
            rw [heq] at hnon hcne hccid ⊢
            exact HP0 c hcne hccid)
      simp only [hgetS] at A3 A4
      have hcompe_pres : ((({ g with node_stack := st' } : HeapGraphWalker).modifyNode e
          (fun n => { n with on_stack := false })).getNode e).component
          = (g.getNode e).component := by
        rw [getNode_modifyNode, if_pos ⟨rfl, by exact helen⟩]
        rfl
      have htrans : ∀ (k : Int), k ≠ cid → k ≠ -1 →
          (g.getNode e).children.countP (fun c =>
            !((g.getNode c).on_stack) && ((g.getNode c).component == k)) =
          (g0.getNode e).children.countP (fun c =>
            ((g0.getNode c).component == k)) := by
        intro k hk hkn
        have hche : (g.getNode e).children = (g0.getNode e).children := by
          rw [HA1 e hePop]
        rw [hche]
        refine countP_congr_local _ _ _ ?_
        intro c _
        by_cases hc : c ∈ Pop
        · obtain ⟨h1, h2, h3⟩ := HA2 c hc
          have hL : (cid == k) = false :=
            beq_eq_false_iff_ne.mpr (Ne.symm hk)
          have hR : ((-1 : Int) == k) = false :=
            beq_eq_false_iff_ne.mpr (Ne.symm hkn)
          rw [h1, h2, h3, hL, hR]
          simp
        · have heq := HA1 c hc
          rw [heq]
          by_cases hck : (g0.getNode c).component = k
          · have hcne : (g0.getNode c).component ≠ -1 := by
              rw [hck]
              exact hkn
            have hccid : (g0.getNode c).component ≠ cid := by
              rw [hck]
              exact hk
            have hflag := HC c hcne hccid
            rw [hflag, hck]
            simp
          · have hfalse : ((g0.getNode c).component == k) = false :=
              beq_eq_false_iff_ne.mpr hck
            rw [hfalse]
            simp
      have hmemC5 : ∀ c ∈ (g0.getNode e).children,
          (g0.getNode c).component ≠ -1 ∨ c ∈ Pop ∨
          (g.getNode c).on_stack = true := by
        intro c hc
        have hc' : c ∈ (g.getNode e).children := by
          rw [HA1 e hePop]
          exact hc
        by_cases hflag : (g.getNode c).on_stack = true
        · exact Or.inr (Or.inr hflag)
        · have hcomp := A3 c hc' hflag
          by_cases hcp : c ∈ Pop
          · exact Or.inr (Or.inl hcp)
          · refine Or.inl ?_
            rw [← HA1 c hcp]
            exact hcomp
      split at h
      · rename_i hcompe
        rw [hcompe_pres] at hcompe
        have hcompe0 : (g0.getNode e).component = -1 := by
          rw [← HA1 e hePop]
          exact hcompe
        split at h
        · rename_i hev
          subst hev
          simp only [Option.some.injEq, Prod.mk.injEq] at h
          obtain ⟨hg2, hns, hdc⟩ := h
          have hw0 : w0 = [] ∧ st' = rest := by
            cases w0 with
            | nil =>
              simp only [List.nil_append, List.cons.injEq] at hsp
              exact ⟨rfl, hsp.2⟩
            | cons x w1 =>
              simp only [List.cons_append, List.cons.injEq] at hsp
              exact absurd (hsp.1 ▸ List.mem_cons_self x w1) hvw
          obtain ⟨hw0nil, hst⟩ := hw0
          subst hw0nil
          subst hdc
          refine ⟨A1, A2, ?_, ?_, ?_⟩
          · rw [← hns]
            simp
          · intro k hk hkn
            rw [A4 k hk, htrans k hk hkn]
            simp
          · intro e2 he2 c hc
            have he2v : e2 = e := by
              simpa using he2
            subst he2v
            rcases hmemC5 c hc with h1 | h1 | h1
            · exact Or.inl h1
            · exact Or.inr (Or.inl h1)
            · by_cases hcp : c ∈ Pop
              · exact Or.inr (Or.inl hcp)
              · refine Or.inr (Or.inr (Or.inr ?_))
                rw [← HA1 c hcp]
                exact h1
        · rename_i hev
          have hw0 : ∃ w1, w0 = e :: w1 ∧ st' = w1 ++ v :: rest := by
            cases w0 with
            | nil =>
              simp only [List.nil_append, List.cons.injEq] at hsp
              exact absurd hsp.1 hev
            | cons x w1 =>
              simp only [List.cons_append, List.cons.injEq] at hsp
              exact ⟨w1, by rw [hsp.1], hsp.2⟩
          obtain ⟨w1, hw0e, hst⟩ := hw0
          have hvw1 : v ∉ w1 := by
            intro hc
            exact hvw (hw0e ▸ List.mem_cons_of_mem e hc)
          have hnd' : st'.Nodup := (List.nodup_cons.mp hnd).2
          have hent : e ∉ st' := (List.nodup_cons.mp hnd).1
          obtain ⟨B1, B2, B3, B4, B5⟩ := ih _ (e :: accRev) dc2 g2 ns dc'
            w1 rest (e :: Pop) h hst hvw1 hnd'
            (by intro i hi
                have : i < g.nodes.length :=
                  hlen i (List.mem_cons_of_mem _ hi)
                simpa [HeapGraphWalker.modifyNode] using this)
            A1 A2
            (by intro j hj
                have hje : j ≠ e := by
                  intro hc
                  exact hj (hc ▸ List.mem_cons_self _ _)
                have hjPop : j ∉ Pop := by
                  intro hc
                  exact hj (List.mem_cons_of_mem _ hc)
                rw [hSget j, if_neg hje]
                exact HA1 j hjPop)
            (by intro j hj
                rcases List.mem_cons.mp hj with hje | hjp
                · subst hje
                  rw [hSget j, if_pos rfl]
                  exact ⟨rfl, rfl, hcompe0⟩
                · have hje : j ≠ e := by
                    intro hc
                    exact HD j hjp (hc ▸ List.mem_cons_self _ _)
                  rw [hSget j, if_neg hje]
                  exact ⟨(HA2 j hjp).1, (HA2 j hjp).2.1, (HA2 j hjp).2.2⟩)
            (by intro j hj
                rcases List.mem_cons.mp hj with hje | hjp
                · subst hje
                  exact hent
                · intro hc
                  exact HD j hjp (List.mem_cons_of_mem _ hc))
          refine ⟨B1, B2, ?_, ?_, ?_⟩
          · rw [B3, hw0e]
            simp [List.append_assoc]
          · intro k hk hkn
            rw [B4 k hk hkn, A4 k hk, htrans k hk hkn, hw0e]
            simp only [List.cons_append, List.map_cons, List.sum_cons]
            omega
          · intro e2 he2 c hc
            rw [hw0e] at he2
            rw [List.cons_append] at he2
            have hmw : ∀ x, x ∈ w1 ++ [v] → x ∈ w0 ++ [v] := by
              intro x hx
              rw [hw0e, List.cons_append]
              exact List.mem_cons_of_mem _ hx
            rcases List.mem_cons.mp he2 with he2e | he2r
            · subst he2e
              rcases hmemC5 c hc with h1 | h1 | h1
              · exact Or.inl h1
              · exact Or.inr (Or.inl h1)
              · by_cases hcp : c ∈ Pop
                · exact Or.inr (Or.inl hcp)
                · refine Or.inr (Or.inr (Or.inr ?_))
                  rw [← HA1 c hcp]
                  exact h1
            · rcases B5 e2 he2r c hc with h1 | h1 | h1 | h1
              · exact Or.inl h1
              · rcases List.mem_cons.mp h1 with hce | hcp
                · refine Or.inr (Or.inr (Or.inl ?_))
                  rw [hw0e, List.cons_append, hce]
                  exact List.mem_cons_self _ _
                · exact Or.inr (Or.inl hcp)
              · exact Or.inr (Or.inr (Or.inl (hmw c h1)))
              · exact Or.inr (Or.inr (Or.inr h1))
      · exact absurd h (by simp)

/-- The parent scan adds one to the new component's incoming count per
parent outside the component, and touches nothing else. -/
theorem parentLoop_incoming : ∀ (ps : List Nat) (g : HeapGraphWalker) (cid : Int),
    cid.toNat < g.components.length →
    (g.parentLoop cid ps).nodes = g.nodes ∧
    (g.parentLoop cid ps).components.length = g.components.length ∧
    (∀ j : Int, j.toNat ≠ cid.toNat →
      (g.parentLoop cid ps).getComp j = g.getComp j) ∧
    ((g.parentLoop cid ps).getComp cid).incoming_edges =
      (g.getComp cid).incoming_edges +
        ps.countP (fun p => !((g.getNode p).component == cid)) := by
  intro ps
  induction ps with
  | nil =>
    intro g cid hlt
    refine ⟨rfl, rfl, fun j _ => rfl, ?_⟩
    show (g.getComp cid).incoming_edges =
      (g.getComp cid).incoming_edges + List.countP _ []
    simp
  | cons p rest ih =>
    intro g cid hlt
    simp only [HeapGraphWalker.parentLoop]
    split
    · rename_i hne
      set gA := g.modifyComp cid (fun c =>
        { c with incoming_edges := c.incoming_edges + 1 }) with hgA
      have hAnodes : gA.nodes = g.nodes := rfl
      have hAgetN : ∀ j, gA.getNode j = g.getNode j := fun j => rfl
      have hAlen : gA.components.length = g.components.length :=
        length_modifyComp g cid _
      have hAself : gA.getComp cid = { g.getComp cid with
          incoming_edges := (g.getComp cid).incoming_edges + 1 } :=
        getComp_modifyComp_self g cid _ hlt
      have hAne : ∀ j : Int, j.toNat ≠ cid.toNat → gA.getComp j = g.getComp j :=
        fun j hj => getComp_modifyComp_ne g cid j _ (fun hc => hj hc.symm)
      obtain ⟨B1, B2, B3, B4⟩ := ih gA cid (by rw [hAlen]; exact hlt)
      refine ⟨B1.trans hAnodes, B2.trans hAlen, ?_, ?_⟩
      · intro j hj
        rw [B3 j hj, hAne j hj]
      · rw [B4]
        have hval : (gA.getComp cid).incoming_edges =
            (g.getComp cid).incoming_edges + 1 := by
          rw [hAself]
        have hcnt : List.countP (fun q => !((gA.getNode q).component == cid)) rest
            = List.countP (fun q => !((g.getNode q).component == cid)) rest := by
          refine countP_congr_local _ _ _ ?_
          intro q _
          rw [hAgetN q]
        rw [hval, hcnt, List.countP_cons_of_pos _ _ (by
          simp only [Bool.not_eq_true']
          exact beq_eq_false_iff_ne.mpr hne)]
        omega
    · rename_i hne
      have hcomp : (g.getNode p).component = cid := by
        by_contra hc
        exact hne hc
      obtain ⟨B1, B2, B3, B4⟩ := ih g cid hlt
      refine ⟨B1, B2, B3, ?_⟩
      rw [B4, List.countP_cons_of_neg _ _ (by simp [hcomp])]

/-- The second member loop: the new component's incoming count becomes the
sum over members of their external-parent counts; no other component is
touched, and the node table is untouched. -/
theorem incomingLoop_incoming : ∀ (ns : List Nat) (g : HeapGraphWalker) (cid : Int),
    cid.toNat < g.components.length →
    (g.incomingLoop cid ns).nodes = g.nodes ∧
    (g.incomingLoop cid ns).components.length = g.components.length ∧
    (∀ j : Int, j.toNat ≠ cid.toNat →
      (g.incomingLoop cid ns).getComp j = g.getComp j) ∧
    ((g.incomingLoop cid ns).getComp cid).incoming_edges =
      (g.getComp cid).incoming_edges +
        (ns.map (fun e => (g.getNode e).parents.countP
          (fun p => !((g.getNode p).component == cid)))).sum := by
  intro ns
  induction ns with
  | nil =>
    intro g cid hlt
    refine ⟨rfl, rfl, fun j _ => rfl, ?_⟩
    show (g.getComp cid).incoming_edges =
      (g.getComp cid).incoming_edges + (List.map _ []).sum
    simp
  | cons e rest ih =>
    intro g cid hlt
    simp only [HeapGraphWalker.incomingLoop]
    set gA := g.modifyComp cid (fun c =>
      { c with unique_retained_size :=
        (c.unique_retained_size + (g.getNode e).self_size) % U64 }) with hgA
    have hAgetN : ∀ j, gA.getNode j = g.getNode j := fun j => rfl
    have hAlen : gA.components.length = g.components.length :=
      length_modifyComp g cid _
    have hAself : (gA.getComp cid).incoming_edges =
        (g.getComp cid).incoming_edges := by
      rw [getComp_modifyComp_self g cid _ hlt]
    have hAne : ∀ j : Int, j.toNat ≠ cid.toNat → gA.getComp j = g.getComp j :=
      fun j hj => getComp_modifyComp_ne g cid j _ (fun hc => hj hc.symm)
    obtain ⟨P1, P2, P3, P4⟩ :=
      parentLoop_incoming ((g.getNode e).parents) gA cid (by rw [hAlen]; exact hlt)
    set gB := gA.parentLoop cid ((g.getNode e).parents) with hgB
    have hBgetN : ∀ j, gB.getNode j = g.getNode j := by
      intro j
      show (gB.nodes.getD j defaultNode) = _
      rw [P1]
      rfl
    set gC := gB.modifyComp cid (fun c =>
      { c with orig_incoming_edges := c.incoming_edges }) with hgC
    have hCgetN : ∀ j, gC.getNode j = gB.getNode j := fun j => rfl
    have hClen : gC.components.length = gB.components.length :=
      length_modifyComp gB cid _
    have hCself : (gC.getComp cid).incoming_edges =
        (gB.getComp cid).incoming_edges := by
      rw [getComp_modifyComp_self gB cid _ (by rw [P2, hAlen]; exact hlt)]
    have hCne : ∀ j : Int, j.toNat ≠ cid.toNat → gC.getComp j = gB.getComp j :=
      fun j hj => getComp_modifyComp_ne gB cid j _ (fun hc => hj hc.symm)
    obtain ⟨R1, R2, R3, R4⟩ := ih gC cid (by rw [hClen, P2, hAlen]; exact hlt)
    have hCnodes : gC.nodes = g.nodes := by
      show gB.nodes = g.nodes
      rw [P1]
      rfl
    refine ⟨R1.trans hCnodes, ?_, ?_, ?_⟩
    · rw [R2, hClen, P2, hAlen]
    · intro j hj
      rw [R3 j hj, hCne j hj, P3 j hj, hAne j hj]
    · rw [R4, hCself, P4, hAself]
      have hcnt1 : List.countP (fun p => !((gA.getNode p).component == cid))
          ((g.getNode e).parents)
          = List.countP (fun p => !((g.getNode p).component == cid))
            ((g.getNode e).parents) := by
        refine countP_congr_local _ _ _ ?_
        intro q _
        rw [hAgetN q]
      have hcnt2 : (rest.map (fun e2 => (gC.getNode e2).parents.countP
          (fun p => !((gC.getNode p).component == cid)))).sum
          = (rest.map (fun e2 => (g.getNode e2).parents.countP
            (fun p => !((g.getNode p).component == cid)))).sum := by
        refine sum_map_congr _ _ _ ?_
        intro x _
        rw [hCgetN x, hBgetN x]
        refine countP_congr_local _ _ _ ?_
        intro q _
        rw [hCgetN q, hBgetN q]
      rw [hcnt1, hcnt2]
      simp only [List.map_cons, List.sum_cons]
      omega

theorem incoming_modifyComp (g : HeapGraphWalker) (c : Int)
    (f : Component → Component)
    (hf : ∀ x, (f x).incoming_edges = x.incoming_edges) (j : Int) :
    ((g.modifyComp c f).getComp j).incoming_edges =
      (g.getComp j).incoming_edges := by
  by_cases hj : j.toNat = c.toNat
  · have hjc : ∀ (w : HeapGraphWalker), w.getComp j = w.getComp c := by
      intro w
      simp [HeapGraphWalker.getComp, hj]
    rw [hjc, hjc g]
    by_cases hlt : c.toNat < g.components.length
    · rw [getComp_modifyComp_self g c f hlt, hf]
    · have hset : g.components.set c.toNat (f (g.getComp c)) = g.components :=
        List.set_eq_of_length_le (by omega)
    
      show ((({ g with components := g.components.set c.toNat (f (g.getComp c)) }
        : HeapGraphWalker)).getComp c).incoming_edges = _
      rw [hset]
  · rw [getComp_modifyComp_ne g c j f (fun hc => hj hc.symm)]

/-- The grand-child ledger loop never touches any incoming-edge counter,
the node table, or the component count. -/
theorem grandLoop_pres : ∀ (lst : List (Int × Fraction))
    (ctn : List (Int × Int)) (urbn : List (Int × Nat)) (g : HeapGraphWalker)
    (cid child_id : Int) (count : Nat) (last : Int)
    (g' : HeapGraphWalker) (ctn' : List (Int × Int)) (urbn' : List (Int × Nat)),
    g.grandLoop cid child_id count last lst ctn urbn = some (g', ctn', urbn') →
    g'.nodes = g.nodes ∧ g'.components.length = g.components.length ∧
    (∀ j : Int, (g'.getComp j).incoming_edges = (g.getComp j).incoming_edges) := by
  intro lst
  induction lst with
  | nil =>
    intro ctn urbn g cid child_id count last g' ctn' urbn' h
    simp only [HeapGraphWalker.grandLoop, Option.some.injEq, Prod.mk.injEq] at h
    obtain ⟨h1, -, -⟩ := h
    subst h1
    exact ⟨rfl, rfl, fun j => rfl⟩
  | cons p rest ih =>
    obtain ⟨grand_id, frac⟩ := p
    intro ctn urbn g cid child_id count last g' ctn' urbn' h
    simp only [HeapGraphWalker.grandLoop] at h
    split at h
    · exact absurd h (by simp)
    · rename_i multiplier hmk
      split at h
      · exact absurd h (by simp)
      · rename_i prod hmul
        split at h
        · exact absurd h (by simp)
        · rename_i s hadd
          split at h
          · rename_i heq1
            obtain ⟨R1, R2, R3⟩ := ih _ _ _ _ _ _ _ _ _ _ h
            refine ⟨R1.trans rfl, ?_, ?_⟩
            · rw [R2]
              simp only [length_modifyComp]
            · intro j
              rw [R3 j, incoming_modifyComp, incoming_modifyComp,
                incoming_modifyComp]
              all_goals exact fun x => rfl
          · rename_i heq1
            obtain ⟨R1, R2, R3⟩ := ih _ _ _ _ _ _ _ _ _ _ h
            refine ⟨R1.trans rfl, ?_, ?_⟩
            · rw [R2]
              simp only [length_modifyComp]
            · intro j
              rw [R3 j, incoming_modifyComp]
              all_goals exact fun x => rfl

/-- A step that leaves the node table, the component count and every
incoming-edge counter unchanged. -/
def IncPres (g g' : HeapGraphWalker) : Prop :=
  g'.nodes = g.nodes ∧ g'.components.length = g.components.length ∧
  (∀ j : Int, (g'.getComp j).incoming_edges = (g.getComp j).incoming_edges)

theorem incPres_refl (g : HeapGraphWalker) : IncPres g g :=
  ⟨rfl, rfl, fun _ => rfl⟩

theorem incPres_trans {a b c : HeapGraphWalker}
    (h1 : IncPres a b) (h2 : IncPres b c) : IncPres a c :=
  ⟨h2.1.trans h1.1, h2.2.1.trans h1.2.1,
   fun j => (h2.2.2 j).trans (h1.2.2 j)⟩

theorem incPres_modifyComp (g : HeapGraphWalker) (c : Int)
    (f : Component → Component)
    (hf : ∀ x, (f x).incoming_edges = x.incoming_edges) :
    IncPres g (g.modifyComp c f) :=
  ⟨rfl, length_modifyComp g c f, fun j => incoming_modifyComp g c f hf j⟩

theorem grandLoop_incPres {lst : List (Int × Fraction)}
    {ctn : List (Int × Int)} {urbn : List (Int × Nat)} {g : HeapGraphWalker}
    {cid child_id : Int} {count : Nat} {last : Int}
    {g' : HeapGraphWalker} {ctn' : List (Int × Int)} {urbn' : List (Int × Nat)}
    (h : g.grandLoop cid child_id count last lst ctn urbn = some (g', ctn', urbn')) :
    IncPres g g' := by
  obtain ⟨h1, h2, h3⟩ := grandLoop_pres _ _ _ _ _ _ _ _ _ _ _ h
  exact ⟨h1, h2, h3⟩

/-- The children loop decrements, exactly once, the live incoming-edge
counter of every component keyed in `direct_children_rows` by that entry's
edge count (as a wrap-around `uint64` subtraction), and leaves every other
incoming-edge counter, the component count and the node table untouched. -/
theorem childrenLoop_incoming : ∀ (dcl : List (Int × DirectChild))
    (ctn : List (Int × Int)) (urbn : List (Int × Nat)) (g : HeapGraphWalker)
    (cid : Int) (g' : HeapGraphWalker) (ctn' : List (Int × Int))
    (urbn' : List (Int × Nat)),
    g.childrenLoop cid dcl ctn urbn = some (g', ctn', urbn') →
    mapKeysSorted dcl = true →
    (∀ p ∈ dcl, 0 ≤ p.1 ∧ p.1.toNat < g.components.length) →
    g'.nodes = g.nodes ∧
    g'.components.length = g.components.length ∧
    (∀ j : Nat,
      (g'.getComp (j : Int)).incoming_edges =
        match mapLookup (j : Int) dcl with
        | some dcv => ((g.getComp (j : Int)).incoming_edges + U64
            - dcv.edges_from_current_component % U64) % U64
        | none => (g.getComp (j : Int)).incoming_edges) := by
  intro dcl
  induction dcl with
  | nil =>
    intro ctn urbn g cid g' ctn' urbn' h _ _
    simp only [HeapGraphWalker.childrenLoop, Option.some.injEq, Prod.mk.injEq] at h
    obtain ⟨h1, -, -⟩ := h
    subst h1
    exact ⟨rfl, rfl, fun j => rfl⟩
  | cons p rest ih =>
    obtain ⟨k, dcv⟩ := p
    intro ctn urbn g cid g' ctn' urbn' h hs hbnd
    have hk0 : 0 ≤ k := (hbnd (k, dcv) (List.mem_cons_self _ _)).1
    have hklt : k.toNat < g.components.length :=
      (hbnd (k, dcv) (List.mem_cons_self _ _)).2
    simp only [HeapGraphWalker.childrenLoop] at h
    split at h
    · exact absurd h (by simp)
    · rename_i hkcid
      set gdec := g.modifyComp k (fun c =>
        { c with incoming_edges :=
          (c.incoming_edges + U64 - dcv.edges_from_current_component % U64) % U64 })
        with hgdec
      have hdeclen : gdec.components.length = g.components.length :=
        length_modifyComp g k _
      have hdecnodes : gdec.nodes = g.nodes := rfl
      have hdecself : (gdec.getComp k).incoming_edges =
          ((g.getComp k).incoming_edges + U64
            - dcv.edges_from_current_component % U64) % U64 := by
        rw [getComp_modifyComp_self g k _ hklt]
      have hdecne : ∀ j : Int, j.toNat ≠ k.toNat →
          (gdec.getComp j).incoming_edges = (g.getComp j).incoming_edges :=
        fun j hj => by rw [getComp_modifyComp_ne g k j _ (fun hc => hj hc.symm)]
      have hmain : ∀ (gX : HeapGraphWalker) (c3 : List (Int × Int))
          (u3 : List (Int × Nat)), IncPres gdec gX →
          gX.childrenLoop cid rest c3 u3 = some (g', ctn', urbn') →
          g'.nodes = g.nodes ∧
          g'.components.length = g.components.length ∧
          (∀ j : Nat,
            (g'.getComp (j : Int)).incoming_edges =
              match mapLookup (j : Int) ((k, dcv) :: rest) with
              | some dcv2 => ((g.getComp (j : Int)).incoming_edges + U64
                  - dcv2.edges_from_current_component % U64) % U64
              | none => (g.getComp (j : Int)).incoming_edges) := by
        intro gX c3 u3 hrest hX
        obtain ⟨R1, R2, R3⟩ := ih c3 u3 gX cid g' ctn' urbn' hX
          (mapKeysSorted_cons _ _ _ hs)
          (by intro q hq
              refine ⟨(hbnd q (List.mem_cons_of_mem _ hq)).1, ?_⟩
              rw [hrest.2.1, hdeclen]
              exact (hbnd q (List.mem_cons_of_mem _ hq)).2)
        refine ⟨?_, ?_, ?_⟩
        · rw [R1, hrest.1, hdecnodes]
        · rw [R2, hrest.2.1, hdeclen]
        · intro j
          by_cases hjk : (j : Int) = k
          · have hjkt : (j : Int).toNat = k.toNat := by rw [hjk]
            have hjc : ∀ (w : HeapGraphWalker),
                w.getComp (j : Int) = w.getComp k := by
              intro w
              simp [HeapGraphWalker.getComp, hjkt]
            have hlkc : mapLookup (j : Int) ((k, dcv) :: rest) = some dcv := by
              simp only [mapLookup, if_pos hjk]
            have hlkr : mapLookup (j : Int) rest = none := by
              rw [hjk]
              exact mapLookup_rest_none k dcv rest hs
            rw [R3 j]
            simp only [hlkr, hlkc]
            rw [hrest.2.2 (j : Int), hjc gdec, hdecself, hjc g]
          · have hlk : mapLookup (j : Int) ((k, dcv) :: rest)
                = mapLookup (j : Int) rest :=
              mapLookup_cons_ne k dcv rest (j : Int) hjk
            have hjkt : (j : Int).toNat ≠ k.toNat := by omega
            rw [R3 j, hlk]
            cases hlkr : mapLookup (j : Int) rest with
            | none =>
              simp only [hlkr]
              rw [hrest.2.2 (j : Int), hdecne (j : Int) hjkt]
            | some dcv2 =>
              simp only [hlkr]
              rw [hrest.2.2 (j : Int), hdecne (j : Int) hjkt]
      split at h
      · exact absurd h (by simp)
      · rename_i gg ctn2 urbn2 hgrand
        have hgg : IncPres gdec gg := grandLoop_incPres hgrand
        split at h
        · rename_i horig
          split at h
          · exact absurd h (by simp)
          · rename_i hinc0
            split at h
            · rename_i hclear
              refine hmain _ _ _ ?_ h
              repeat'
                first
                  | exact hgg
                  | refine incPres_trans ?_ (incPres_modifyComp _ _ _ (fun x => rfl))
                  | split
            · rename_i hclear
              refine hmain _ _ _ ?_ h
              repeat'
                first
                  | exact hgg
                  | refine incPres_trans ?_ (incPres_modifyComp _ _ _ (fun x => rfl))
                  | split
        · rename_i horig
          split at h
          · exact absurd h (by simp)
          · rename_i f hmk
            split at h
            · exact absurd h (by simp)
            · rename_i s hadd
              split at h
              · rename_i heq1
                split at h
                · rename_i hclear
                  refine hmain _ _ _ ?_ h
                  repeat'
                    first
                      | exact hgg
                      | refine incPres_trans ?_
                          (incPres_modifyComp _ _ _ (fun x => rfl))
                      | split
                · rename_i hclear
                  refine hmain _ _ _ ?_ h
                  repeat'
                    first
                      | exact hgg
                      | refine incPres_trans ?_
                          (incPres_modifyComp _ _ _ (fun x => rfl))
                      | split
              · rename_i heq1
                split at h
                · rename_i hclear
                  refine hmain _ _ _ ?_ h
                  repeat'
                    first
                      | exact hgg
                      | refine incPres_trans ?_
                          (incPres_modifyComp _ _ _ (fun x => rfl))
                      | split
                · rename_i hclear
                  refine hmain _ _ _ ?_ h
                  repeat'
                    first
                      | exact hgg
                      | refine incPres_trans ?_
                          (incPres_modifyComp _ _ _ (fun x => rfl))
                      | split

theorem mapLookup_mem {α : Type} (k : Int) :
    ∀ (m : List (Int × α)) (v : α), mapLookup k m = some v → (k, v) ∈ m := by
  intro m
  induction m with
  | nil =>
    intro v h
    exact absurd h (by simp [mapLookup])
  | cons p rest ih =>
    obtain ⟨k1, v1⟩ := p
    intro v h
    simp only [mapLookup] at h
    split at h
    · rename_i hk
      simp only [Option.some.injEq] at h
      subst h
      subst hk
      exact List.mem_cons_self _ _
    · exact List.mem_cons_of_mem _ (ih v h)

theorem sum_indicator (M : List Nat) (n : Nat) (c : Nat → Nat)
    (hnd : M.Nodup) (hbnd : ∀ e ∈ M, e < n) :
    ((List.range n).map (fun u => if u ∈ M then c u else 0)).sum =
      (M.map c).sum := by
  induction M with
  | nil =>
    simp only [List.map_nil, List.sum_nil]
    refine sum_map_zero _ _ ?_
    intro u _
    simp
  | cons e t ih =>
    have he := (List.nodup_cons.mp hnd).1
    have ht := (List.nodup_cons.mp hnd).2
    have hrw : ∀ u ∈ List.range n,
        (if u ∈ e :: t then c u else 0) =
          (if u = e then c u else 0) + (if u ∈ t then c u else 0) := by
      intro u _
      by_cases hue : u = e
      · subst hue
        simp [List.mem_cons, he]
      · by_cases hut : u ∈ t
        · simp [List.mem_cons, hue, hut]
        · simp [List.mem_cons, hue, hut]
    rw [sum_map_congr _ _ _ hrw, sum_map_add,
      sum_single _ e c (List.nodup_range n),
      if_pos (List.mem_range.mpr (hbnd e (List.mem_cons_self _ _))),
      ih ht (fun x hx => hbnd x (List.mem_cons_of_mem _ hx))]
    simp

theorem getD_append_last {α : Type} (l : List α) (x d : α) :
    (l ++ [x]).getD l.length d = x := by
  rw [List.getD_eq_getElem?_getD, List.getElem?_append_right (Nat.le_refl _)]
  simp

theorem getD_append_lt {α : Type} (l : List α) (x d : α) (j : Nat)
    (hj : j < l.length) : (l ++ [x]).getD j d = l.getD j d := by
  rw [List.getD_eq_getElem?_getD, List.getElem?_append, if_pos hj,
    ← List.getD_eq_getElem?_getD]

theorem emitLoop_components : ∀ (ns : List Nat) (g : HeapGraphWalker)
    (retained : Int) (urbn : List (Int × Nat)),
    (g.emitLoop retained urbn ns).components = g.components := by
  intro ns
  induction ns with
  | nil => intro g retained urbn; rfl
  | cons e rest ih =>
    intro g retained urbn
    simp only [HeapGraphWalker.emitLoop]
    rw [ih]

theorem totalEdges_eq_of (g g' : HeapGraphWalker)
    (hlen : g'.nodes.length = g.nodes.length)
    (hch : ∀ j, (g'.getNode j).children = (g.getNode j).children) :
    totalEdges g' = totalEdges g := by
  unfold totalEdges
  rw [← sum_over_getD g'.nodes (fun n => n.children.length) defaultNode,
    ← sum_over_getD g.nodes (fun n => n.children.length) defaultNode, hlen]
  refine sum_map_congr _ _ _ ?_
  intro u _
  show (g'.getNode u).children.length = (g.getNode u).children.length
  rw [hch u]

theorem edgeInv_of_pres (g g' : HeapGraphWalker)
    (hlen : g'.nodes.length = g.nodes.length)
    (hch : ∀ j, (g'.getNode j).children = (g.getNode j).children)
    (hpar : ∀ j, (g'.getNode j).parents = (g.getNode j).parents)
    (hE : EdgeInv g) : EdgeInv g' := by
  obtain ⟨h1, h2, h3, h4⟩ := hE
  refine ⟨?_, ?_, ?_, ?_⟩
  · intro u w
    rw [hch u, hpar w]
    exact h1 u w
  · intro u
    rw [hch u]
    exact h2 u
  · intro u
    rw [hpar u]
    exact h3 u
  · intro u w hw
    rw [hch u] at hw
    rw [hlen]
    exact h4 u w hw

theorem extCount_after_assign (g g' : HeapGraphWalker) (cid : Int)
    (M : List Nat)
    (hnd : M.Nodup) (hMlen : ∀ e ∈ M, e < g.nodes.length)
    (hlen : g'.nodes.length = g.nodes.length)
    (hch : ∀ j, (g'.getNode j).children = (g.getNode j).children)
    (hMcomp0 : ∀ e ∈ M, (g.getNode e).component = -1)
    (hMcomp : ∀ e ∈ M, (g'.getNode e).component = cid)
    (huntouched : ∀ j, j ∉ M →
      (g'.getNode j).component = (g.getNode j).component)
    (hcid : cid ≠ -1)
    (k : Int) (hk : k ≠ cid) (hkm : k ≠ -1) :
    extCount g k = extCount g' k +
      (M.map (fun e => (g.getNode e).children.countP
        (fun c => (g.getNode c).component == k))).sum := by
  have hinner : ∀ u, (g'.getNode u).children.countP
      (fun w => (g'.getNode w).component == k) =
      (g.getNode u).children.countP
      (fun w => (g.getNode w).component == k) := by
    intro u
    rw [hch u]
    refine countP_congr_local _ _ _ ?_
    intro w _
    by_cases hw : w ∈ M
    · rw [hMcomp w hw, hMcomp0 w hw,
        beq_eq_false_iff_ne.mpr (Ne.symm hk),
        beq_eq_false_iff_ne.mpr (Ne.symm hkm)]
    · rw [huntouched w hw]
  have hpoint : ∀ u ∈ List.range g.nodes.length,
      (if (g.getNode u).component = -1 then
        (g.getNode u).children.countP
          (fun w => (g.getNode w).component == k) else 0) =
      (if (g'.getNode u).component = -1 then
        (g'.getNode u).children.countP
          (fun w => (g'.getNode w).component == k) else 0) +
      (if u ∈ M then
        (g.getNode u).children.countP
          (fun w => (g.getNode w).component == k) else 0) := by
    intro u _
    by_cases hu : u ∈ M
    · have h1 : (g'.getNode u).component ≠ -1 := by
        rw [hMcomp u hu]; exact hcid
      rw [if_pos (hMcomp0 u hu), if_pos hu, if_neg h1]
      omega
    · rw [if_neg hu, hinner u, huntouched u hu]
      omega
  unfold extCount
  rw [hlen, sum_map_congr _ _ _ hpoint, sum_map_add,
    sum_indicator M g.nodes.length _ hnd hMlen]

theorem extCount_new_comp (g g' : HeapGraphWalker) (cid : Int)
    (M : List Nat) (Q : Nat → Bool)
    (hnd : M.Nodup) (hMlen : ∀ e ∈ M, e < g.nodes.length)
    (hlen : g'.nodes.length = g.nodes.length)
    (hch : ∀ j, (g'.getNode j).children = (g.getNode j).children)
    (hMcomp0 : ∀ e ∈ M, (g.getNode e).component = -1)
    (hMcomp : ∀ e ∈ M, (g'.getNode e).component = cid)
    (huntouched : ∀ j, j ∉ M →
      (g'.getNode j).component = (g.getNode j).component)
    (hfresh : ∀ j, (g.getNode j).component ≠ cid)
    (hcid : cid ≠ -1)
    (hE : EdgeInv g) (hA : AssignedClosed g)
    (hQ : ∀ p, Q p = true ↔ p ∉ M) :
    extCount g' cid =
      (M.map (fun e => (g.getNode e).parents.countP Q)).sum := by
  obtain ⟨hiff, hcnd, hpnd, hbnd⟩ := hE
  rw [count_swap g.nodes.length (fun u => (g.getNode u).children)
    (fun w => (g.getNode w).parents) Q hiff hcnd hpnd hbnd M hnd]
  unfold extCount
  rw [hlen]
  refine (sum_map_congr _ _ _ ?_).symm
  intro u _
  have hinner : (g'.getNode u).children.countP
      (fun w => (g'.getNode w).component == cid) =
      (g.getNode u).children.countP (fun w => decide (w ∈ M)) := by
    rw [hch u]
    refine countP_congr_local _ _ _ ?_
    intro w _
    by_cases hw : w ∈ M
    · rw [hMcomp w hw]
      simp [hw]
    · rw [huntouched w hw,
        beq_eq_false_iff_ne.mpr (hfresh w)]
      simp [hw]
  by_cases hu : u ∈ M
  · have h1 : ¬(Q u = true) := fun hc => ((hQ u).mp hc) hu
    have h2 : (g'.getNode u).component ≠ -1 := by
      rw [hMcomp u hu]; exact hcid
    rw [if_neg h1, if_neg h2]
  · have hQu : Q u = true := (hQ u).mpr hu
    have hcc : (g'.getNode u).component = (g.getNode u).component :=
      huntouched u hu
    rw [if_pos hQu, hcc]
    by_cases hc : (g.getNode u).component = -1
    · rw [if_pos hc, hinner]
    · rw [if_neg hc]
      refine countP_false_eq_zero _ _ ?_
      intro w hwmem
      have hwnm : w ∉ M := fun hwm => hA u hc w hwmem (hMcomp0 w hwm)
      simp [hwnm]

theorem getComp_natCast (g : HeapGraphWalker) (k : Nat) :
    g.getComp (k : Int) = g.components.getD k defaultComponent := by
  unfold HeapGraphWalker.getComp
  have ht : ((k : Int)).toNat = k := by omega
  rw [ht]

theorem extCount_congr (g g' : HeapGraphWalker) (k : Int)
    (hlen : g'.nodes.length = g.nodes.length)
    (hcomp : ∀ j, (g'.getNode j).component = (g.getNode j).component)
    (hch : ∀ j, (g'.getNode j).children = (g.getNode j).children) :
    extCount g' k = extCount g k := by
  unfold extCount
  rw [hlen]
  refine sum_map_congr _ _ _ ?_
  intro u _
  rw [hcomp u, hch u]
  by_cases hc : (g.getNode u).component = -1
  · rw [if_pos hc, if_pos hc]
    refine countP_congr_local _ _ _ ?_
    intro w _
    rw [hcomp w]
  · rw [if_neg hc, if_neg hc]

theorem accInv_congr (g g' : HeapGraphWalker)
    (hlen : g'.nodes.length = g.nodes.length)
    (hcomp : ∀ j, (g'.getNode j).component = (g.getNode j).component)
    (hch : ∀ j, (g'.getNode j).children = (g.getNode j).children)
    (hcomps : g'.components = g.components)
    (hA : AccInv g) : AccInv g' := by
  obtain ⟨hCB, hAC, hCI⟩ := hA
  refine ⟨?_, ?_, ?_⟩
  · intro j hj
    rw [hcomp j] at hj ⊢
    rw [hcomps]
    exact hCB j hj
  · intro u hu w hw
    rw [hcomp u] at hu
    rw [hch u] at hw
    rw [hcomp w]
    exact hAC u hu w hw
  · intro k hk
    rw [hcomps] at hk
    have hgc : g'.getComp (k : Int) = g.getComp (k : Int) := by
      unfold HeapGraphWalker.getComp
      rw [hcomps]
    rw [hgc, extCount_congr g g' (k : Int) hlen hcomp hch]
    exact hCI k hk

/-- `FoundSCC` preserves the accounting invariant: the fresh component's
counter is initialized to exactly its external in-edge count, and every
other still-live counter is decremented by exactly the number of edges it
loses, provided the popped segment is closed under on-stack children (the
Tarjan root property). -/
theorem foundSCC_acc (g : HeapGraphWalker) (v : Nat) (g' : HeapGraphWalker)
    (h : g.FoundSCC v = some g')
    (hW : SearchInv g)
    (w0 rest : List Nat) (hstk : g.node_stack = w0 ++ v :: rest) (hvw : v ∉ w0)
    (hclose : ∀ u, (u ∈ w0 ∨ u = v) → ∀ c ∈ (g.getNode u).children,
      c ∈ g.node_stack → (c ∈ w0 ∨ c = v))
    (hacc : AccInv g) (hE : EdgeInv g) (htot : totalEdges g < U64) :
    AccInv g' ∧ EdgeInv g' ∧ totalEdges g' = totalEdges g := by
  obtain ⟨hCB, hAC, hCI⟩ := hacc
  simp only [HeapGraphWalker.FoundSCC] at h
  split at h
  · exact absurd h (by simp)
  · rename_i g2 ns dc hpop
    split at h
    · exact absurd h (by simp)
    · rename_i g3 ctn urbn hcl
      simp only [Option.some.injEq] at h
      obtain ⟨P1, P2, P3, P4, P5, P6, P7⟩ :=
        popLoop_spec _ _ _ _ _ _ _ _ _ w0 rest hpop hstk hvw
          (by intro i hi; exact hW.stack_mem_lt i hi)
      have P6' : ∀ i, (i ∈ w0 ∨ i = v) →
          (g2.getNode i).component = (g.components.length : Int) ∧
          (g2.getNode i).on_stack = false ∧
          (g2.getNode i).node_index = (g.getNode i).node_index ∧
          (g2.getNode i).lowlink = (g.getNode i).lowlink ∧
          (g2.getNode i).children = (g.getNode i).children ∧
          (g2.getNode i).parents = (g.getNode i).parents := P6
      have P7' : ∀ i, ¬(i ∈ w0 ∨ i = v) → g2.getNode i = g.getNode i := P7
      have hcomps2 : g2.components = g.components ++
          [{ defaultComponent with lowlink := (g.getNode v).lowlink }] := P4
      have hcidne : ((g.components.length : Int)) ≠ -1 := by omega
      have hHC : ∀ j, (g.getNode j).component ≠ -1 →
          (g.getNode j).component ≠ (g.components.length : Int) →
          (g.getNode j).on_stack = false := by
        intro j hc _
        cases hf : (g.getNode j).on_stack with
        | false => rfl
        | true =>
          exact absurd (hW.stack_unassigned j ((hW.stack_flag j).mp hf)) hc
      have hHP0 : ∀ j, (g.getNode j).component ≠ -1 →
          (g.getNode j).component ≠ (g.components.length : Int) →
          0 ≤ (g.getNode j).component ∧
          (g.getNode j).component < (g.components.length : Int) := by
        intro j hc _
        exact hCB j hc
      obtain ⟨D1, D2, D3, D4, D5⟩ :=
        popLoop_dc g ((g.components.length : Int)) v
          (fun kk => 0 ≤ kk ∧ kk < (g.components.length : Int)) hHC hHP0
          _ _ _ _ _ _ _ w0 rest [] hpop hstk hvw hW.stack_nodup
          (fun i hi => hW.stack_mem_lt i hi) rfl
          (fun p hp => absurd hp (List.not_mem_nil p))
          (fun j _ => rfl)
          (fun j hj => absurd hj (List.not_mem_nil j))
          (fun j hj => absurd hj (List.not_mem_nil j))
      have hns : ns = w0 ++ [v] := D3
      have hcidlt : ((g.components.length : Int)).toNat < g2.components.length := by
        rw [hcomps2]
        simp
      obtain ⟨I1, I2, I3, I4⟩ :=
        incomingLoop_incoming ns g2 ((g.components.length : Int)) hcidlt
      have hbounds : ∀ p ∈ dc, 0 ≤ p.1 ∧ p.1.toNat <
          (g2.incomingLoop ((g.components.length : Int)) ns).components.length := by
        intro p hp
        obtain ⟨h0, hlt⟩ := D2 p hp
        refine ⟨h0, ?_⟩
        rw [I2, hcomps2]
        simp only [List.length_append, List.length_cons, List.length_nil]
        omega
      obtain ⟨C1n, C2n, C3n⟩ :=
        childrenLoop_incoming dc [] [] _ _ g3 ctn urbn hcl D1 hbounds
      have hcompsE : g'.components = g3.components := by
        rw [← h]
        exact emitLoop_components ns g3 _ urbn
      have hn2 := childrenLoop_nodesPres _ _ _ _ _ _ _ _ hcl
      have hn1 : NodesPres g2 (g2.incomingLoop ((g.components.length : Int)) ns) :=
        incomingLoop_nodesPres ns g2 _
      have hn3 : NodesPres g3 (g3.emitLoop
          (g3.RetainedSize (g3.getComp ((g.components.length : Int)))) urbn ns) :=
        emitLoop_nodesPres ns g3 _ urbn
      have hnp : NodesPres g2 g' :=
        nodesPres_trans hn1 (nodesPres_trans hn2 (h ▸ hn3))
      have hget : ∀ i, g'.getNode i = g2.getNode i := by
        intro i
        simp [HeapGraphWalker.getNode, hnp.1]
      have hlen' : g'.nodes.length = g.nodes.length := by rw [hnp.1, P2]
      have hnodup := hW.stack_nodup
      rw [hstk] at hnodup
      have hmemstk : ∀ i, i ∈ g.node_stack ↔ (i ∈ w0 ∨ i = v) ∨ i ∈ rest := by
        intro i
        rw [hstk]
        simp [List.mem_append, List.mem_cons]
        tauto
      have hMiff : ∀ u, u ∈ w0 ++ [v] ↔ (u ∈ w0 ∨ u = v) := by
        intro u
        simp [List.mem_append]
      have hpopped : ∀ i, (i ∈ w0 ∨ i = v) →
          (g'.getNode i).component = (g.components.length : Int) ∧
          (g'.getNode i).on_stack = false ∧
          (g'.getNode i).node_index = (g.getNode i).node_index ∧
          (g'.getNode i).lowlink = (g.getNode i).lowlink ∧
          (g'.getNode i).children = (g.getNode i).children ∧
          (g'.getNode i).parents = (g.getNode i).parents := by
        intro i hi
        rw [hget]
        exact P6' i hi
      have huntouched : ∀ i, ¬(i ∈ w0 ∨ i = v) → g'.getNode i = g.getNode i := by
        intro i hi
        rw [hget]
        exact P7' i hi
      have hChildren : ∀ j, (g'.getNode j).children = (g.getNode j).children := by
        intro j
        by_cases hp : j ∈ w0 ∨ j = v
        · exact (hpopped j hp).2.2.2.2.1
        · rw [huntouched j hp]
      have hParents : ∀ j, (g'.getNode j).parents = (g.getNode j).parents := by
        intro j
        by_cases hp : j ∈ w0 ∨ j = v
        · exact (hpopped j hp).2.2.2.2.2
        · rw [huntouched j hp]
      have hMnodup : (w0 ++ [v]).Nodup := by
        have hsub : (w0 ++ [v]).Sublist (w0 ++ v :: rest) :=
          List.Sublist.append_left (List.Sublist.cons₂ v (List.nil_sublist rest)) w0
        exact List.Nodup.sublist hsub hnodup
      have hMlen' : ∀ e ∈ w0 ++ [v], e < g.nodes.length := by
        intro e he
        exact hW.stack_mem_lt e ((hmemstk e).mpr (Or.inl ((hMiff e).mp he)))
      have hMcomp0' : ∀ e ∈ w0 ++ [v], (g.getNode e).component = -1 := by
        intro e he
        exact hW.stack_unassigned e ((hmemstk e).mpr (Or.inl ((hMiff e).mp he)))
      have hCompMem : ∀ e ∈ w0 ++ [v],
          (g'.getNode e).component = (g.components.length : Int) := by
        intro e he
        exact (hpopped e ((hMiff e).mp he)).1
      have hCompUn : ∀ j, j ∉ w0 ++ [v] →
          (g'.getNode j).component = (g.getNode j).component := by
        intro j hj
        rw [huntouched j (fun hc => hj ((hMiff j).mpr hc))]
      have hfresh' : ∀ j, (g.getNode j).component ≠ (g.components.length : Int) := by
        intro j hc
        by_cases hne : (g.getNode j).component = -1
        · rw [hne] at hc
          omega
        · have := (hCB j hne).2
          omega
      have hlenC' : g'.components.length = g.components.length + 1 := by
        rw [hcompsE, C2n, I2, hcomps2]
        simp
      have hGC : ∀ j : Int, g'.getComp j = g3.getComp j := by
        intro j
        unfold HeapGraphWalker.getComp
        rw [hcompsE]
      have hfreshinc : (g2.getComp ((g.components.length : Int))).incoming_edges
          = 0 := by
        rw [getComp_natCast, hcomps2, getD_append_last]
        rfl
      have hCB' : CompBound g' := by
        intro j hj
        rw [hlenC']
        by_cases hp : j ∈ w0 ∨ j = v
        · rw [(hpopped j hp).1]
          refine ⟨by omega, by omega⟩
        · rw [huntouched j hp] at hj ⊢
          obtain ⟨h0, hlt⟩ := hCB j hj
          exact ⟨h0, by omega⟩
      have hAC' : AssignedClosed g' := by
        intro u hu w hw
        rw [hChildren u] at hw
        by_cases hp : u ∈ w0 ∨ u = v
        · rcases D5 u ((hMiff u).mpr hp) w hw with hcase | hcase | hcase | hcase
          · have hwnm : ¬(w ∈ w0 ∨ w = v) := fun hc =>
              hcase (hW.stack_unassigned w ((hmemstk w).mpr (Or.inl hc)))
            rw [huntouched w hwnm]
            exact hcase
          · exact absurd hcase (List.not_mem_nil w)
          · rw [(hpopped w ((hMiff w).mp hcase)).1]
            exact hcidne
          · have hwstk : w ∈ g.node_stack := (hW.stack_flag w).mp hcase
            rw [(hpopped w (hclose u hp w hw hwstk)).1]
            exact hcidne
        · rw [huntouched u hp] at hu
          have hcw := hAC u hu w hw
          have hwnm : ¬(w ∈ w0 ∨ w = v) := fun hc =>
            hcw (hW.stack_unassigned w ((hmemstk w).mpr (Or.inl hc)))
          rw [huntouched w hwnm]
          exact hcw
      have hQiff : ∀ p,
          (!((g2.getNode p).component == (g.components.length : Int))) = true ↔
          p ∉ w0 ++ [v] := by
        intro p
        constructor
        · intro hq hp
          rw [(P6' p ((hMiff p).mp hp)).1] at hq
          simp at hq
        · intro hp
          have hpc : (g2.getNode p).component = (g.getNode p).component := by
            rw [P7' p (fun hc => hp ((hMiff p).mpr hc))]
          rw [hpc, beq_eq_false_iff_ne.mpr (hfresh' p)]
          rfl
      have hEN := extCount_new_comp g g' ((g.components.length : Int)) (w0 ++ [v])
        (fun p => !((g2.getNode p).component == (g.components.length : Int)))
        hMnodup hMlen' hlen' hChildren hMcomp0' hCompMem hCompUn hfresh' hcidne
        hE hAC hQiff
      have hCI' : CountInv g' := by
        intro k hk
        rw [hlenC'] at hk
        have hval := C3n k
        by_cases hkL : k = g.components.length
        · have hcast : ((k : Int)) = (g.components.length : Int) := by
            rw [hkL]
          have hlk : mapLookup ((k : Int)) dc = none := by
            cases hl : mapLookup ((k : Int)) dc with
            | none => rfl
            | some x =>
              have h2 := (D2 _ (mapLookup_mem _ dc x hl)).2
              exact absurd h2 (by omega)
          simp only [hlk] at hval
          rw [hGC, hval, hcast, I4, hfreshinc, Nat.zero_add, hns, hEN]
          refine sum_map_congr _ _ _ ?_
          intro e he
          rw [(P6' e ((hMiff e).mp he)).2.2.2.2.2]
        · have hkl : k < g.components.length := by omega
          have hkint : ((k : Int)) ≠ (g.components.length : Int) := by omega
          have hknegone : ((k : Int)) ≠ -1 := by omega
          have htoNe : ((k : Int)).toNat ≠
              ((g.components.length : Int)).toNat := by omega
          have hComp2k : g2.getComp ((k : Int)) = g.getComp ((k : Int)) := by
            rw [getComp_natCast, hcomps2, getD_append_lt _ _ _ _ hkl,
              getComp_natCast]
          have hCIk : (g.getComp ((k : Int))).incoming_edges =
              extCount g ((k : Int)) := hCI k hkl
          have hEA := extCount_after_assign g g' ((g.components.length : Int))
            (w0 ++ [v]) hMnodup hMlen' hlen' hChildren hMcomp0' hCompMem hCompUn
            hcidne ((k : Int)) hkint hknegone
          have hD4k := D4 ((k : Int)) hkint hknegone
          have hdc0 : dcCountVal ((k : Int)) ([] : List (Int × DirectChild)) = 0 :=
            rfl
          rw [hdc0, Nat.zero_add] at hD4k
          cases hlk : mapLookup ((k : Int)) dc with
          | some dcv =>
            simp only [hlk] at hval
            have hcount : dcv.edges_from_current_component =
                ((w0 ++ [v]).map (fun e => (g.getNode e).children.countP
                  (fun c => (g.getNode c).component == ((k : Int))))).sum := by
              rw [← hD4k]
              unfold dcCountVal
              rw [hlk]
              rfl
            have hSle : ((w0 ++ [v]).map (fun e => (g.getNode e).children.countP
                (fun c => (g.getNode c).component == ((k : Int))))).sum ≤
                extCount g ((k : Int)) := by omega
            have hEtot : extCount g ((k : Int)) < U64 :=
              lt_of_le_of_lt (extCount_le_totalEdges g ((k : Int))) htot
            have h1 : extCount g ((k : Int)) + U64 -
                ((w0 ++ [v]).map (fun e => (g.getNode e).children.countP
                  (fun c => (g.getNode c).component == ((k : Int))))).sum =
                extCount g' ((k : Int)) + U64 := by omega
            rw [hGC, hval, I3 ((k : Int)) htoNe, hComp2k, hCIk, hcount,
              Nat.mod_eq_of_lt (lt_of_le_of_lt hSle hEtot), h1,
              Nat.add_mod_right]
            exact Nat.mod_eq_of_lt (by omega)
          | none =>
            simp only [hlk] at hval
            have hS0 : ((w0 ++ [v]).map (fun e => (g.getNode e).children.countP
                (fun c => (g.getNode c).component == ((k : Int))))).sum = 0 := by
              have hdcn : dcCountVal ((k : Int)) dc = 0 := by
                unfold dcCountVal
                rw [hlk]
                rfl
              omega
            rw [hGC, hval, I3 ((k : Int)) htoNe, hComp2k, hCIk]
            omega
      exact ⟨⟨hCB', hAC', hCI'⟩,
        edgeInv_of_pres g g' hlen' hChildren hParents hE,
        totalEdges_eq_of g g' hlen' hChildren⟩

/-- The accounting state carried through the low-link search: the
accounting invariant, well-formed adjacency lists, and an edge total small
enough that the `uint64` counter arithmetic is exact. -/
def AccPack (g : HeapGraphWalker) : Prop :=
  AccInv g ∧ EdgeInv g ∧ totalEdges g < U64

/-- Accounting specification of (a fuel instance of) the low-link
search. -/
def AccSpec (find : HeapGraphWalker → Nat → Option HeapGraphWalker) : Prop :=
  ∀ (g : HeapGraphWalker) (v : Nat) (g' : HeapGraphWalker),
    find g v = some g' →
    SearchInv g →
    v < g.nodes.length →
    (g.getNode v).node_index = 0 →
    AccPack g →
    AccPack g' ∧ totalEdges g' = totalEdges g

theorem modifyNode_len (g : HeapGraphWalker) (i : Nat) (f : Node → Node) :
    (g.modifyNode i f).nodes.length = g.nodes.length := by
  simp [HeapGraphWalker.modifyNode]

theorem accPack_congr (g g' : HeapGraphWalker)
    (hlen : g'.nodes.length = g.nodes.length)
    (hcomp : ∀ j, (g'.getNode j).component = (g.getNode j).component)
    (hch : ∀ j, (g'.getNode j).children = (g.getNode j).children)
    (hpar : ∀ j, (g'.getNode j).parents = (g.getNode j).parents)
    (hcomps : g'.components = g.components)
    (h : AccPack g) : AccPack g' ∧ totalEdges g' = totalEdges g := by
  obtain ⟨hA, hE, ht⟩ := h
  have hte := totalEdges_eq_of g g' hlen hch
  exact ⟨⟨accInv_congr g g' hlen hcomp hch hcomps hA,
    edgeInv_of_pres g g' hlen hch hpar hE, by rw [hte]; exact ht⟩, hte⟩

theorem modifyNode_accFields (g : HeapGraphWalker) (i : Nat) (f : Node → Node)
    (hf : ∀ n, (f n).component = n.component ∧ (f n).children = n.children ∧
      (f n).parents = n.parents) (j : Nat) :
    ((g.modifyNode i f).getNode j).component = (g.getNode j).component ∧
    ((g.modifyNode i f).getNode j).children = (g.getNode j).children ∧
    ((g.modifyNode i f).getNode j).parents = (g.getNode j).parents := by
  rw [getNode_modifyNode]
  split
  · rename_i hc
    obtain ⟨h1, -⟩ := hc
    subst h1
    exact hf (g.getNode i)
  · exact ⟨rfl, rfl, rfl⟩

theorem accPack_modifyNode (g : HeapGraphWalker) (i : Nat) (f : Node → Node)
    (hf : ∀ n, (f n).component = n.component ∧ (f n).children = n.children ∧
      (f n).parents = n.parents)
    (h : AccPack g) :
    AccPack (g.modifyNode i f) ∧
    totalEdges (g.modifyNode i f) = totalEdges g :=
  accPack_congr g (g.modifyNode i f) (modifyNode_len g i f)
    (fun j => (modifyNode_accFields g i f hf j).1)
    (fun j => (modifyNode_accFields g i f hf j).2.1)
    (fun j => (modifyNode_accFields g i f hf j).2.2)
    rfl h

theorem accPack_searchPush (g : HeapGraphWalker) (v : Nat)
    (h : AccPack g) :
    AccPack (searchPush g v) ∧ totalEdges (searchPush g v) = totalEdges g :=
  accPack_congr g (searchPush g v) (searchPush_len g v)
    (fun j => (modifyNode_accFields g v
      (fun n => { n with node_index := g.next_node_index
                         lowlink := g.next_node_index
                         on_stack := true }) (fun n => ⟨rfl, rfl, rfl⟩) j).1)
    (fun j => (modifyNode_accFields g v
      (fun n => { n with node_index := g.next_node_index
                         lowlink := g.next_node_index
                         on_stack := true }) (fun n => ⟨rfl, rfl, rfl⟩) j).2.1)
    (fun j => (modifyNode_accFields g v
      (fun n => { n with node_index := g.next_node_index
                         lowlink := g.next_node_index
                         on_stack := true }) (fun n => ⟨rfl, rfl, rfl⟩) j).2.2)
    rfl h

/-- The child loop of `FindSCC` preserves the accounting state, given that
the recursive search does. -/
theorem sccChildren_acc
    (findRec : HeapGraphWalker → Nat → Option HeapGraphWalker)
    (hfind : FindSpec findRec) (hfacc : AccSpec findRec)
    (v : Nat) (g' : HeapGraphWalker) :
    ∀ (cs : List Nat) (g : HeapGraphWalker),
    HeapGraphWalker.sccChildren findRec g v cs = some g' →
    SearchInv g →
    (∀ c ∈ cs, c < g.nodes.length) →
    v < g.nodes.length →
    (g.getNode v).node_index ≠ 0 →
    AccPack g →
    AccPack g' ∧ totalEdges g' = totalEdges g := by
  intro cs
  induction cs with
  | nil =>
    intro g h hW hcs hv hvidx hpack
    simp only [HeapGraphWalker.sccChildren, Option.some.injEq] at h
    subst h
    exact ⟨hpack, rfl⟩
  | cons c rest ih =>
    intro g h hW hcs hv hvidx hpack
    have hclen : c < g.nodes.length := hcs c (List.mem_cons_self _ _)
    simp only [HeapGraphWalker.sccChildren] at h
    split at h
    · rename_i hcidx0
      split at h
      · exact absurd h (by simp)
      · rename_i g1 hfc
        obtain ⟨FS, -, -, -, -, -, -⟩ :=
          hfind g c g1 0 hfc hW hclen hcidx0 (Nat.zero_le _)
            (fun i _ => Nat.zero_le _)
        obtain ⟨hpack1, hte1⟩ := hfacc g c g1 hfc hW hclen hcidx0 hpack
        have hvidx1 : (g1.getNode v).node_index ≠ 0 := by
          rw [FS.idx_pres v hvidx]
          exact hvidx
        have hvlen1 : v < g1.nodes.length := by
          rw [FS.len]
          exact hv
        by_cases hpull : (g1.getNode c).lowlink < (g1.getNode v).lowlink
        · rw [if_pos hpull] at h
          have hW2 : SearchInv (g1.modifyNode v (fun n =>
              { n with lowlink := (g1.getNode c).lowlink })) :=
            searchInv_set_lowlink g1 v _ (fun hidx =>
              Nat.le_trans (Nat.le_of_lt hpull) (FS.inv.low_le_idx v hidx))
              FS.inv
          obtain ⟨hpack2, hte2⟩ := accPack_modifyNode g1 v
            (fun n => { n with lowlink := (g1.getNode c).lowlink })
            (fun n => ⟨rfl, rfl, rfl⟩) hpack1
          obtain ⟨hpackR, hteR⟩ := ih _ h hW2
            (by intro c2 hc2
                rw [modifyNode_len, FS.len]
                exact hcs c2 (List.mem_cons_of_mem _ hc2))
            (by rw [modifyNode_len]; exact hvlen1)
            (by rw [(getNode_set_lowlink g1 v _ v).2.1]; exact hvidx1)
            hpack2
          exact ⟨hpackR, by rw [hteR, hte2, hte1]⟩
        · rw [if_neg hpull] at h
          obtain ⟨hpackR, hteR⟩ := ih g1 h FS.inv
            (by intro c2 hc2
                rw [FS.len]
                exact hcs c2 (List.mem_cons_of_mem _ hc2))
            hvlen1 hvidx1 hpack1
          exact ⟨hpackR, by rw [hteR, hte1]⟩
    · rename_i hcidx0
      split at h
      · rename_i hcstk
        by_cases hpull : (g.getNode c).node_index < (g.getNode v).lowlink
        · rw [if_pos hpull] at h
          have hW2 : SearchInv (g.modifyNode v (fun n =>
              { n with lowlink := (g.getNode c).node_index })) :=
            searchInv_set_lowlink g v _ (fun hidx =>
              Nat.le_trans (Nat.le_of_lt hpull) (hW.low_le_idx v hidx)) hW
          obtain ⟨hpack2, hte2⟩ := accPack_modifyNode g v
            (fun n => { n with lowlink := (g.getNode c).node_index })
            (fun n => ⟨rfl, rfl, rfl⟩) hpack
          obtain ⟨hpackR, hteR⟩ := ih _ h hW2
            (by intro c2 hc2
                rw [modifyNode_len]
                exact hcs c2 (List.mem_cons_of_mem _ hc2))
            (by rw [modifyNode_len]; exact hv)
            (by rw [(getNode_set_lowlink g v _ v).2.1]; exact hvidx)
            hpack2
          exact ⟨hpackR, by rw [hteR, hte2]⟩
        · rw [if_neg hpull] at h
          exact ih g h hW (fun c2 hc2 => hcs c2 (List.mem_cons_of_mem _ hc2))
            hv hvidx hpack
      · exact ih g h hW (fun c2 hc2 => hcs c2 (List.mem_cons_of_mem _ hc2))
          hv hvidx hpack

/-- The low-link search preserves the accounting state at every fuel. -/
theorem findSCC_acc : ∀ fuel, AccSpec (HeapGraphWalker.FindSCC fuel) := by
  intro fuel
  induction fuel with
  | zero =>
    intro g v g' h _ _ _ _
    exact absurd h (by simp [HeapGraphWalker.FindSCC])
  | succ fuel ih =>
    intro g v g' h hW hv hvidx0 hpack
    have hbody : HeapGraphWalker.FindSCC (Nat.succ fuel) g v =
        (match HeapGraphWalker.sccChildren (HeapGraphWalker.FindSCC fuel)
            (searchPush g v) v (((searchPush g v).getNode v).children) with
         | none => none
         | some g3 =>
           if (g3.getNode v).lowlink = (g3.getNode v).node_index then
             g3.FoundSCC v
           else some g3) := rfl
    rw [hbody] at h
    split at h
    · exact absurd h (by simp)
    · rename_i g3 hsc
      have hget2 := fun j => searchPush_getNode g v j hv
      have hlen2 := searchPush_len g v
      have hvnotstk : v ∉ g.node_stack := fun hc => hW.stack_visited v hc hvidx0
      have hvidx2 : ((searchPush g v).getNode v).node_index
          = g.next_node_index := by
        rw [hget2 v, if_pos rfl]
      have hchild2 : ∀ j, ((searchPush g v).getNode j).children
          = (g.getNode j).children := by
        intro j
        rw [hget2 j]
        by_cases hj : j = v
        · subst hj
          rw [if_pos rfl]
        · rw [if_neg hj]
      have hInv2 := searchPush_inv g v hW hv hvidx0
      obtain ⟨CS, -, -, -, Cshape, CS1, CS2⟩ :=
        sccChildren_spec _ (findSCC_spec fuel) v g3 0 _ _ hsc hInv2
          (by intro c hc
              rw [hchild2 v] at hc
              rw [hlen2]
              exact hW.children_bound v c hc)
          (by rw [hlen2]; exact hv)
          (by rw [hvidx2]; have := hW.next_pos; omega)
          (Nat.zero_le _)
          (fun i _ => Nat.zero_le _)
          (Nat.zero_le _)
          (by rw [searchPush_stack]; exact List.mem_cons_self _ _)
      obtain ⟨hpackP, hteP⟩ := accPack_searchPush g v hpack
      obtain ⟨hpack3, hte3⟩ := sccChildren_acc _ (findSCC_spec fuel) ih v g3
        _ _ hsc hInv2
        (by intro c hc
            rw [hchild2 v] at hc
            rw [hlen2]
            exact hW.children_bound v c hc)
        (by rw [hlen2]; exact hv)
        (by rw [hvidx2]; have := hW.next_pos; omega)
        hpackP
      split at h
      · rename_i hlowidx
        obtain ⟨w, hw⟩ := Cshape
        rw [searchPush_stack] at hw
        have hvw : v ∉ w := by
          intro hvin
          have hnd := CS.inv.stack_nodup
          rw [hw] at hnd
          exact (List.disjoint_of_nodup_append hnd) hvin
            (List.mem_cons_self _ _)
        have hdesc := CS.inv.stack_desc
        rw [hw] at hdesc
        have hrest : ∀ r ∈ g.node_stack,
            (g3.getNode r).node_index < (g3.getNode v).node_index := by
          have hsub := List.Pairwise.sublist
            (List.sublist_append_right w (v :: g.node_stack)) hdesc
          exact fun r hr => (List.pairwise_cons.mp hsub).1 r hr
        have hstk3mem : ∀ x, x ∈ g3.node_stack ↔
            x ∈ w ∨ x = v ∨ x ∈ g.node_stack := by
          intro x
          rw [hw]
          simp [List.mem_append, List.mem_cons]
        have hdisj : ∀ x ∈ w, x ∉ v :: g.node_stack := by
          have hnd := CS.inv.stack_nodup
          rw [hw] at hnd
          exact fun x hx => (List.disjoint_of_nodup_append hnd) hx
        have hclose : ∀ u, (u ∈ w ∨ u = v) → ∀ c2 ∈ (g3.getNode u).children,
            c2 ∈ g3.node_stack → (c2 ∈ w ∨ c2 = v) := by
          intro u hu c2 hc2 hc2stk
          have hlowle : (g3.getNode v).lowlink
              ≤ (g3.getNode c2).node_index := by
            rcases hu with hu | hu
            · have hu3 : u ∈ g3.node_stack := by
                rw [hw]
                exact List.mem_append_left _ hu
              have hunotin : u ∉ (searchPush g v).node_stack := by
                rw [searchPush_stack]
                exact hdisj u hu
              exact (CS2 u hu3 hunotin).2 c2 hc2 hc2stk
            · subst hu
              rw [CS.children_pres u] at hc2
              exact CS1 c2 hc2 hc2stk
          rw [hlowidx] at hlowle
          rcases (hstk3mem c2).mp hc2stk with hcw | hcv | hcr
          · exact Or.inl hcw
          · exact Or.inr hcv
          · exact absurd (hrest c2 hcr) (by omega)
        obtain ⟨hAI3, hEI3, htot3⟩ := hpack3
        obtain ⟨hA', hE', hte'⟩ := foundSCC_acc g3 v g' h CS.inv w
          g.node_stack hw hvw hclose hAI3 hEI3 htot3
        refine ⟨⟨hA', hE', by rw [hte']; exact htot3⟩, ?_⟩
        rw [hte', hte3, hteP]
      · obtain rfl : g3 = g' := by simpa using h
        exact ⟨hpack3, by rw [hte3, hteP]⟩

theorem mem_insertSorted_iff {x y : Nat} :
    ∀ {l : List Nat}, x ∈ insertSorted y l ↔ (x = y ∨ x ∈ l) := by
  intro l
  induction l with
  | nil => simp [insertSorted]
  | cons k rest ih =>
    simp only [insertSorted]
    by_cases h1 : y < k
    · rw [if_pos h1]
      simp only [List.mem_cons]
    · rw [if_neg h1]
      by_cases h2 : y = k
      · rw [if_pos h2]
        subst h2
        simp only [List.mem_cons]
        tauto
      · rw [if_neg h2]
        simp only [List.mem_cons, ih]
        tauto

theorem insertSorted_pairwise {y : Nat} :
    ∀ {l : List Nat}, l.Pairwise (· < ·) →
    (insertSorted y l).Pairwise (· < ·) := by
  intro l
  induction l with
  | nil =>
    intro _
    simp [insertSorted]
  | cons k rest ih =>
    intro hp
    obtain ⟨hk, hrest⟩ := List.pairwise_cons.mp hp
    simp only [insertSorted]
    by_cases h1 : y < k
    · rw [if_pos h1]
      refine List.pairwise_cons.mpr ⟨?_, hp⟩
      intro z hz
      rcases List.mem_cons.mp hz with rfl | hz2
      · exact h1
      · exact Nat.lt_trans h1 (hk z hz2)
    · rw [if_neg h1]
      by_cases h2 : y = k
      · rw [if_pos h2]
        exact hp
      · rw [if_neg h2]
        refine List.pairwise_cons.mpr ⟨?_, ih hrest⟩
        intro z hz
        rcases mem_insertSorted_iff.mp hz with rfl | hz2
        · omega
        · exact hk z hz2

theorem pairwise_lt_nodup (l : List Nat) (h : l.Pairwise (· < ·)) : l.Nodup :=
  List.Pairwise.imp (fun hlt => Nat.ne_of_lt hlt) h

theorem addNode_parents (g : HeapGraphWalker) (row size j : Nat) :
    ((g.AddNode row size).getNode j).parents = (g.getNode j).parents := by
  rw [addNode_getNode]
  by_cases hj : j = row
  · subst hj
    by_cases hl : j < g.nodes.length
    · rw [if_pos rfl, if_pos hl]
    · rw [if_pos rfl, if_neg hl, getNode_oob g j (by omega)]
  · rw [if_neg hj]
    by_cases hl : j < g.nodes.length
    · rw [if_pos hl]
    · rw [if_neg hl, getNode_oob g j (by omega)]

theorem addNode_components (g : HeapGraphWalker) (row size : Nat) :
    (g.AddNode row size).components = g.components := by
  simp only [HeapGraphWalker.AddNode]
  split <;> rfl

theorem addEdge_components (g : HeapGraphWalker) (a b : Nat) :
    (g.AddEdge a b).components = g.components := by
  simp only [HeapGraphWalker.AddEdge]
  split <;> rfl

theorem addEdge_parents (g : HeapGraphWalker) (a b j : Nat)
    (hg : a < g.nodes.length ∧ b < g.nodes.length) :
    ((g.AddEdge a b).getNode j).parents =
      if j = b then insertSorted a (g.getNode b).parents
      else (g.getNode j).parents := by
  simp only [HeapGraphWalker.AddEdge, if_pos hg]
  have hinner : ∀ j' : Nat,
      ((g.modifyNode a (fun n =>
        { n with children := insertSorted b n.children })).getNode j').parents =
      (g.getNode j').parents := by
    intro j'
    rw [getNode_modifyNode]
    split
    · rename_i hc
      obtain ⟨haj, -⟩ := hc
      subst haj
      rfl
    · rfl
  rw [getNode_modifyNode]
  by_cases hjb : b = j
  · subst hjb
    rw [if_pos ⟨rfl, by rw [modifyNode_len]; exact hg.2⟩, if_pos rfl]
    exact congrArg (insertSorted a) (hinner b)
  · rw [if_neg (by intro hc; exact hjb hc.1), if_neg (fun hc => hjb hc.symm)]
    exact hinner j

/-- Stronger form of `EdgeInv`: the adjacency lists are strictly sorted,
which is what `std::set` maintains and what `insertSorted` preserves. -/
def EdgeStrict (g : HeapGraphWalker) : Prop :=
  (∀ u w, w ∈ (g.getNode u).children ↔ u ∈ (g.getNode w).parents) ∧
  (∀ u, (g.getNode u).children.Pairwise (· < ·)) ∧
  (∀ u, (g.getNode u).parents.Pairwise (· < ·)) ∧
  (∀ u w, w ∈ (g.getNode u).children →
    u < g.nodes.length ∧ w < g.nodes.length)

theorem edgeInv_of_strict (g : HeapGraphWalker) (h : EdgeStrict g) :
    EdgeInv g :=
  ⟨h.1, fun u => pairwise_lt_nodup _ (h.2.1 u),
    fun u => pairwise_lt_nodup _ (h.2.2.1 u), h.2.2.2⟩

/-- State invariant of the populate phase: no component assigned yet, no
component objects, and well-formed sorted adjacency lists. -/
def PopInv (g : HeapGraphWalker) : Prop :=
  (∀ j, (g.getNode j).component = -1) ∧ g.components = [] ∧ EdgeStrict g

theorem popInv_init : PopInv initWalker := by
  refine ⟨fun j => rfl, rfl, ?_, ?_, ?_, ?_⟩
  · intro u w
    constructor
    · intro hc
      exact absurd hc (List.not_mem_nil w)
    · intro hc
      exact absurd hc (List.not_mem_nil u)
  · intro u
    exact List.Pairwise.nil
  · intro u
    exact List.Pairwise.nil
  · intro u w hw
    exact absurd hw (List.not_mem_nil w)

theorem popInv_addNode (g : HeapGraphWalker) (row size : Nat)
    (h : PopInv g) : PopInv (g.AddNode row size) := by
  obtain ⟨hcomp, hcomps, hiff, hpc, hpp, hb⟩ := h
  refine ⟨?_, ?_, ?_, ?_, ?_, ?_⟩
  · intro j
    rw [(addNode_tarjanFields g row size j).2.2.1]
    exact hcomp j
  · rw [addNode_components]
    exact hcomps
  · intro u w
    rw [(addNode_tarjanFields g row size u).2.2.2.2, addNode_parents]
    exact hiff u w
  · intro u
    rw [(addNode_tarjanFields g row size u).2.2.2.2]
    exact hpc u
  · intro u
    rw [addNode_parents]
    exact hpp u
  · intro u w hw
    rw [(addNode_tarjanFields g row size u).2.2.2.2] at hw
    have hb2 := hb u w hw
    have hge := addNode_length_ge g row size
    omega

theorem popInv_addEdge (g : HeapGraphWalker) (a b : Nat)
    (h : PopInv g) : PopInv (g.AddEdge a b) := by
  obtain ⟨hcomp, hcomps, hiff, hpc, hpp, hb⟩ := h
  by_cases hg : a < g.nodes.length ∧ b < g.nodes.length
  · have hch := fun j => addEdge_children g a b j hg
    have hpar := fun j => addEdge_parents g a b j hg
    have hlen := addEdge_length g a b
    refine ⟨?_, ?_, ?_, ?_, ?_, ?_⟩
    · intro j
      rw [(addEdge_tarjanFields g a b j).2.2.1]
      exact hcomp j
    · rw [addEdge_components]
      exact hcomps
    · intro u w
      rw [hch u, hpar w]
      by_cases hua : u = a
      · subst hua
        by_cases hwb : w = b
        · subst hwb
          rw [if_pos rfl, if_pos rfl]
          constructor
          · intro _
            exact mem_insertSorted_iff.mpr (Or.inl rfl)
          · intro _
            exact mem_insertSorted_iff.mpr (Or.inl rfl)
        · rw [if_pos rfl, if_neg hwb]
          constructor
          · intro hmem
            rcases mem_insertSorted_iff.mp hmem with rfl | hmem2
            · exact absurd rfl hwb
            · exact (hiff u w).mp hmem2
          · intro hmem
            exact mem_insertSorted_iff.mpr (Or.inr ((hiff u w).mpr hmem))
      · by_cases hwb : w = b
        · subst hwb
          rw [if_neg hua, if_pos rfl]
          constructor
          · intro hmem
            exact mem_insertSorted_iff.mpr (Or.inr ((hiff u w).mp hmem))
          · intro hmem
            rcases mem_insertSorted_iff.mp hmem with rfl | hmem2
            · exact absurd rfl hua
            · exact (hiff u w).mpr hmem2
        · rw [if_neg hua, if_neg hwb]
          exact hiff u w
    · intro u
      rw [hch u]
      by_cases hua : u = a
      · subst hua
        rw [if_pos rfl]
        exact insertSorted_pairwise (hpc u)
      · rw [if_neg hua]
        exact hpc u
    · intro u
      rw [hpar u]
      by_cases hub : u = b
      · subst hub
        rw [if_pos rfl]
        exact insertSorted_pairwise (hpp u)
      · rw [if_neg hub]
        exact hpp u
    · intro u w hw
      rw [hlen]
      rw [hch u] at hw
      by_cases hua : u = a
      · subst hua
        rw [if_pos rfl] at hw
        rcases mem_insertSorted_iff.mp hw with rfl | hw2
        · exact ⟨hg.1, hg.2⟩
        · exact hb u w hw2
      · rw [if_neg hua] at hw
        exact hb u w hw
  · have hid : g.AddEdge a b = g := by
      simp only [HeapGraphWalker.AddEdge]
      rw [if_neg hg]
    rw [hid]
    exact ⟨hcomp, hcomps, hiff, hpc, hpp, hb⟩

/-- Call sequences of pure graph construction. -/
def buildOnly : List Op → Bool
  | [] => true
  | Op.addNode _ _ :: rest => buildOnly rest
  | Op.addEdge _ _ :: rest => buildOnly rest
  | _ => false

/-- Call sequences of root markings only. -/
def marksOnly : List Op → Bool
  | [] => true
  | Op.markRoot _ :: rest => marksOnly rest
  | _ => false

theorem buildRun_pop : ∀ (ops : List Op) (g g' : HeapGraphWalker),
    buildOnly ops = true → g.runOps ops = some g' → PopInv g → PopInv g' := by
  intro ops
  induction ops with
  | nil =>
    intro g g' _ h hp
    simp only [HeapGraphWalker.runOps, Option.some.injEq] at h
    subst h
    exact hp
  | cons op rest ih =>
    intro g g' hb h hp
    cases op with
    | addNode r s =>
      simp only [HeapGraphWalker.runOps, HeapGraphWalker.step] at h
      exact ih _ _ hb h (popInv_addNode g r s hp)
    | addEdge a b =>
      simp only [HeapGraphWalker.runOps, HeapGraphWalker.step] at h
      exact ih _ _ hb h (popInv_addEdge g a b hp)
    | markRoot r =>
      simp [buildOnly] at hb
    | calcRetained =>
      simp [buildOnly] at hb

theorem reachableNode_accFields : ∀ (fuel : Nat) (g : HeapGraphWalker)
    (work : List Nat) (g' : HeapGraphWalker),
    HeapGraphWalker.ReachableNode fuel g work = some g' →
    g'.components = g.components ∧
    (∀ j, (g'.getNode j).component = (g.getNode j).component ∧
      (g'.getNode j).children = (g.getNode j).children ∧
      (g'.getNode j).parents = (g.getNode j).parents) := by
  intro fuel
  induction fuel with
  | zero =>
    intro g work g' h
    exact absurd h (by simp [HeapGraphWalker.ReachableNode])
  | succ fuel ih =>
    intro g work g' h
    cases work with
    | nil =>
      simp only [HeapGraphWalker.ReachableNode, Option.some.injEq] at h
      subst h
      exact ⟨rfl, fun j => ⟨rfl, rfl, rfl⟩⟩
    | cons i rest =>
      simp only [HeapGraphWalker.ReachableNode] at h
      split at h
      · split at h
        · exact ih g rest g' h
        · obtain ⟨hc1, hf1⟩ := ih _ _ _ h
          refine ⟨by rw [hc1], ?_⟩
          intro j
          have hm := modifyNode_accFields g i
            (fun n => { n with reachable := true })
            (fun n => ⟨rfl, rfl, rfl⟩) j
          obtain ⟨ha, hb, hc⟩ := hf1 j
          refine ⟨?_, ?_, ?_⟩
          · rw [ha]
            exact hm.1
          · rw [hb]
            exact hm.2.1
          · rw [hc]
            exact hm.2.2
      · exact ih g rest g' h

/-- `MarkRoot` preserves the search state, the edge total and the
accounting pack. -/
theorem markRoot_acc (g g' : HeapGraphWalker) (row : Nat)
    (h : g.MarkRoot row = some g')
    (hW : SearchInv g) (hstk : g.node_stack = []) :
    SearchInv g' ∧ g'.node_stack = [] ∧
    totalEdges g' = totalEdges g ∧ (AccPack g → AccPack g') := by
  simp only [HeapGraphWalker.MarkRoot] at h
  split at h
  · rename_i hrow
    split at h
    · exact absurd h (by simp)
    · rename_i g1 hre
      obtain ⟨R1, R2, R3, R4⟩ := reachableNode_tarjanPres _ _ _ _ hre
      obtain ⟨RC, RF⟩ := reachableNode_accFields _ _ _ _ hre
      have hW1 : SearchInv g1 :=
        searchInv_of_tarjanPres g g1 ⟨R1, R2, R3, R4⟩ hW
      have hte1 : totalEdges g1 = totalEdges g :=
        totalEdges_eq_of g g1 R3 (fun j => (R4 j).2.2.2.2)
      have hpack1 : AccPack g → AccPack g1 := fun hp =>
        (accPack_congr g g1 R3 (fun j => (RF j).1) (fun j => (RF j).2.1)
          (fun j => (RF j).2.2) RC hp).1
      split at h
      · rename_i hidx
        have hv1 : row < g1.nodes.length := by
          rw [R3]
          exact hrow
        obtain ⟨A1, A2, A3, A4, A5⟩ := findSCC_top _ g1 row g' h hW1
          (by rw [R1, hstk]) hv1 hidx
        obtain ⟨CS2, -, -, -, -, -, -⟩ :=
          findSCC_spec _ g1 row g' g1.next_node_index h hW1 hv1 hidx
            (Nat.le_refl _)
            (by intro i hi
                rw [R1, hstk] at hi
                simp at hi)
        have hte2 : totalEdges g' = totalEdges g1 :=
          totalEdges_eq_of g1 g' CS2.len CS2.children_pres
        refine ⟨A1, A2, by rw [hte2, hte1], ?_⟩
        intro hp
        exact (findSCC_acc _ g1 row g' h hW1 hv1 hidx (hpack1 hp)).1
      · simp only [Option.some.injEq] at h
        subst h
        exact ⟨hW1, by rw [R1, hstk], hte1, hpack1⟩
  · simp only [Option.some.injEq] at h
    subst h
    exact ⟨hW, hstk, rfl, id⟩

theorem marksRun_acc : ∀ (ops : List Op) (g g' : HeapGraphWalker),
    marksOnly ops = true → g.runOps ops = some g' →
    SearchInv g → g.node_stack = [] →
    SearchInv g' ∧ g'.node_stack = [] ∧
    totalEdges g' = totalEdges g ∧ (AccPack g → AccPack g') := by
  intro ops
  induction ops with
  | nil =>
    intro g g' _ h hW hstk
    simp only [HeapGraphWalker.runOps, Option.some.injEq] at h
    subst h
    exact ⟨hW, hstk, rfl, id⟩
  | cons op rest ih =>
    intro g g' hm h hW hstk
    cases op with
    | addNode r s => simp [marksOnly] at hm
    | addEdge a b => simp [marksOnly] at hm
    | calcRetained => simp [marksOnly] at hm
    | markRoot r =>
      simp only [HeapGraphWalker.runOps, HeapGraphWalker.step] at h
      split at h
      · exact absurd h (by simp)
      · rename_i g1 hmr
        obtain ⟨hW1, hstk1, hte1, hp1⟩ := markRoot_acc g g1 r hmr hW hstk
        obtain ⟨hW2, hstk2, hte2, hp2⟩ := ih g1 g' hm h hW1 hstk1
        exact ⟨hW2, hstk2, by rw [hte2, hte1], fun hp => hp2 (hp1 hp)⟩

theorem calcLoop_acc : ∀ (l : List Nat) (g g' : HeapGraphWalker),
    g.calcLoop l = some g' → SearchInv g →
    (∀ i ∈ l, i < g.nodes.length) →
    AccPack g →
    AccPack g' ∧ totalEdges g' = totalEdges g := by
  intro l
  induction l with
  | nil =>
    intro g g' h _ _ hp
    simp only [HeapGraphWalker.calcLoop, Option.some.injEq] at h
    subst h
    exact ⟨hp, rfl⟩
  | cons i rest ih =>
    intro g g' h hW hbnd hp
    have hilen : i < g.nodes.length := hbnd i (List.mem_cons_self _ _)
    simp only [HeapGraphWalker.calcLoop] at h
    split at h
    · rename_i hidx
      split at h
      · exact absurd h (by simp)
      · rename_i g1 hf
        obtain ⟨hp1, hte1⟩ := findSCC_acc _ g i g1 hf hW hilen hidx hp
        obtain ⟨CS, -, -, -, -, -⟩ :=
          findSCC_spec _ g i g1 0 hf hW hilen hidx
            (Nat.zero_le _) (fun t _ => Nat.zero_le _)
        obtain ⟨hp2, hte2⟩ := ih g1 g' h CS.inv
          (by intro t ht
              rw [CS.len]
              exact hbnd t (List.mem_cons_of_mem _ ht))
          hp1
        exact ⟨hp2, by rw [hte2, hte1]⟩
    · obtain ⟨hp2, hte2⟩ := ih g g' h hW
        (fun t ht => hbnd t (List.mem_cons_of_mem _ ht)) hp
      exact ⟨hp2, hte2⟩

/-! ### Claim C4: incoming-edge counter conservation -/

/-- The populate part of the C4 counterexample run: both edge endpoints are
registered before the edge is added, but the edge arrives after the root
marking. -/
def c4cexOps : List Op :=
  [Op.addNode 0 1, Op.addNode 1 1, Op.markRoot 0, Op.addEdge 0 1]

/-- The state reached by the C4 counterexample populate part. -/
def c4cexG : HeapGraphWalker := (initWalker.runOps c4cexOps).getD initWalker

/-- The state after the sweep loop of `CalculateRetained` in the C4
counterexample (the sweep itself succeeds). -/
def c4cexGS : HeapGraphWalker :=
  (c4cexG.calcLoop (List.range c4cexG.nodes.length)).getD initWalker

set_option maxRecDepth 10000 in
/-- C4 (counterexample): for the syntactically valid call sequence
`AddNode(0), AddNode(1), MarkRoot(0), AddEdge(0, 1), CalculateRetained()`
(every edge endpoint registered before the edge is added) the sweep loop
completes, yet a component's live incoming-edge counter ends nonzero, so
the fatal consistency check in `CalculateRetained` fires (the run returns
`none`): the edge added after `MarkRoot` is counted into the already
finalized component's ledger baseline but never decremented. -/
theorem c4_incoming_edges_counterexample :
    run (c4cexOps ++ [Op.calcRetained]) = none ∧
    initWalker.runOps c4cexOps = some c4cexG ∧
    c4cexG.calcLoop (List.range c4cexG.nodes.length) = some c4cexGS ∧
    c4cexGS.components.all (fun c => c.incoming_edges = 0) = false := by
  refine ⟨?_, ?_, ?_, ?_⟩ <;> decide

set_option maxRecDepth 10000 in
/-- C4 (amended): for every run that performs all graph construction before
the first root marking (the documented populate-then-mark contract), at the
start of `CalculateRetained` every component's live incoming-edge counter
holds exactly the number of edges into it from still-unassigned nodes
(counter conservation — in particular no decrement ever underflows), after
the sweep every counter is exactly zero, and the fatal consistency check
never fires: `CalculateRetained` succeeds whenever its sweep does. -/
theorem c4_incoming_edges_amended (pre marks : List Op)
    (g gl : HeapGraphWalker)
    (hpre : buildOnly pre = true)
    (hmarks : marksOnly marks = true)
    (hrun : initWalker.runOps (pre ++ marks) = some g)
    (htot : totalEdges g < U64)
    (hcl : g.calcLoop (List.range g.nodes.length) = some gl) :
    (∀ k : Nat, k < g.components.length →
      (g.getComp (k : Int)).incoming_edges = extCount g (k : Int)) ∧
    (∀ k : Nat, k < gl.components.length →
      (gl.getComp (k : Int)).incoming_edges = 0) ∧
    g.CalculateRetained = some gl := by
  obtain ⟨gm, h1, h2⟩ := runOps_append pre marks initWalker g hrun
  obtain ⟨hWm, hstkm, -⟩ := runOps_tinv pre initWalker gm h1 searchInv_init rfl
  obtain ⟨hcompm, hcompsm, hESm⟩ := buildRun_pop pre initWalker gm hpre h1 popInv_init
  obtain ⟨hWg, hstkg, hteg, hpackimp⟩ := marksRun_acc marks gm g hmarks h2 hWm hstkm
  have hpackm : AccPack gm := by
    refine ⟨⟨?_, ?_, ?_⟩, edgeInv_of_strict gm hESm, ?_⟩
    · intro j hj
      exact absurd (hcompm j) hj
    · intro u hu
      exact absurd (hcompm u) hu
    · intro k hk
      rw [hcompsm] at hk
      exact absurd hk (by simp)
    · rw [← hteg]
      exact htot
  obtain ⟨⟨hCBg, hACg, hCIg⟩, hEg, htotg⟩ := hpackimp hpackm
  obtain ⟨hWl, hstkl, hlenl, hcompPresl, hAlll⟩ :=
    calcLoop_tinv (List.range g.nodes.length) g gl hcl hWg hstkg
      (by intro i hi; exact List.mem_range.mp hi)
  obtain ⟨⟨⟨hCBl, hACl, hCIl⟩, -, -⟩, -⟩ :=
    calcLoop_acc (List.range g.nodes.length) g gl hcl hWg
      (by intro i hi; exact List.mem_range.mp hi)
      ⟨⟨hCBg, hACg, hCIg⟩, hEg, htotg⟩
  have hzero : ∀ k : Nat, k < gl.components.length →
      (gl.getComp (k : Int)).incoming_edges = 0 := by
    intro k hk
    rw [hCIl k hk]
    unfold extCount
    refine sum_map_zero _ _ ?_
    intro u hu
    have hu' : (gl.getNode u).component ≠ -1 :=
      hAlll u (List.mem_range.mpr (by
        rw [← hlenl]
        exact List.mem_range.mp hu))
    rw [if_neg hu']
  refine ⟨hCIg, hzero, ?_⟩
  simp only [HeapGraphWalker.CalculateRetained]
  rw [hcl]
  have hall : gl.components.all (fun c => c.incoming_edges = 0) = true := by
    rw [List.all_eq_true]
    intro c hc
    obtain ⟨idx2, hidx2, heq⟩ := List.mem_iff_getElem.mp hc
    have hz := hzero idx2 hidx2
    rw [getComp_natCast, List.getD_eq_getElem?_getD,
      List.getElem?_eq_getElem hidx2, Option.getD_some, heq] at hz
    simpa using hz
  show (if gl.components.all (fun c => c.incoming_edges = 0) = true then
    some gl else none) = some gl
  rw [if_pos hall]

/-- The populate part of the C4 witness run. -/
def c4wPre : List Op := [Op.addNode 0 10, Op.addNode 1 20, Op.addEdge 0 1]

/-- The mark part of the C4 witness run. -/
def c4wMarks : List Op := [Op.markRoot 0]

/-- The state of the C4 witness run before `CalculateRetained`. -/
def c4wG : HeapGraphWalker :=
  (initWalker.runOps (c4wPre ++ c4wMarks)).getD initWalker

/-- The state of the C4 witness run after the sweep loop. -/
def c4wGL : HeapGraphWalker :=
  (c4wG.calcLoop (List.range c4wG.nodes.length)).getD initWalker

set_option maxRecDepth 10000 in
/-- Witness for `c4_incoming_edges_amended` at a concrete run. -/
theorem c4_incoming_edges_amended_witness :
    buildOnly c4wPre = true ∧ marksOnly c4wMarks = true ∧
    initWalker.runOps (c4wPre ++ c4wMarks) = some c4wG ∧
    totalEdges c4wG < U64 ∧
    c4wG.calcLoop (List.range c4wG.nodes.length) = some c4wGL ∧
    ((∀ k : Nat, k < c4wG.components.length →
      (c4wG.getComp (k : Int)).incoming_edges = extCount c4wG (k : Int)) ∧
    (∀ k : Nat, k < c4wGL.components.length →
      (c4wGL.getComp (k : Int)).incoming_edges = 0) ∧
    c4wG.CalculateRetained = some c4wGL) :=
  ⟨by decide, by decide, by decide, by decide, by decide,
    c4_incoming_edges_amended c4wPre c4wMarks c4wG c4wGL (by decide)
      (by decide) (by decide) (by decide) (by decide)⟩
